import Mathlib

/-!
# Verification of the pathfinding core of `Path_visualizer`

Shallow embedding of `src/algorithms.js`: the priority queue, the grid
helpers, path reconstruction and the five search algorithms (Dijkstra,
BFS, DFS, A*, Greedy best-first), together with proofs about them.

Conventions of the embedding:

* A grid is a list of rows; each cell is its `isWall` flag (the only cell
  attribute the algorithms read).  `grid[0].length` is used as the column
  count, exactly as in the source.
* JavaScript `Infinity` distances are `Option Nat` with `none` playing the
  role of `Infinity`; `undefined` results are `none`.
* `previousNodes` / `distances` / `visited` matrices are modelled as total
  functions from coordinates, updated pointwise; code only ever reads and
  writes in-bounds entries on the grids the claims quantify over.
* The `while` loops run on explicit fuel `rows*cols + 1`; the loop bodies
  are straight transcriptions of the source.  Fuel never runs out on the
  runs the theorems talk about (this is proved where it matters).
* The backward walk of `getNodesInShortestPathOrder` also runs on fuel and
  returns `none` if the fuel is exhausted, i.e. if the JavaScript loop
  would still be running; termination is proved for all predecessor maps
  the algorithms produce.
-/

namespace PathVis

/-- A grid coordinate; `row`/`col` as in the source. -/
structure Coord where
  row : Nat
  col : Nat
deriving DecidableEq, Repr

/-- A grid: rows of cells, each cell reduced to its `isWall` flag. -/
abbrev Grid := List (List Bool)

/-- `grid.length` -/
def rowsOf (g : Grid) : Nat := g.length

/-- `grid[0].length` (the source always uses row 0 for the column count). -/
def colsOf (g : Grid) : Nat := (g.headD []).length

/-- `grid[row][col].isWall`. -/
def isWallAt (g : Grid) (c : Coord) : Bool :=
  (g.getD c.row []).getD c.col false

/-- The grid is rectangular: every row has the length of row 0. -/
def Rect (g : Grid) : Prop := ∀ r ∈ g, r.length = colsOf g

instance : DecidablePred Rect := fun g =>
  decidable_of_iff (∀ r ∈ g, r.length = colsOf g) Iff.rfl

/-- `isValidPosition(row, col, grid)` for coordinates that are already ≥ 0. -/
def inBounds (g : Grid) (c : Coord) : Prop :=
  c.row < rowsOf g ∧ c.col < colsOf g

instance (g : Grid) : DecidablePred (inBounds g) := fun _ => by
  unfold inBounds; infer_instance

/-- `getNeighbors(row, col, grid)`: up, down, left, right, each kept when
`isValidPosition` holds (the `row-1 ≥ 0` / `col-1 ≥ 0` checks of the source
become the `c.row ≠ 0` / `c.col ≠ 0` guards). -/
def getNeighbors (g : Grid) (c : Coord) : List Coord :=
  (if c.row ≠ 0 ∧ c.row - 1 < rowsOf g ∧ c.col < colsOf g then
    [⟨c.row - 1, c.col⟩] else []) ++
  (if c.row + 1 < rowsOf g ∧ c.col < colsOf g then
    [⟨c.row + 1, c.col⟩] else []) ++
  (if c.row < rowsOf g ∧ c.col ≠ 0 ∧ c.col - 1 < colsOf g then
    [⟨c.row, c.col - 1⟩] else []) ++
  (if c.row < rowsOf g ∧ c.col + 1 < colsOf g then
    [⟨c.row, c.col + 1⟩] else [])

/-- `manhattanDistance(nodeOne, nodeTwo)`. -/
def manhattanDistance (a b : Coord) : Nat :=
  (if a.row ≤ b.row then b.row - a.row else a.row - b.row) +
  (if a.col ≤ b.col then b.col - a.col else a.col - b.col)

/-! ## The priority queue

The source keeps an array of `{val, priority}` entries, re-sorted (stably,
ascending by priority) after each mutation, so the array is sorted at all
times.  We represent it as that sorted list.  `enqueue` pushes and re-sorts:
on a sorted list the stable sort just moves the pushed entry forward past
the strictly greater priorities, i.e. it inserts the new entry after all
entries of priority ≤ p. -/

abbrev PQueue := List (Coord × Nat)

/-- `enqueue(val, priority)` followed by the stable `sort()`. -/
def pqEnqueue : PQueue → Coord → Nat → PQueue
  | [], v, p => [(v, p)]
  | e :: rest, v, p =>
    if e.2 ≤ p then e :: pqEnqueue rest v p else (v, p) :: e :: rest

/-- `dequeue()` = `values.shift()`: `none` when the queue is empty
(JavaScript `undefined`). -/
def pqDequeue : PQueue → Option ((Coord × Nat) × PQueue)
  | [] => none
  | e :: rest => some (e, rest)

/-- `isEmpty()`. -/
def pqIsEmpty (q : PQueue) : Bool := q.isEmpty

/-- `hasNode(row, col)`. -/
def pqHasNode (q : PQueue) (c : Coord) : Bool :=
  q.any fun e => e.1.row == c.row && e.1.col == c.col

/-- `updatePriority(row, col, newPriority)`: overwrite the priority of the
matching entry and re-sort.  On a sorted queue with unique coordinates and a
priority that does not exceed the entry's old one (the only way the source
calls it), the stable sort is the same as removing the entry and
re-inserting it after all entries of priority ≤ the new one. -/
def pqUpdatePriority (q : PQueue) (c : Coord) (p : Nat) : PQueue :=
  if pqHasNode q c then
    pqEnqueue (q.filter fun e => ¬(e.1.row = c.row ∧ e.1.col = c.col)) c p
  else q

/-! ## Path reconstruction -/

/-- The backward walk of `getNodesInShortestPathOrder`: repeatedly `unshift`
the current node and move to its predecessor; `none` when the fuel runs out,
i.e. when the JavaScript `while` loop would still be running. -/
def pathWalk (prev : Coord → Option Coord) : Nat → Option Coord → List Coord →
    Option (List Coord)
  | _, none, acc => some acc
  | 0, some _, _ => none
  | fuel + 1, some c, acc => pathWalk prev fuel (prev c) (c :: acc)

/-- `getNodesInShortestPathOrder(previousNodes, end)`. -/
def getNodesInShortestPathOrder (prev : Coord → Option Coord) (endC : Coord)
    (fuel : Nat) : Option (List Coord) :=
  match prev endC with
  | none => some []
  | some c => pathWalk prev fuel (some c) []

/-! ## Shared state pieces -/

/-- Pointwise update of a matrix modelled as a function. -/
def setAt {α : Type} (f : Coord → α) (c : Coord) (v : α) : Coord → α :=
  fun x => if x = c then v else f x

/-- `a < b` where `b` may be `Infinity` (`none`). -/
def ltInf (a : Nat) : Option Nat → Bool
  | none => true
  | some b => a < b

/-- Result record of `bfs`/`dfs`/`astar`/`greedy`. -/
structure SearchResult where
  visitedNodesInOrder : List Coord
  shortestPath : List Coord
deriving Repr

/-- Result record of `dijkstra` (also carries the distances matrix). -/
structure DijkstraResult where
  visitedNodesInOrder : List Coord
  shortestPath : List Coord
  distances : List (List (Option Nat))
deriving Repr

/-- The guard `!grid || !grid.length || !grid[0] || !grid[0].length ||
!start || !end` of every algorithm. -/
def badInput (g : Grid) (s e : Option Coord) : Bool :=
  g.isEmpty || (g.headD []).isEmpty || s.isNone || e.isNone

/-! ## Dijkstra -/

structure DijkstraState where
  queue : PQueue
  dist : Coord → Option Nat
  prev : Coord → Option Coord
  visited : Coord → Bool
  order : List Coord

/-- The neighbor-relaxation body of Dijkstra's inner `for` loop. -/
def dijkstraRelax (g : Grid) (cur : Coord) (s : DijkstraState) (nb : Coord) :
    DijkstraState :=
  if s.visited nb || isWallAt g nb then s
  else
    match s.dist cur with
    | none => s
    | some d =>
      let nd := d + 1
      if ltInf nd (s.dist nb) then
        { s with
          dist := setAt s.dist nb (some nd)
          prev := setAt s.prev nb (some cur)
          queue :=
            if pqHasNode s.queue nb then pqUpdatePriority s.queue nb nd
            else pqEnqueue s.queue nb nd }
      else s

/-- The `while (!unvisitedNodes.isEmpty())` loop of `dijkstra`. -/
def dijkstraLoop (g : Grid) (e : Coord) : Nat → DijkstraState → DijkstraState
  | 0, s => s
  | fuel + 1, s =>
    match s.queue with
    | [] => s
    | (c, _) :: rest =>
      if s.visited c then dijkstraLoop g e fuel { s with queue := rest }
      else
        let s1 : DijkstraState :=
          { s with
            queue := rest
            visited := setAt s.visited c true
            order := s.order ++ [c] }
        if c = e then s1
        else dijkstraLoop g e fuel
          ((getNeighbors g c).foldl (dijkstraRelax g c) s1)

/-- Initial state of `dijkstra` after the array initialisation and the
first `enqueue`. -/
def dijkstraInit (s : Coord) : DijkstraState where
  queue := pqEnqueue [] s 0
  dist := setAt (fun _ => none) s (some 0)
  prev := fun _ => none
  visited := fun _ => false
  order := []

/-- Final loop state of a `dijkstra` run on well-formed input. -/
def dijkstraFinal (g : Grid) (s e : Coord) : DijkstraState :=
  dijkstraLoop g e (rowsOf g * colsOf g + 1) (dijkstraInit s)

/-- The fuel handed to the reconstruction walk. -/
def walkFuel (g : Grid) : Nat := rowsOf g * colsOf g + 1

/-- Materialise the distances function back into the 2D array the source
returns. -/
def distMatrix (g : Grid) (d : Coord → Option Nat) : List (List (Option Nat)) :=
  (List.range (rowsOf g)).map fun r =>
    (List.range (colsOf g)).map fun c => d ⟨r, c⟩

/-- `dijkstra(grid, start, end)`. -/
def dijkstra (g : Grid) (s e : Option Coord) : DijkstraResult :=
  if badInput g s e then ⟨[], [], []⟩
  else
    match s, e with
    | some s, some e =>
      let fin := dijkstraFinal g s e
      { visitedNodesInOrder := fin.order
        shortestPath :=
          (getNodesInShortestPathOrder fin.prev e (walkFuel g)).getD []
        distances := distMatrix g fin.dist }
    | _, _ => ⟨[], [], []⟩

/-! ## BFS and DFS -/

structure FifoState where
  queue : List Coord
  prev : Coord → Option Coord
  visited : Coord → Bool
  order : List Coord

/-- The neighbor-discovery body shared by the `for` loops of `bfs`/`dfs`. -/
def discoverNb (g : Grid) (cur : Coord) (s : FifoState) (nb : Coord) :
    FifoState :=
  if !s.visited nb && !isWallAt g nb then
    { s with
      visited := setAt s.visited nb true
      prev := setAt s.prev nb (some cur)
      queue := s.queue ++ [nb] }
  else s

/-- The `while (queue.length > 0)` loop of `bfs` (`queue.shift()`). -/
def bfsLoop (g : Grid) (e : Coord) : Nat → FifoState → FifoState
  | 0, s => s
  | fuel + 1, s =>
    match s.queue with
    | [] => s
    | c :: rest =>
      let s1 : FifoState := { s with queue := rest, order := s.order ++ [c] }
      if c = e then s1
      else bfsLoop g e fuel ((getNeighbors g c).foldl (discoverNb g c) s1)

/-- In `dfs` the frontier is a stack: push appends, `pop()` takes the LAST
element.  We keep `queue` in source order, so `pop` is `getLast`. -/
def dfsLoop (g : Grid) (e : Coord) : Nat → FifoState → FifoState
  | 0, s => s
  | fuel + 1, s =>
    match s.queue.getLast? with
    | none => s
    | some c =>
      let s1 : FifoState :=
        { s with queue := s.queue.dropLast, order := s.order ++ [c] }
      if c = e then s1
      else dfsLoop g e fuel ((getNeighbors g c).foldl (discoverNb g c) s1)

/-- Initial state of `bfs`/`dfs`: start queued and marked visited. -/
def fifoInit (s : Coord) : FifoState where
  queue := [s]
  prev := fun _ => none
  visited := setAt (fun _ => false) s true
  order := []

def bfsFinal (g : Grid) (s e : Coord) : FifoState :=
  bfsLoop g e (rowsOf g * colsOf g + 1) (fifoInit s)

def dfsFinal (g : Grid) (s e : Coord) : FifoState :=
  dfsLoop g e (rowsOf g * colsOf g + 1) (fifoInit s)

/-- `bfs(grid, start, end)`. -/
def bfs (g : Grid) (s e : Option Coord) : SearchResult :=
  if badInput g s e then ⟨[], []⟩
  else
    match s, e with
    | some s, some e =>
      let fin := bfsFinal g s e
      { visitedNodesInOrder := fin.order
        shortestPath :=
          (getNodesInShortestPathOrder fin.prev e (walkFuel g)).getD [] }
    | _, _ => ⟨[], []⟩

/-- `dfs(grid, start, end)`. -/
def dfs (g : Grid) (s e : Option Coord) : SearchResult :=
  if badInput g s e then ⟨[], []⟩
  else
    match s, e with
    | some s, some e =>
      let fin := dfsFinal g s e
      { visitedNodesInOrder := fin.order
        shortestPath :=
          (getNodesInShortestPathOrder fin.prev e (walkFuel g)).getD [] }
    | _, _ => ⟨[], []⟩

/-! ## A* -/

structure AstarState where
  queue : PQueue
  closed : Coord → Bool
  gScore : Coord → Option Nat
  fScore : Coord → Option Nat
  prev : Coord → Option Coord
  order : List Coord

/-- The neighbor body of the A* `for` loop.  Note: when the neighbor is
already in the open queue, only `previousNodes`, `gScore` and `fScore` are
updated — the queue is left untouched (the stale-priority behaviour of the
source). -/
def astarRelax (g : Grid) (e : Coord) (cur : Coord) (s : AstarState)
    (nb : Coord) : AstarState :=
  if s.closed nb || isWallAt g nb then s
  else
    match s.gScore cur with
    | none => s
    | some d =>
      let tg := d + 1
      if ltInf tg (s.gScore nb) then
        let fs := tg + manhattanDistance nb e
        { s with
          prev := setAt s.prev nb (some cur)
          gScore := setAt s.gScore nb (some tg)
          fScore := setAt s.fScore nb (some fs)
          queue :=
            if !pqHasNode s.queue nb then pqEnqueue s.queue nb fs
            else s.queue }
      else s

/-- The `while (!openSet.isEmpty())` loop of `astar`. -/
def astarLoop (g : Grid) (e : Coord) : Nat → AstarState → AstarState
  | 0, s => s
  | fuel + 1, s =>
    match s.queue with
    | [] => s
    | (c, _) :: rest =>
      if c = e then { s with queue := rest, order := s.order ++ [c] }
      else
        let s1 : AstarState :=
          { s with
            queue := rest
            closed := setAt s.closed c true
            order := s.order ++ [c] }
        astarLoop g e fuel ((getNeighbors g c).foldl (astarRelax g e c) s1)

def astarInit (s e : Coord) : AstarState :=
  let f0 := manhattanDistance s e
  { queue := pqEnqueue [] s f0
    closed := fun _ => false
    gScore := setAt (fun _ => none) s (some 0)
    fScore := setAt (fun _ => none) s (some f0)
    prev := fun _ => none
    order := [] }

def astarFinal (g : Grid) (s e : Coord) : AstarState :=
  astarLoop g e (rowsOf g * colsOf g + 1) (astarInit s e)

/-- `astar(grid, start, end)`. -/
def astar (g : Grid) (s e : Option Coord) : SearchResult :=
  if badInput g s e then ⟨[], []⟩
  else
    match s, e with
    | some s, some e =>
      let fin := astarFinal g s e
      { visitedNodesInOrder := fin.order
        shortestPath :=
          (getNodesInShortestPathOrder fin.prev e (walkFuel g)).getD [] }
    | _, _ => ⟨[], []⟩

/-! ## Greedy best-first -/

structure GreedyState where
  queue : PQueue
  closed : Coord → Bool
  prev : Coord → Option Coord
  order : List Coord

/-- The neighbor body of the greedy `for` loop: the predecessor is
overwritten unconditionally for every non-closed, non-wall neighbor. -/
def greedyRelax (g : Grid) (e : Coord) (cur : Coord) (s : GreedyState)
    (nb : Coord) : GreedyState :=
  if s.closed nb || isWallAt g nb then s
  else
    let h := manhattanDistance nb e
    { s with
      prev := setAt s.prev nb (some cur)
      queue :=
        if !pqHasNode s.queue nb then pqEnqueue s.queue nb h
        else s.queue }

/-- The `while (!openSet.isEmpty())` loop of `greedy`. -/
def greedyLoop (g : Grid) (e : Coord) : Nat → GreedyState → GreedyState
  | 0, s => s
  | fuel + 1, s =>
    match s.queue with
    | [] => s
    | (c, _) :: rest =>
      if c = e then { s with queue := rest, order := s.order ++ [c] }
      else
        let s1 : GreedyState :=
          { s with
            queue := rest
            closed := setAt s.closed c true
            order := s.order ++ [c] }
        greedyLoop g e fuel ((getNeighbors g c).foldl (greedyRelax g e c) s1)

def greedyInit (s : Coord) : GreedyState where
  queue := pqEnqueue [] s 0
  closed := fun _ => false
  prev := fun _ => none
  order := []

def greedyFinal (g : Grid) (s e : Coord) : GreedyState :=
  greedyLoop g e (rowsOf g * colsOf g + 1) (greedyInit s)

/-- `greedy(grid, start, end)`. -/
def greedy (g : Grid) (s e : Option Coord) : SearchResult :=
  if badInput g s e then ⟨[], []⟩
  else
    match s, e with
    | some s, some e =>
      let fin := greedyFinal g s e
      { visitedNodesInOrder := fin.order
        shortestPath :=
          (getNodesInShortestPathOrder fin.prev e (walkFuel g)).getD [] }
    | _, _ => ⟨[], []⟩

/-! ## The mathematical side: steps, paths, reachability -/

/-- One admissible move of the search graph: `v` is a 4-neighbor of `u`
and is not a wall (the algorithms never test the wallness of the cell they
move *from*). -/
def stepOK (g : Grid) (u v : Coord) : Prop :=
  v ∈ getNeighbors g u ∧ isWallAt g v = false

instance (g : Grid) (u v : Coord) : Decidable (stepOK g u v) := by
  unfold stepOK; infer_instance

/-- `ReachIn g s n c`: there is a walk of exactly `n` admissible moves from
`s` to `c`. -/
inductive ReachIn (g : Grid) (s : Coord) : Nat → Coord → Prop
  | zero : ReachIn g s 0 s
  | succ {n : Nat} {u v : Coord} :
      ReachIn g s n u → stepOK g u v → ReachIn g s (n + 1) v

/-- `c` is reachable from `s`. -/
def Reach (g : Grid) (s c : Coord) : Prop := ∃ n, ReachIn g s n c

end PathVis

namespace PathVis

/-! ## Basic facts about the input guard -/

lemma badInput_some_false {g : Grid} (hr : 0 < rowsOf g) (hc : 0 < colsOf g)
    (s e : Coord) : badInput g (some s) (some e) = false := by
  unfold badInput
  cases g with
  | nil => simp [rowsOf] at hr
  | cons r rest =>
    cases r with
    | nil => simp [colsOf] at hc
    | cons b bs => simp

lemma dijkstra_some {g : Grid} (hr : 0 < rowsOf g) (hc : 0 < colsOf g)
    (s e : Coord) :
    dijkstra g (some s) (some e) =
      { visitedNodesInOrder := (dijkstraFinal g s e).order
        shortestPath :=
          (getNodesInShortestPathOrder (dijkstraFinal g s e).prev e
            (walkFuel g)).getD []
        distances := distMatrix g (dijkstraFinal g s e).dist } := by
  unfold dijkstra
  rw [badInput_some_false hr hc]
  rfl

lemma bfs_some {g : Grid} (hr : 0 < rowsOf g) (hc : 0 < colsOf g)
    (s e : Coord) :
    bfs g (some s) (some e) =
      { visitedNodesInOrder := (bfsFinal g s e).order
        shortestPath :=
          (getNodesInShortestPathOrder (bfsFinal g s e).prev e
            (walkFuel g)).getD [] } := by
  unfold bfs
  rw [badInput_some_false hr hc]
  rfl

lemma dfs_some {g : Grid} (hr : 0 < rowsOf g) (hc : 0 < colsOf g)
    (s e : Coord) :
    dfs g (some s) (some e) =
      { visitedNodesInOrder := (dfsFinal g s e).order
        shortestPath :=
          (getNodesInShortestPathOrder (dfsFinal g s e).prev e
            (walkFuel g)).getD [] } := by
  unfold dfs
  rw [badInput_some_false hr hc]
  rfl

lemma astar_some {g : Grid} (hr : 0 < rowsOf g) (hc : 0 < colsOf g)
    (s e : Coord) :
    astar g (some s) (some e) =
      { visitedNodesInOrder := (astarFinal g s e).order
        shortestPath :=
          (getNodesInShortestPathOrder (astarFinal g s e).prev e
            (walkFuel g)).getD [] } := by
  unfold astar
  rw [badInput_some_false hr hc]
  rfl

lemma greedy_some {g : Grid} (hr : 0 < rowsOf g) (hc : 0 < colsOf g)
    (s e : Coord) :
    greedy g (some s) (some e) =
      { visitedNodesInOrder := (greedyFinal g s e).order
        shortestPath :=
          (getNodesInShortestPathOrder (greedyFinal g s e).prev e
            (walkFuel g)).getD [] } := by
  unfold greedy
  rw [badInput_some_false hr hc]
  rfl

end PathVis

namespace PathVis

/-! ## First-iteration runs when start = end -/

lemma dijkstra_self_run (g : Grid) (s : Coord) (fuel : Nat) :
    dijkstraLoop g s (fuel + 1) (dijkstraInit s) =
      { queue := []
        dist := setAt (fun _ => none) s (some 0)
        prev := fun _ => none
        visited := setAt (fun _ => false) s true
        order := [s] } := by
  simp [dijkstraLoop, dijkstraInit, pqEnqueue]

lemma bfs_self_run (g : Grid) (s : Coord) (fuel : Nat) :
    bfsLoop g s (fuel + 1) (fifoInit s) =
      { queue := []
        prev := fun _ => none
        visited := setAt (fun _ => false) s true
        order := [s] } := by
  simp [bfsLoop, fifoInit]

lemma dfs_self_run (g : Grid) (s : Coord) (fuel : Nat) :
    dfsLoop g s (fuel + 1) (fifoInit s) =
      { queue := []
        prev := fun _ => none
        visited := setAt (fun _ => false) s true
        order := [s] } := by
  simp [dfsLoop, fifoInit]

lemma astar_self_run (g : Grid) (s : Coord) (fuel : Nat) :
    astarLoop g s (fuel + 1) (astarInit s s) =
      { queue := []
        closed := fun _ => false
        gScore := setAt (fun _ => none) s (some 0)
        fScore := setAt (fun _ => none) s (some (manhattanDistance s s))
        prev := fun _ => none
        order := [s] } := by
  simp [astarLoop, astarInit, pqEnqueue]

lemma greedy_self_run (g : Grid) (s : Coord) (fuel : Nat) :
    greedyLoop g s (fuel + 1) (greedyInit s) =
      { queue := []
        closed := fun _ => false
        prev := fun _ => none
        order := [s] } := by
  simp [greedyLoop, greedyInit, pqEnqueue]

lemma inBounds_pos {g : Grid} {c : Coord} (h : inBounds g c) :
    0 < rowsOf g ∧ 0 < colsOf g :=
  ⟨Nat.lt_of_le_of_lt (Nat.zero_le _) h.1, Nat.lt_of_le_of_lt (Nat.zero_le _) h.2⟩

/-! ## Concrete grids used by the counterexamples -/

/-- A 3×3 grid with no walls. -/
def gridNW33 : Grid :=
  [[false, false, false], [false, false, false], [false, false, false]]

/-- A 1×2 grid with no walls. -/
def gridNW12 : Grid := [[false, false]]

/-- A 9×6 grid on which `astar` returns a path of length 17 although a path
of length 15 exists (found by search; the stale-priority behaviour closes a
cell with a suboptimal g-score and the error reaches the end cell). -/
def gridAstarBad : Grid :=
  [[false, false, false, false, false, false],
   [false, false, false, false, false, false],
   [false, false, true, true, true, false],
   [false, true, false, false, false, false],
   [false, false, false, true, false, false],
   [false, false, true, false, false, false],
   [false, false, false, false, true, false],
   [false, false, false, true, false, false],
   [false, false, true, false, false, false]]

lemma getLastD_cons_eq (a d : Coord) (l : List Coord) :
    ((a :: l).getLast?).getD d = (l.getLast?).getD a := by
  cases l <;> simp [List.getLast?]

/-- Bool checker for a concrete walk: every successive move is admissible. -/
def chainOK (g : Grid) : Coord → List Coord → Bool
  | _, [] => true
  | u, v :: rest => decide (stepOK g u v) && chainOK g v rest

lemma chainOK_reachIn {g : Grid} {s : Coord} :
    ∀ (l : List Coord) (u : Coord), chainOK g u l = true →
      ReachIn g s 0 u → ReachIn g s l.length (l.getLastD u)
  | [], u, _, h0 => h0
  | v :: rest, u, hc, h0 => by
    simp only [chainOK, Bool.and_eq_true, decide_eq_true_eq] at hc
    have h1 : ReachIn g s 1 v := ReachIn.succ h0 hc.1
    have : ∀ (l : List Coord) (w : Coord) (n : Nat), chainOK g w l = true →
        ReachIn g s n w → ReachIn g s (n + l.length) (l.getLastD w) := by
      intro l
      induction l with
      | nil => intro w n _ hw; simpa using hw
      | cons x xs ih =>
        intro w n hcl hw
        simp only [chainOK, Bool.and_eq_true, decide_eq_true_eq] at hcl
        have hx : ReachIn g s (n + 1) x := ReachIn.succ hw hcl.1
        have := ih x (n + 1) hcl.2 hx
        simpa [getLastD_cons_eq, Nat.add_comm, Nat.add_assoc,
          Nat.add_left_comm] using this
    have := this rest v 1 hc.2 h1
    simpa [getLastD_cons_eq, Nat.add_comm] using this

lemma reachIn_of_chain {g : Grid} {s : Coord} {l : List Coord}
    (hc : chainOK g s l = true) : ReachIn g s l.length (l.getLastD s) :=
  chainOK_reachIn l s hc ReachIn.zero

end PathVis

namespace PathVis

/-! ## Claim C4 -/

/-- Claim C4: calling `dequeue` on an empty priority queue yields no entry
(the JavaScript `values.shift()` returns `undefined`, modelled as `none`) —
the EmptyQueue condition of the specification. -/
theorem dequeue_empty_none (q : PQueue) (h : pqIsEmpty q = true) :
    pqDequeue q = none := by
  cases q with
  | nil => rfl
  | cons e rest => simp [pqIsEmpty] at h

/-- Witness for C4 at the concrete empty queue. -/
theorem dequeue_empty_none_witness :
    pqIsEmpty [] = true ∧ pqDequeue [] = none :=
  ⟨rfl, dequeue_empty_none [] rfl⟩

/-! ## Claim C5 -/

/-- Claim C5: on an empty/malformed grid (no rows, or an empty first row)
or an unset start or end, each of the five algorithms returns the
empty-result structure — empty visited order, empty path, and empty
distances where applicable — and (being a total function) never throws. -/
theorem empty_result_on_bad_input (g : Grid) (s e : Option Coord)
    (h : g.isEmpty = true ∨ (g.headD []).isEmpty = true ∨
      s = none ∨ e = none) :
    dijkstra g s e = ⟨[], [], []⟩ ∧ bfs g s e = ⟨[], []⟩ ∧
      dfs g s e = ⟨[], []⟩ ∧ astar g s e = ⟨[], []⟩ ∧
      greedy g s e = ⟨[], []⟩ := by
  have hbad : badInput g s e = true := by
    unfold badInput
    rcases h with h | h | h | h
    · simp [h]
    · rw [h]; simp
    · simp [h]
    · simp [h]
  refine ⟨?_, ?_, ?_, ?_, ?_⟩
  · unfold dijkstra; simp [hbad]
  · unfold bfs; simp [hbad]
  · unfold dfs; simp [hbad]
  · unfold astar; simp [hbad]
  · unfold greedy; simp [hbad]

/-- Witness for C5 at the concrete input `([], none, none)`. -/
theorem empty_result_on_bad_input_witness :
    ([] : Grid).isEmpty = true ∧ dijkstra [] none none = ⟨[], [], []⟩ :=
  ⟨rfl, (empty_result_on_bad_input [] none none (Or.inl rfl)).1⟩

/-! ## Claim C8 -/

/-- Claim C8: when start = end (in bounds), every one of the five
algorithms visits exactly the start node and returns an empty path, the
same empty path an unreachable end produces. -/
theorem start_eq_end_single_visit (g : Grid) (s : Coord)
    (hs : inBounds g s) :
    (dijkstra g (some s) (some s)).visitedNodesInOrder = [s] ∧
    (dijkstra g (some s) (some s)).shortestPath = [] ∧
    (bfs g (some s) (some s)).visitedNodesInOrder = [s] ∧
    (bfs g (some s) (some s)).shortestPath = [] ∧
    (dfs g (some s) (some s)).visitedNodesInOrder = [s] ∧
    (dfs g (some s) (some s)).shortestPath = [] ∧
    (astar g (some s) (some s)).visitedNodesInOrder = [s] ∧
    (astar g (some s) (some s)).shortestPath = [] ∧
    (greedy g (some s) (some s)).visitedNodesInOrder = [s] ∧
    (greedy g (some s) (some s)).shortestPath = [] := by
  obtain ⟨hr, hc⟩ := inBounds_pos hs
  have hD := dijkstra_some hr hc s s
  have hB := bfs_some hr hc s s
  have hF := dfs_some hr hc s s
  have hA := astar_some hr hc s s
  have hG := greedy_some hr hc s s
  have hDf : dijkstraFinal g s s =
      { queue := []
        dist := setAt (fun _ => none) s (some 0)
        prev := fun _ => none
        visited := setAt (fun _ => false) s true
        order := [s] } := dijkstra_self_run g s _
  have hBf : bfsFinal g s s =
      { queue := []
        prev := fun _ => none
        visited := setAt (fun _ => false) s true
        order := [s] } := bfs_self_run g s _
  have hFf : dfsFinal g s s =
      { queue := []
        prev := fun _ => none
        visited := setAt (fun _ => false) s true
        order := [s] } := dfs_self_run g s _
  have hAf : astarFinal g s s =
      { queue := []
        closed := fun _ => false
        gScore := setAt (fun _ => none) s (some 0)
        fScore := setAt (fun _ => none) s (some (manhattanDistance s s))
        prev := fun _ => none
        order := [s] } := astar_self_run g s _
  have hGf : greedyFinal g s s =
      { queue := []
        closed := fun _ => false
        prev := fun _ => none
        order := [s] } := greedy_self_run g s _
  refine ⟨?_, ?_, ?_, ?_, ?_, ?_, ?_, ?_, ?_, ?_⟩ <;>
    simp [hD, hB, hF, hA, hG, hDf, hBf, hFf, hAf, hGf,
      getNodesInShortestPathOrder]

/-- Witness for C8 on the concrete 1×1 grid. -/
theorem start_eq_end_single_visit_witness :
    inBounds [[false]] ⟨0, 0⟩ ∧
      (dijkstra [[false]] (some ⟨0, 0⟩) (some ⟨0, 0⟩)).visitedNodesInOrder =
        [⟨0, 0⟩] :=
  ⟨by decide,
    (start_eq_end_single_visit [[false]] ⟨0, 0⟩ (by decide)).1⟩

end PathVis

namespace PathVis

/-! ## Counterexamples for C2 and C3 -/

/-- Counterexample to C3: on the wall-free 1×2 grid with start (0,0) and
end (0,1), `bfs` returns the path `[(0,0)]`: it CONTAINS the start
coordinate and does NOT contain the end coordinate, refuting the claim
that the returned path runs from the start's first successor to end with
the start excluded (which here would be the sequence `[(0,1)]`). -/
theorem path_contains_start_excludes_end :
    (bfs gridNW12 (some ⟨0, 0⟩) (some ⟨0, 1⟩)).shortestPath =
        [⟨0, 0⟩] ∧
      (⟨0, 0⟩ : Coord) ∈ (bfs gridNW12 (some ⟨0, 0⟩) (some ⟨0, 1⟩)).shortestPath ∧
      (⟨0, 1⟩ : Coord) ∉ (bfs gridNW12 (some ⟨0, 0⟩) (some ⟨0, 1⟩)).shortestPath ∧
      (bfs gridNW12 (some ⟨0, 0⟩) (some ⟨0, 1⟩)).shortestPath ≠
        [⟨0, 1⟩] := by
  refine ⟨by rfl, ?_, ?_, ?_⟩ <;> decide

/-- Counterexample to C2: on the wall-free 3×3 grid with start (0,1) and
end (2,1) — in bounds, distinct, Manhattan distance 2 — `dfs` returns a
non-empty path of length 4, not 2. -/
theorem dfs_path_longer_than_manhattan :
    Rect gridNW33 ∧
      (gridNW33.all fun r => r.all fun b => !b) = true ∧
      inBounds gridNW33 ⟨0, 1⟩ ∧ inBounds gridNW33 ⟨2, 1⟩ ∧
      (⟨0, 1⟩ : Coord) ≠ ⟨2, 1⟩ ∧
      manhattanDistance ⟨0, 1⟩ ⟨2, 1⟩ = 2 ∧
      (dfs gridNW33 (some ⟨0, 1⟩) (some ⟨2, 1⟩)).shortestPath.length = 4 := by
  refine ⟨by decide, by rfl, by decide, by decide, by decide, by rfl, by rfl⟩

/-! ## Claim C6 -/

/-- Claim C6: in `astar`, when a neighbor's tentative g-score improves
while the neighbor is already in the open queue, its predecessor, g-score
and f-score are updated but the queue is left unchanged (the queued entry
keeps its old priority); consequently `astar` is not minimal on every
grid: on `gridAstarBad` from (0,0) to (8,3) it returns a path of length 17
although a 15-move route exists. -/
theorem astar_stale_priority (g : Grid) (e cur nb : Coord)
    (st : AstarState) (d : Nat)
    (hcl : st.closed nb = false) (hw : isWallAt g nb = false)
    (hg : st.gScore cur = some d)
    (him : ltInf (d + 1) (st.gScore nb) = true)
    (hin : pqHasNode st.queue nb = true) :
    ((astarRelax g e cur st nb).queue = st.queue ∧
      (astarRelax g e cur st nb).prev nb = some cur ∧
      (astarRelax g e cur st nb).gScore nb = some (d + 1) ∧
      (astarRelax g e cur st nb).fScore nb =
        some (d + 1 + manhattanDistance nb e)) ∧
    ((astar gridAstarBad (some ⟨0, 0⟩) (some ⟨8, 3⟩)).shortestPath.length = 17 ∧
      ReachIn gridAstarBad ⟨0, 0⟩ 15 ⟨8, 3⟩) := by
  constructor
  · unfold astarRelax
    rw [hcl, hw, hg]
    simp only [Bool.false_or, Bool.or_self, if_false, him, if_true, hin,
      Bool.not_true, Bool.false_eq_true]
    refine ⟨?_, ?_, ?_, ?_⟩ <;> simp [setAt]
  · constructor
    · rfl
    · have h := reachIn_of_chain (g := gridAstarBad) (s := ⟨0, 0⟩)
        (l := [⟨1, 0⟩, ⟨1, 1⟩, ⟨1, 2⟩, ⟨1, 3⟩, ⟨1, 4⟩, ⟨1, 5⟩, ⟨2, 5⟩,
          ⟨3, 5⟩, ⟨4, 5⟩, ⟨5, 5⟩, ⟨6, 5⟩, ⟨7, 5⟩, ⟨8, 5⟩, ⟨8, 4⟩, ⟨8, 3⟩])
        (by decide)
      simpa using h

/-- Witness for C6, instantiating the stale-priority statement on a
concrete one-entry open queue. -/
theorem astar_stale_priority_witness :
    (let st : AstarState :=
      { queue := [(⟨0, 1⟩, 5)]
        closed := fun _ => false
        gScore := setAt (fun _ => none) ⟨0, 0⟩ (some 0)
        fScore := fun _ => none
        prev := fun _ => none
        order := [] }
    (astarRelax gridNW33 ⟨2, 2⟩ ⟨0, 0⟩ st ⟨0, 1⟩).queue = st.queue ∧
      (astarRelax gridNW33 ⟨2, 2⟩ ⟨0, 0⟩ st ⟨0, 1⟩).prev ⟨0, 1⟩ =
        some ⟨0, 0⟩) := by
  have h := astar_stale_priority gridNW33 ⟨2, 2⟩ ⟨0, 0⟩ ⟨0, 1⟩
    { queue := [(⟨0, 1⟩, 5)]
      closed := fun _ => false
      gScore := setAt (fun _ => none) ⟨0, 0⟩ (some 0)
      fScore := fun _ => none
      prev := fun _ => none
      order := [] } 0 rfl rfl (by decide) (by decide) (by decide)
  exact ⟨h.1.1, h.1.2.1⟩

end PathVis

namespace PathVis

/-! ## Ancestor chains of a predecessor map

`AncChain prev c l` says the backward walk from `c` (excluding `c` itself)
terminates and collects exactly `l`, ordered root first — the very list
`getNodesInShortestPathOrder` builds when called on `c`. -/

inductive AncChain (prev : Coord → Option Coord) : Coord → List Coord → Prop
  | nil {c : Coord} : prev c = none → AncChain prev c []
  | cons {c u : Coord} {l : List Coord} :
      prev c = some u → AncChain prev u l → AncChain prev c (l ++ [u])

lemma ancChain_nil_of {prev : Coord → Option Coord} {c : Coord}
    (h : prev c = none) : AncChain prev c [] := AncChain.nil h

/-- The walk of `pathWalk` computes ancestor chains: with enough fuel it
returns the chain. -/
lemma pathWalk_of_ancChain {prev : Coord → Option Coord} :
    ∀ {c : Coord} {l : List Coord}, AncChain prev c l →
      ∀ (fuel : Nat), l.length < fuel →
        ∀ acc, pathWalk prev fuel (prev c) acc = some (l ++ acc) := by
  intro c l h
  induction h with
  | nil h0 =>
    intro fuel _ acc
    cases fuel <;> simp [pathWalk, h0]
  | cons hc hu ih =>
    intro fuel hlt acc
    rename_i c1 u1 l1
    cases fuel with
    | zero => omega
    | succ f =>
      rw [hc]
      show pathWalk prev f (prev u1) (u1 :: acc) = some (l1 ++ [u1] ++ acc)
      have hlen : l1.length < f := by
        simp only [List.length_append, List.length_cons, List.length_nil] at hlt
        omega
      have := ih f hlen (u1 :: acc)
      simpa using this

end PathVis

namespace PathVis

lemma getNodes_of_ancChain {prev : Coord → Option Coord} {e : Coord}
    {l : List Coord} (h : AncChain prev e l) {fuel : Nat}
    (hf : l.length < fuel) :
    getNodesInShortestPathOrder prev e fuel = some l := by
  cases h with
  | nil h0 => simp [getNodesInShortestPathOrder, h0]
  | cons hc hu =>
    rename_i u l1
    unfold getNodesInShortestPathOrder
    rw [hc]
    cases fuel with
    | zero => omega
    | succ f =>
      show pathWalk prev f (prev u) [u] = some (l1 ++ [u])
      have hlen : l1.length < f := by
        simp only [List.length_append, List.length_cons, List.length_nil] at hf
        omega
      simpa using pathWalk_of_ancChain hu f hlen [u]

lemma ancChain_setAt {prev : Coord → Option Coord} {c : Coord}
    {l : List Coord} (h : AncChain prev c l) (v : Coord)
    (hv : v ∉ c :: l) (p : Option Coord) :
    AncChain (setAt prev v p) c l := by
  induction h with
  | nil h0 =>
    rename_i c1
    have hvc : c1 ≠ v := fun he => hv (by simp [he])
    exact AncChain.nil (by simp [setAt, hvc, h0])
  | cons hc hu ih =>
    rename_i c1 u1 l1
    have hvc : c1 ≠ v := fun he => hv (by simp [he])
    have hvl : v ∉ u1 :: l1 := by
      intro hm
      rcases List.mem_cons.mp hm with hm | hm
      · exact hv (by simp [hm])
      · exact hv (by simp [hm])
    exact AncChain.cons (by simp [setAt, hvc, hc]) (ih hvl)

/-- The order list is closed backwards: the predecessor of the `i`-th
popped node was popped earlier. -/
def PrevOrder (prev : Coord → Option Coord) (L : List Coord) : Prop :=
  ∀ i (h : i < L.length) u, prev (L.get ⟨i, h⟩) = some u → u ∈ L.take i

lemma mem_take_mono {L : List Coord} {i j : Nat} {u : Coord}
    (hij : i ≤ j) (h : u ∈ L.take i) : u ∈ L.take j := by
  rw [List.mem_take_iff_getElem] at h ⊢
  obtain ⟨k, hk, hget⟩ := h
  exact ⟨k, by simp at hk ⊢; omega, hget⟩

lemma mem_take_get {L : List Coord} {i : Nat} {u : Coord}
    (h : u ∈ L.take i) : ∃ j, ∃ hj : j < L.length, j < i ∧ L.get ⟨j, hj⟩ = u := by
  rw [List.mem_take_iff_getElem] at h
  obtain ⟨j, hj, hget⟩ := h
  have h1 : j < L.length := by simp at hj; omega
  have h2 : j < i := by simp at hj; omega
  exact ⟨j, h1, h2, by simpa using hget⟩

lemma ancChain_of_prevOrder {prev : Coord → Option Coord} {L : List Coord}
    (hP : PrevOrder prev L) :
    ∀ i (h : i < L.length), ∃ l, AncChain prev (L.get ⟨i, h⟩) l ∧
      l.length ≤ i ∧ ∀ x ∈ l, x ∈ L.take i := by
  intro i
  induction i using Nat.strong_induction_on with
  | _ i ih =>
    intro h
    cases hp : prev (L.get ⟨i, h⟩) with
    | none => exact ⟨[], AncChain.nil hp, by simp, by simp⟩
    | some u =>
      have hu : u ∈ L.take i := hP i h u hp
      obtain ⟨j, hj, hji, hget⟩ := mem_take_get hu
      obtain ⟨l1, hchain, hlen, hsub⟩ := ih j hji hj
      rw [hget] at hchain
      refine ⟨l1 ++ [u], AncChain.cons hp hchain, ?_, ?_⟩
      · simp only [List.length_append, List.length_cons, List.length_nil]
        omega
      · intro x hx
        rcases List.mem_append.mp hx with hx | hx
        · exact mem_take_mono (Nat.le_of_lt hji) (hsub x hx)
        · simp at hx
          subst hx
          exact hu

end PathVis

namespace PathVis

/-- A duplicate-free list of in-bounds coordinates has at most
`rows * cols` entries. -/
lemma nodup_inBounds_length_le {g : Grid} {L : List Coord}
    (hd : L.Nodup) (hb : ∀ c ∈ L, inBounds g c) :
    L.length ≤ rowsOf g * colsOf g := by
  classical
  set f : Coord → Nat := fun c => c.row * colsOf g + c.col with hf
  have hinj : ∀ x ∈ L, ∀ y ∈ L, f x = f y → x = y := by
    intro x hx y hy hxy
    rw [hf] at hxy
    simp only at hxy
    have hxb := hb x hx
    have hyb := hb y hy
    have hrow : x.row = y.row := by
      by_contra hne
      rcases Nat.lt_or_ge x.row y.row with hlt | hge
      · have : x.row * colsOf g + x.col < y.row * colsOf g := by
          calc x.row * colsOf g + x.col < x.row * colsOf g + colsOf g := by
                exact Nat.add_lt_add_left hxb.2 _
            _ = (x.row + 1) * colsOf g := by ring
            _ ≤ y.row * colsOf g := Nat.mul_le_mul_right _ hlt
        omega
      · have hlt : y.row < x.row := Nat.lt_of_le_of_ne hge (Ne.symm hne)
        have : y.row * colsOf g + y.col < x.row * colsOf g := by
          calc y.row * colsOf g + y.col < y.row * colsOf g + colsOf g := by
                exact Nat.add_lt_add_left hyb.2 _
            _ = (y.row + 1) * colsOf g := by ring
            _ ≤ x.row * colsOf g := Nat.mul_le_mul_right _ hlt
        omega
    have hcol : x.col = y.col := by
      rw [hrow] at hxy
      omega
    cases x; cases y
    simp_all
  have hmapd : (L.map f).Nodup := List.Nodup.map_on hinj hd
  have hsub : (L.map f).toFinset ⊆ Finset.range (rowsOf g * colsOf g) := by
    intro n hn
    rw [List.mem_toFinset] at hn
    obtain ⟨c, hc, hfc⟩ := List.mem_map.mp hn
    have hcb := hb c hc
    rw [Finset.mem_range, ← hfc]
    calc c.row * colsOf g + c.col < c.row * colsOf g + colsOf g :=
          Nat.add_lt_add_left hcb.2 _
      _ = (c.row + 1) * colsOf g := by ring
      _ ≤ rowsOf g * colsOf g := Nat.mul_le_mul_right _ hcb.1
  calc L.length = (L.map f).length := (List.length_map L f).symm
    _ = (L.map f).toFinset.card := (List.toFinset_card_of_nodup hmapd).symm
    _ ≤ (Finset.range (rowsOf g * colsOf g)).card := Finset.card_le_card hsub
    _ = rowsOf g * colsOf g := Finset.card_range _

/-- From a prev-order-closed final state, every coordinate has a finite
ancestor chain, living inside the order list. -/
lemma ancChain_total {prev : Coord → Option Coord} {L : List Coord}
    (hP : PrevOrder prev L)
    (hM : ∀ c u, prev c = some u → u ∈ L) (c : Coord) :
    ∃ l, AncChain prev c l ∧ l.length ≤ L.length ∧ ∀ x ∈ l, x ∈ L := by
  cases hp : prev c with
  | none => exact ⟨[], AncChain.nil hp, by simp, by simp⟩
  | some u =>
    have hu : u ∈ L := hM c u hp
    obtain ⟨j, hget⟩ := List.mem_iff_get.mp hu
    obtain ⟨l1, hchain, hlen, hsub⟩ := ancChain_of_prevOrder hP j.1 j.2
    rw [show (⟨j.1, j.2⟩ : Fin L.length) = j from rfl, hget] at hchain
    refine ⟨l1 ++ [u], AncChain.cons hp hchain, ?_, ?_⟩
    · simp only [List.length_append, List.length_cons, List.length_nil]
      have := j.isLt
      omega
    · intro x hx
      rcases List.mem_append.mp hx with hx | hx
      · exact List.mem_of_mem_take (hsub x hx)
      · simp at hx; subst hx; exact hu

end PathVis

namespace PathVis

/-- `n` is the optimal distance from `s` to `c`. -/
def distIs (g : Grid) (s c : Coord) (n : Nat) : Prop :=
  ReachIn g s n c ∧ ∀ m, ReachIn g s m c → n ≤ m

lemma distIs_unique {g : Grid} {s c : Coord} {n m : Nat}
    (hn : distIs g s c n) (hm : distIs g s c m) : n = m :=
  Nat.le_antisymm (hn.2 m hm.1) (hm.2 n hn.1)

/-- Frontier lower bound: in a search state where `s` is visited, every
popped node but the current one has all its step-successors visited,
every visited node is popped or queued, queued nodes have optimal distance
at least `n`, and the current node has optimal distance `n` — every
unvisited node is at distance at least `n + 1`. -/
lemma unvisited_dist_lb {g : Grid} {s cexc : Coord} {n : Nat}
    (order queue : List Coord) (visited : Coord → Bool)
    (hvs : visited s = true)
    (hcomp : ∀ u ∈ order, u ≠ cexc → ∀ v, stepOK g u v → visited v = true)
    (hvisq : ∀ w, visited w = true → w ∈ order ∨ w ∈ queue)
    (hqdist : ∀ w ∈ queue, ∀ nw, distIs g s w nw → n ≤ nw)
    (hchains : ∀ w, visited w = true → ∃ nw, distIs g s w nw)
    (hcdist : distIs g s cexc n) :
    ∀ m v, visited v = false → ReachIn g s m v → n + 1 ≤ m := by
  intro m
  induction m using Nat.strong_induction_on with
  | _ m ih =>
    intro v hv hr
    cases hr with
    | zero => rw [hvs] at hv; cases hv
    | succ hw hstep =>
      rename_i m1 w
      by_cases hwv : visited w = true
      · rcases hvisq w hwv with hmem | hmem
        · by_cases hwc : w = cexc
          · subst hwc
            have := hcdist.2 m1 hw
            omega
          · have := hcomp w hmem hwc v hstep
            rw [this] at hv; cases hv
        · obtain ⟨nw, hnw⟩ := hchains w hwv
          have h1 := hqdist w hmem nw hnw
          have h2 := hnw.2 m1 hw
          omega
      · have := ih m1 (Nat.lt_succ_self m1) w (by
          cases hb : visited w
          · rfl
          · exact absurd hb hwv) hw
        omega

end PathVis

namespace PathVis

lemma getNeighbors_inBounds {g : Grid} {c nb : Coord}
    (h : nb ∈ getNeighbors g c) : inBounds g nb := by
  unfold getNeighbors at h
  constructor <;>
  · rcases List.mem_append.mp h with h1 | h1
    · rcases List.mem_append.mp h1 with h2 | h2
      · rcases List.mem_append.mp h2 with h3 | h3 <;>
        · split at h3 <;> simp_all [inBounds]
          try omega
      · split at h2 <;> simp_all [inBounds]
        try omega
    · split at h1 <;> simp_all [inBounds]
      try omega

lemma stepOK_inBounds {g : Grid} {u v : Coord} (h : stepOK g u v) :
    inBounds g v := getNeighbors_inBounds h.1

lemma ancChain_mem {prev : Coord → Option Coord} {c : Coord} {l : List Coord}
    (h : AncChain prev c l) {P : Coord → Prop}
    (hP : ∀ x u, prev x = some u → P u) : ∀ x ∈ l, P x := by
  induction h with
  | nil => simp
  | cons hc hu ih =>
    intro x hx
    rcases List.mem_append.mp hx with hx | hx
    · exact ih x hx
    · simp at hx; subst hx; exact hP _ _ hc

/-- All in-bounds coordinates of the grid. -/
def allCoords (g : Grid) : List Coord :=
  (List.range (rowsOf g)).flatMap fun r =>
    (List.range (colsOf g)).map fun c => ⟨r, c⟩

lemma mem_allCoords {g : Grid} {c : Coord} :
    c ∈ allCoords g ↔ inBounds g c := by
  unfold allCoords inBounds
  constructor
  · intro h
    obtain ⟨r, hr, hm⟩ := List.mem_flatMap.mp h
    obtain ⟨cc, hc, hmc⟩ := List.mem_map.mp hm
    cases hmc
    exact ⟨List.mem_range.mp hr, List.mem_range.mp hc⟩
  · intro ⟨h1, h2⟩
    exact List.mem_flatMap.mpr ⟨c.row, List.mem_range.mpr h1,
      List.mem_map.mpr ⟨c.col, List.mem_range.mpr h2, rfl⟩⟩

lemma nodup_allCoords (g : Grid) : (allCoords g).Nodup := by
  unfold allCoords
  rw [List.nodup_flatMap]
  constructor
  · intro r _
    exact (List.nodup_range _).map (fun a b h => by cases h; rfl)
  · apply List.Pairwise.imp_of_mem ?_ (List.nodup_range _)
    intro r1 r2 hr1 hr2 hne c hc1 hc2
    simp only [List.mem_map] at hc1 hc2
    obtain ⟨a, _, ha⟩ := hc1
    obtain ⟨b, _, hb⟩ := hc2
    apply hne
    rw [← ha] at hb
    cases hb
    rfl

lemma length_allCoords (g : Grid) :
    (allCoords g).length = rowsOf g * colsOf g := by
  unfold allCoords
  rw [List.length_flatMap]
  have : (List.map (List.length ∘ fun r =>
      (List.range (colsOf g)).map fun c => (⟨r, c⟩ : Coord))
      (List.range (rowsOf g))) =
      List.replicate (rowsOf g) (colsOf g) := by
    rw [List.eq_replicate_iff]
    refine ⟨by simp, ?_⟩
    intro b hb
    simp only [List.mem_map, Function.comp] at hb
    obtain ⟨r, _, hr⟩ := hb
    simp at hr
    omega
  rw [this, List.sum_replicate, smul_eq_mul]

/-- Number of not-yet-visited in-bounds cells. -/
def unvisitedCount (g : Grid) (vis : Coord → Bool) : Nat :=
  ((allCoords g).filter fun c => !vis c).length

lemma countP_agree {L : List Coord} {p q : Coord → Bool}
    (h : ∀ x ∈ L, p x = q x) : L.countP p = L.countP q := by
  induction L with
  | nil => rfl
  | cons a t ih =>
    rw [List.countP_cons, List.countP_cons, h a (by simp),
      ih fun x hx => h x (by simp [hx])]

lemma countP_setAt_mark {vis : Coord → Bool} {nb : Coord}
    (hfresh : vis nb = false) :
    ∀ {L : List Coord}, L.Nodup → nb ∈ L →
      L.countP (fun c => !(setAt vis nb true) c) + 1 =
        L.countP fun c => !vis c := by
  intro L
  induction L with
  | nil => intro _ h; cases h
  | cons a t ih =>
    intro hnd hmem
    rw [List.countP_cons, List.countP_cons]
    rcases List.mem_cons.mp hmem with ha | ha
    · subst ha
      have hnin : nb ∉ t := (List.nodup_cons.mp hnd).1
      have hagree : t.countP (fun c => !(setAt vis nb true) c) =
          t.countP fun c => !vis c := by
        apply countP_agree
        intro x hx
        have hxa : x ≠ nb := fun he => hnin (he ▸ hx)
        simp [setAt, hxa]
      rw [hagree]
      simp [setAt, hfresh]
    · have hnd2 := (List.nodup_cons.mp hnd).2
      have hab : a ≠ nb := fun he => (List.nodup_cons.mp hnd).1 (he ▸ ha)
      have := ih hnd2 ha
      have hsa : (setAt vis nb true) a = vis a := by simp [setAt, hab]
      rw [hsa]
      omega

lemma unvisitedCount_mark {g : Grid} {v : Coord → Bool} {nb : Coord}
    (hb : inBounds g nb) (hfresh : v nb = false) :
    unvisitedCount g (setAt v nb true) + 1 = unvisitedCount g v := by
  unfold unvisitedCount
  rw [← List.countP_eq_length_filter, ← List.countP_eq_length_filter]
  exact countP_setAt_mark hfresh (nodup_allCoords g) (mem_allCoords.mpr hb)

lemma unvisitedCount_le (g : Grid) (vis : Coord → Bool) :
    unvisitedCount g vis ≤ rowsOf g * colsOf g := by
  unfold unvisitedCount
  calc ((allCoords g).filter fun c => !vis c).length ≤ (allCoords g).length :=
        List.length_filter_le _ _
    _ = rowsOf g * colsOf g := length_allCoords g

end PathVis

namespace PathVis

/-- The BFS frontier splits into a block of cells at level `n` followed by
a block at level `n + 1`. -/
def LevelSplit (g : Grid) (s : Coord) (n : Nat) (q : List Coord) : Prop :=
  ∃ qa qb, q = qa ++ qb ∧
    (∀ w ∈ qa, ∀ nw, distIs g s w nw → nw = n) ∧
    (∀ w ∈ qb, ∀ nw, distIs g s w nw → nw = n + 1)

/-- Loop invariant of `bfs`. -/
structure BfsInv (g : Grid) (s : Coord) (σ : FifoState) : Prop where
  nodupAll : (σ.order ++ σ.queue).Nodup
  visited_iff : ∀ c, σ.visited c = true ↔ (c ∈ σ.order ∨ c ∈ σ.queue)
  visited_dom : ∀ c, σ.visited c = true →
    inBounds g c ∧ (c = s ∨ isWallAt g c = false)
  prev_s : σ.prev s = none
  prev_some : ∀ c u, σ.prev c = some u →
    σ.visited c = true ∧ u ∈ σ.order ∧ stepOK g u c
  prev_exists : ∀ c, σ.visited c = true → c ≠ s → σ.prev c ≠ none
  prevOrder : PrevOrder σ.prev σ.order
  complete : ∀ u ∈ σ.order, ∀ v, stepOK g u v → σ.visited v = true
  chains : ∀ c, σ.visited c = true → ∃ l, AncChain σ.prev c l ∧
    distIs g s c l.length ∧ List.Chain' (stepOK g) (l ++ [c]) ∧
    (l ≠ [] → l.head? = some s) ∧ (l = [] → c = s)
  band : ∃ n, LevelSplit g s n σ.queue
  visited_s : σ.visited s = true

/-- Invariant during the neighbor scan of a popped node `c` at level `n`. -/
structure BfsMid (g : Grid) (s c : Coord) (n : Nat) (σ : FifoState) : Prop where
  nodupAll : (σ.order ++ σ.queue).Nodup
  visited_iff : ∀ x, σ.visited x = true ↔ (x ∈ σ.order ∨ x ∈ σ.queue)
  visited_dom : ∀ x, σ.visited x = true →
    inBounds g x ∧ (x = s ∨ isWallAt g x = false)
  prev_s : σ.prev s = none
  prev_some : ∀ x u, σ.prev x = some u →
    σ.visited x = true ∧ u ∈ σ.order ∧ stepOK g u x
  prev_exists : ∀ x, σ.visited x = true → x ≠ s → σ.prev x ≠ none
  prevOrder : PrevOrder σ.prev σ.order
  completeExc : ∀ u ∈ σ.order, u ≠ c → ∀ v, stepOK g u v → σ.visited v = true
  chains : ∀ x, σ.visited x = true → ∃ l, AncChain σ.prev x l ∧
    distIs g s x l.length ∧ List.Chain' (stepOK g) (l ++ [x]) ∧
    (l ≠ [] → l.head? = some s) ∧ (l = [] → x = s)
  split : LevelSplit g s n σ.queue
  visited_s : σ.visited s = true
  cOrder : c ∈ σ.order
  cDist : distIs g s c n
  cVisited : σ.visited c = true
  cNotQueued : c ∉ σ.queue

lemma bfsMid_dist_exists {g : Grid} {s c : Coord} {n : Nat} {σ : FifoState}
    (hm : BfsMid g s c n σ) :
    ∀ w, σ.visited w = true → ∃ nw, distIs g s w nw := by
  intro w hw
  obtain ⟨l, _, hdist, _⟩ := hm.chains w hw
  exact ⟨l.length, hdist⟩

/-- The frontier lower bound specialised to a mid-scan state. -/
lemma bfsMid_unvisited_lb {g : Grid} {s c : Coord} {n : Nat} {σ : FifoState}
    (hm : BfsMid g s c n σ) :
    ∀ m v, σ.visited v = false → ReachIn g s m v → n + 1 ≤ m := by
  apply unvisited_dist_lb σ.order σ.queue σ.visited hm.visited_s
  · intro u hu hne v hst
    exact hm.completeExc u hu hne v hst
  · intro w hw
    exact (hm.visited_iff w).mp hw
  · intro w hw nw hnw
    obtain ⟨qa, qb, he, ha, hb⟩ := hm.split
    rw [he] at hw
    rcases List.mem_append.mp hw with h | h
    · rw [ha w h nw hnw]
    · rw [hb w h nw hnw]; omega
  · exact bfsMid_dist_exists hm
  · exact hm.cDist

end PathVis

namespace PathVis

lemma nodup_append_singleton {L : List Coord} {x : Coord}
    (h : L.Nodup) (hx : x ∉ L) : (L ++ [x]).Nodup := by
  rw [List.nodup_append]
  exact ⟨h, List.nodup_singleton _, fun a ha hb => by
    simp at hb; subst hb; exact hx ha⟩

lemma discoverNb_mid {g : Grid} {s c : Coord} {n : Nat} {σ : FifoState}
    {nb : Coord} (hm : BfsMid g s c n σ) (hnb : nb ∈ getNeighbors g c) :
    BfsMid g s c n (discoverNb g c σ nb) ∧
      (discoverNb g c σ nb).order = σ.order ∧
      (∀ x, σ.visited x = true → (discoverNb g c σ nb).visited x = true) ∧
      (isWallAt g nb = false → (discoverNb g c σ nb).visited nb = true) ∧
      unvisitedCount g (discoverNb g c σ nb).visited +
          (discoverNb g c σ nb).queue.length =
        unvisitedCount g σ.visited + σ.queue.length := by
  by_cases hskip : σ.visited nb = true ∨ isWallAt g nb = true
  · have heq : discoverNb g c σ nb = σ := by
      unfold discoverNb
      rcases hskip with h | h <;> simp [h]
    rw [heq]
    refine ⟨hm, rfl, fun x h => h, ?_, rfl⟩
    intro hwall
    rcases hskip with h | h
    · exact h
    · rw [hwall] at h; cases h
  · push_neg at hskip
    have hfresh : σ.visited nb = false :=
      Bool.eq_false_iff.mpr hskip.1
    have hwall : isWallAt g nb = false :=
      Bool.eq_false_iff.mpr hskip.2
    have hstep : stepOK g c nb := ⟨hnb, hwall⟩
    have hbnd : inBounds g nb := getNeighbors_inBounds hnb
    have heq : discoverNb g c σ nb =
        { σ with visited := setAt σ.visited nb true
                 prev := setAt σ.prev nb (some c)
                 queue := σ.queue ++ [nb] } := by
      unfold discoverNb
      simp [hfresh, hwall]
    have hnbo : nb ∉ σ.order := fun h => by
      have := (hm.visited_iff nb).mpr (Or.inl h)
      rw [hfresh] at this; cases this
    have hnbq : nb ∉ σ.queue := fun h => by
      have := (hm.visited_iff nb).mpr (Or.inr h)
      rw [hfresh] at this; cases this
    have hns : nb ≠ s := fun he => by
      rw [he, hm.visited_s] at hfresh; cases hfresh
    have hnc : nb ≠ c := fun he => by
      rw [he, hm.cVisited] at hfresh; cases hfresh
    obtain ⟨lc, hlcC, hlcD, hlcCh, hlcH, hlcN⟩ := hm.chains c hm.cVisited
    have hlen : lc.length = n := distIs_unique hlcD hm.cDist
    have hmemo : ∀ x ∈ lc, x ∈ σ.order :=
      ancChain_mem hlcC fun x u hx => (hm.prev_some x u hx).2.1
    have hnbl : nb ∉ c :: lc := by
      intro h
      rcases List.mem_cons.mp h with h | h
      · exact hnc h
      · exact hnbo (hmemo nb h)
    have hlcC2 : AncChain (setAt σ.prev nb (some c)) c lc :=
      ancChain_setAt hlcC nb hnbl _
    have hnbC : AncChain (setAt σ.prev nb (some c)) nb (lc ++ [c]) :=
      AncChain.cons (by simp [setAt]) hlcC2
    have hreach : ReachIn g s (n + 1) nb := by
      have := hlcD.1
      rw [hlen] at this
      exact ReachIn.succ this hstep
    have hdnb : distIs g s nb (n + 1) :=
      ⟨hreach, fun m hr => bfsMid_unvisited_lb hm m nb hfresh hr⟩
    rw [heq]
    refine ⟨?_, rfl, ?_, ?_, ?_⟩
    · refine ⟨?_, ?_, ?_, ?_, ?_, ?_, ?_, ?_, ?_, ?_, ?_, ?_, ?_, ?_, ?_⟩
      · -- nodupAll
        show (σ.order ++ (σ.queue ++ [nb])).Nodup
        rw [← List.append_assoc]
        refine nodup_append_singleton hm.nodupAll ?_
        intro h
        rcases List.mem_append.mp h with h | h
        · exact hnbo h
        · exact hnbq h
      · -- visited_iff
        intro x
        by_cases hx : x = nb
        · subst hx
          simp [setAt]
        · simp only [setAt, if_neg hx]
          rw [hm.visited_iff x]
          constructor
          · rintro (h | h)
            · exact Or.inl h
            · exact Or.inr (List.mem_append.mpr (Or.inl h))
          · rintro (h | h)
            · exact Or.inl h
            · rcases List.mem_append.mp h with h | h
              · exact Or.inr h
              · simp at h; exact absurd h hx
      · -- visited_dom
        intro x hx
        by_cases hxe : x = nb
        · subst hxe; exact ⟨hbnd, Or.inr hwall⟩
        · simp only [setAt, if_neg hxe] at hx
          exact hm.visited_dom x hx
      · -- prev_s
        simp only [setAt, if_neg (Ne.symm hns)]
        exact hm.prev_s
      · -- prev_some
        intro x u hx
        by_cases hxe : x = nb
        · subst hxe
          simp only [setAt, if_pos rfl] at hx
          cases hx
          exact ⟨by simp [setAt], hm.cOrder, hstep⟩
        · simp only [setAt, if_neg hxe] at hx
          obtain ⟨h1, h2, h3⟩ := hm.prev_some x u hx
          exact ⟨by simp [setAt, if_neg hxe, h1], h2, h3⟩
      · -- prev_exists
        intro x hx hxs
        by_cases hxe : x = nb
        · subst hxe
          simp [setAt]
        · simp only [setAt, if_neg hxe] at hx ⊢
          exact hm.prev_exists x hx hxs
      · -- prevOrder
        intro i hi u hu
        have hne : σ.order.get ⟨i, hi⟩ ≠ nb := by
          intro h
          exact hnbo (h ▸ List.get_mem σ.order i hi)
        simp only [setAt, if_neg hne] at hu
        exact hm.prevOrder i hi u hu
      · -- completeExc
        intro u hu hune v hst
        have := hm.completeExc u hu hune v hst
        by_cases hv : v = nb
        · subst hv; simp [setAt]
        · simp [setAt, if_neg hv, this]
      · -- chains
        intro x hx
        by_cases hxe : x = nb
        · subst hxe
          refine ⟨lc ++ [c], hnbC, ?_, ?_, ?_, ?_⟩
          · have : (lc ++ [c]).length = n + 1 := by simp [hlen]
            rw [this]; exact hdnb
          · rw [List.chain'_append]
            refine ⟨hlcCh, List.chain'_singleton _, ?_⟩
            intro a ha b hb
            simp at hb
            subst hb
            have : (lc ++ [c]).getLast? = some c := by
              rw [List.getLast?_concat]
            rw [this] at ha
            simp at ha
            subst ha
            exact hstep
          · intro _
            cases hl : lc with
            | nil =>
              have := hlcN hl
              simp [hl, this]
            | cons a t =>
              have := hlcH (by simp [hl])
              rw [hl] at this
              simpa using this
          · intro h
            simp at h
        · simp only [setAt, if_neg hxe] at hx
          obtain ⟨l, hC, hD, hCh, hH, hN⟩ := hm.chains x hx
          have hmem : ∀ y ∈ l, y ∈ σ.order :=
            ancChain_mem hC fun y u hy => (hm.prev_some y u hy).2.1
          have hnl : nb ∉ x :: l := by
            intro h
            rcases List.mem_cons.mp h with h | h
            · exact hxe h.symm
            · exact hnbo (hmem nb h)
          exact ⟨l, ancChain_setAt hC nb hnl _, hD, hCh, hH, hN⟩
      · -- split
        obtain ⟨qa, qb, hq, ha, hb⟩ := hm.split
        refine ⟨qa, qb ++ [nb], by rw [hq, List.append_assoc], ha, ?_⟩
        intro w hw nw hnw
        rcases List.mem_append.mp hw with h | h
        · exact hb w h nw hnw
        · simp at h
          subst h
          exact distIs_unique hnw hdnb
      · -- visited_s
        simp only [setAt, if_neg (Ne.symm hns)]
        exact hm.visited_s
      · exact hm.cOrder
      · exact hm.cDist
      · -- cVisited
        show setAt σ.visited nb true c = true
        simp only [setAt]
        rw [if_neg fun h : c = nb => hnc h.symm]
        exact hm.cVisited
      · -- cNotQueued
        intro h
        rcases List.mem_append.mp h with h | h
        · exact hm.cNotQueued h
        · simp at h
          exact hnc h.symm
    · intro x hx
      by_cases hxe : x = nb
      · subst hxe; simp [setAt]
      · simp [setAt, if_neg hxe, hx]
    · intro _
      simp [setAt]
    · show unvisitedCount g (setAt σ.visited nb true) +
        (σ.queue ++ [nb]).length = unvisitedCount g σ.visited + σ.queue.length
      have := unvisitedCount_mark hbnd hfresh
      simp only [List.length_append, List.length_cons, List.length_nil]
      omega

end PathVis

namespace PathVis

lemma prevOrder_append {prev : Coord → Option Coord} {order : List Coord}
    {c : Coord} (hP : PrevOrder prev order)
    (hc : ∀ u, prev c = some u → u ∈ order) :
    PrevOrder prev (order ++ [c]) := by
  intro i hi u hu
  have hlen : i < order.length + 1 := by
    simpa [List.length_append] using hi
  by_cases hilt : i < order.length
  · have hget : (order ++ [c]).get ⟨i, hi⟩ = order.get ⟨i, hilt⟩ := by
      simp only [List.get_eq_getElem]
      exact List.getElem_append_left hilt
    rw [hget] at hu
    rw [List.take_append_of_le_length (Nat.le_of_lt hilt)]
    exact hP i hilt u hu
  · have hieq : i = order.length := by omega
    have hget : (order ++ [c]).get ⟨i, hi⟩ = c := by
      simp only [List.get_eq_getElem]
      exact List.getElem_concat_length order c i hieq _
    rw [hget] at hu
    rw [hieq, List.take_left]
    exact hc u hu

lemma discover_fold {g : Grid} {s c : Coord} {n : Nat} :
    ∀ (nbs : List Coord) {σ : FifoState}, BfsMid g s c n σ →
      (∀ nb ∈ nbs, nb ∈ getNeighbors g c) →
      BfsMid g s c n (nbs.foldl (discoverNb g c) σ) ∧
        (nbs.foldl (discoverNb g c) σ).order = σ.order ∧
        (∀ x, σ.visited x = true →
          (nbs.foldl (discoverNb g c) σ).visited x = true) ∧
        (∀ nb ∈ nbs, isWallAt g nb = false →
          (nbs.foldl (discoverNb g c) σ).visited nb = true) ∧
        unvisitedCount g (nbs.foldl (discoverNb g c) σ).visited +
            (nbs.foldl (discoverNb g c) σ).queue.length =
          unvisitedCount g σ.visited + σ.queue.length := by
  intro nbs
  induction nbs with
  | nil =>
    intro σ hm _
    exact ⟨hm, rfl, fun x h => h, by simp, rfl⟩
  | cons a t ih =>
    intro σ hm hmem
    have ha : a ∈ getNeighbors g c := hmem a (by simp)
    obtain ⟨hm1, hord1, hmono1, hvis1, hcnt1⟩ := discoverNb_mid hm ha
    have hrec := ih hm1 fun nb hnb => hmem nb (by simp [hnb])
    obtain ⟨hm2, hord2, hmono2, hvis2, hcnt2⟩ := hrec
    refine ⟨hm2, ?_, ?_, ?_, ?_⟩
    · show (t.foldl (discoverNb g c) (discoverNb g c σ a)).order = σ.order
      rw [hord2, hord1]
    · intro x hx
      exact hmono2 x (hmono1 x hx)
    · intro nb hnb hwall
      rcases List.mem_cons.mp hnb with h | h
      · subst h
        exact hmono2 nb (hvis1 hwall)
      · exact hvis2 nb h hwall
    · simp only [List.foldl_cons]
      omega

lemma bfsInv_pop {g : Grid} {s : Coord} {σ : FifoState} {c : Coord}
    {rest : List Coord} (hI : BfsInv g s σ) (hq : σ.queue = c :: rest) :
    ∃ n, BfsMid g s c n
      { σ with queue := rest, order := σ.order ++ [c] } := by
  have hcq : c ∈ σ.queue := by rw [hq]; simp
  have hcv : σ.visited c = true := (hI.visited_iff c).mpr (Or.inr hcq)
  obtain ⟨lc, hlcC, hlcD, _, _, _⟩ := hI.chains c hcv
  have hco : c ∉ σ.order := by
    intro h
    have hnd := hI.nodupAll
    rw [hq, List.nodup_append] at hnd
    exact hnd.2.2 h (by simp)
  have hcrest : c ∉ rest := by
    have hnd := hI.nodupAll
    rw [hq, List.nodup_append] at hnd
    exact (List.nodup_cons.mp hnd.2.1).1
  refine ⟨lc.length, ?_⟩
  constructor
  · -- nodupAll
    show (σ.order ++ [c] ++ rest).Nodup
    rw [List.append_assoc]
    have : [c] ++ rest = c :: rest := rfl
    rw [this, ← hq]
    exact hI.nodupAll
  · -- visited_iff
    intro x
    rw [hI.visited_iff x, hq]
    simp only [List.mem_append, List.mem_cons, List.mem_singleton]
    tauto
  · exact hI.visited_dom
  · exact hI.prev_s
  · -- prev_some
    intro x u hx
    obtain ⟨h1, h2, h3⟩ := hI.prev_some x u hx
    exact ⟨h1, List.mem_append.mpr (Or.inl h2), h3⟩
  · exact hI.prev_exists
  · -- prevOrder
    exact prevOrder_append hI.prevOrder fun u hu => (hI.prev_some c u hu).2.1
  · -- completeExc
    intro u hu hune v hst
    rcases List.mem_append.mp hu with h | h
    · exact hI.complete u h v hst
    · simp at h
      exact absurd h hune
  · -- chains
    intro x hx
    obtain ⟨l, hC, hD, hCh, hH, hN⟩ := hI.chains x hx
    exact ⟨l, hC, hD, hCh, hH, hN⟩
  · -- split
    obtain ⟨nb, qa, qb, hsplit, ha, hb⟩ := hI.band
    rw [hq] at hsplit
    cases qa with
    | nil =>
      simp at hsplit
      cases qb with
      | nil => simp at hsplit
      | cons b qb2 =>
        rw [List.cons.injEq] at hsplit
        obtain ⟨hbc, hrest⟩ := hsplit
        subst hbc
        have hcn : lc.length = nb + 1 := hb c (by simp) lc.length hlcD
        refine ⟨qb2, [], by simp [hrest], ?_, by simp⟩
        intro w hw nw hnw
        rw [hcn]
        exact hb w (by simp [hw]) nw hnw
    | cons b qa2 =>
      rw [List.cons_append, List.cons.injEq] at hsplit
      obtain ⟨hbc, hrest⟩ := hsplit
      subst hbc
      have hcn : lc.length = nb := ha c (by simp) lc.length hlcD
      refine ⟨qa2, qb, hrest, ?_, ?_⟩
      · intro w hw nw hnw
        rw [hcn]
        exact ha w (by simp [hw]) nw hnw
      · intro w hw nw hnw
        rw [hcn]
        exact hb w hw nw hnw
  · exact hI.visited_s
  · -- cOrder
    exact List.mem_append.mpr (Or.inr (by simp))
  · -- cDist
    exact hlcD
  · -- cVisited
    exact hcv
  · -- cNotQueued
    exact hcrest

lemma bfsMid_close {g : Grid} {s c : Coord} {n : Nat} {σ : FifoState}
    (hm : BfsMid g s c n σ)
    (hdone : ∀ v, stepOK g c v → σ.visited v = true) : BfsInv g s σ := by
  constructor
  · exact hm.nodupAll
  · exact hm.visited_iff
  · exact hm.visited_dom
  · exact hm.prev_s
  · exact hm.prev_some
  · exact hm.prev_exists
  · exact hm.prevOrder
  · -- complete
    intro u hu v hst
    by_cases huc : u = c
    · subst huc
      exact hdone v hst
    · exact hm.completeExc u hu huc v hst
  · exact hm.chains
  · exact ⟨n, hm.split⟩
  · exact hm.visited_s

end PathVis

namespace PathVis

def bfsMeasure (g : Grid) (σ : FifoState) : Nat :=
  unvisitedCount g σ.visited + σ.queue.length

/-- What holds of the state in which the `bfs` loop terminates. -/
structure BfsDone (g : Grid) (s e : Coord) (σ : FifoState) : Prop where
  nodupAll : (σ.order ++ σ.queue).Nodup
  visited_iff : ∀ c, σ.visited c = true ↔ (c ∈ σ.order ∨ c ∈ σ.queue)
  visited_dom : ∀ c, σ.visited c = true →
    inBounds g c ∧ (c = s ∨ isWallAt g c = false)
  prev_s : σ.prev s = none
  prev_some : ∀ c u, σ.prev c = some u →
    σ.visited c = true ∧ u ∈ σ.order ∧ stepOK g u c
  prev_exists : ∀ c, σ.visited c = true → c ≠ s → σ.prev c ≠ none
  prevOrder : PrevOrder σ.prev σ.order
  chains : ∀ c, σ.visited c = true → ∃ l, AncChain σ.prev c l ∧
    distIs g s c l.length ∧ List.Chain' (stepOK g) (l ++ [c]) ∧
    (l ≠ [] → l.head? = some s) ∧ (l = [] → c = s)
  visited_s : σ.visited s = true
  exitCond : (σ.queue = [] ∧
      ∀ u ∈ σ.order, ∀ v, stepOK g u v → σ.visited v = true) ∨
    ∃ pre, σ.order = pre ++ [e]

theorem bfsLoop_done (g : Grid) (s e : Coord) :
    ∀ (fuel : Nat) (σ : FifoState), BfsInv g s σ → bfsMeasure g σ < fuel →
      BfsDone g s e (bfsLoop g e fuel σ) := by
  intro fuel
  induction fuel with
  | zero =>
    intro σ _ h
    omega
  | succ f ih =>
    intro σ hI hm
    cases hq : σ.queue with
    | nil =>
      have heval : bfsLoop g e (f + 1) σ = σ := by
        unfold bfsLoop
        rw [hq]
      rw [heval]
      exact ⟨hI.nodupAll, hI.visited_iff, hI.visited_dom, hI.prev_s,
        hI.prev_some, hI.prev_exists, hI.prevOrder, hI.chains, hI.visited_s,
        Or.inl ⟨hq, hI.complete⟩⟩
    | cons c rest =>
      obtain ⟨n, hmid⟩ := bfsInv_pop hI hq
      by_cases hce : c = e
      · have heval : bfsLoop g e (f + 1) σ =
            { σ with queue := rest, order := σ.order ++ [c] } := by
          unfold bfsLoop
          rw [hq]
          simp [hce]
        rw [heval]
        exact ⟨hmid.nodupAll, hmid.visited_iff, hmid.visited_dom, hmid.prev_s,
          hmid.prev_some, hmid.prev_exists, hmid.prevOrder, hmid.chains,
          hmid.visited_s, Or.inr ⟨σ.order, by rw [hce]⟩⟩
      · have heval : bfsLoop g e (f + 1) σ =
            bfsLoop g e f ((getNeighbors g c).foldl (discoverNb g c)
              { σ with queue := rest, order := σ.order ++ [c] }) := by
          conv_lhs => rw [bfsLoop.eq_def]
          simp [hq, hce]
        rw [heval]
        obtain ⟨hm2, hord2, hmono2, hvis2, hcnt2⟩ :=
          discover_fold (getNeighbors g c) hmid fun nb h => h
        have hInv2 := bfsMid_close hm2 fun v hst => hvis2 v hst.1 hst.2
        apply ih _ hInv2
        have hlen : σ.queue.length = rest.length + 1 := by rw [hq]; simp
        unfold bfsMeasure at hm ⊢
        simp only at hcnt2
        omega

end PathVis

namespace PathVis

lemma ancChain_unique {prev : Coord → Option Coord} {c : Coord}
    {l1 : List Coord} (h1 : AncChain prev c l1) :
    ∀ {l2 : List Coord}, AncChain prev c l2 → l1 = l2 := by
  induction h1 with
  | nil h0 =>
    intro l2 h2
    cases h2 with
    | nil => rfl
    | cons hc _ => rw [h0] at hc; cases hc
  | cons hc hu ih =>
    intro l2 h2
    cases h2 with
    | nil h0 => rw [h0] at hc; cases hc
    | cons hc2 hu2 =>
      rw [hc] at hc2
      injection hc2 with hc2
      subst hc2
      rw [ih hu2]

lemma bfsInv_init {g : Grid} {s : Coord} (hs : inBounds g s) :
    BfsInv g s (fifoInit s) := by
  have hdist0 : distIs g s s 0 := ⟨ReachIn.zero, fun m _ => Nat.zero_le m⟩
  constructor
  · simp [fifoInit]
  · intro c
    constructor
    · intro h
      simp only [fifoInit, setAt] at h
      split at h
      · rename_i he; subst he; simp [fifoInit]
      · cases h
    · intro h
      simp only [fifoInit, List.not_mem_nil, false_or] at h
      simp only [List.mem_singleton] at h
      subst h
      simp [fifoInit, setAt]
  · intro c h
    simp only [fifoInit, setAt] at h
    split at h
    · rename_i he; subst he; exact ⟨hs, Or.inl rfl⟩
    · cases h
  · rfl
  · intro c u h; cases h
  · intro c h hcs
    simp only [fifoInit, setAt] at h
    split at h
    · rename_i he; exact absurd he hcs
    · cases h
  · intro i hi
    simp [fifoInit] at hi
  · intro u hu
    simp [fifoInit] at hu
  · intro c h
    simp only [fifoInit, setAt] at h
    split at h
    · rename_i he
      subst he
      exact ⟨[], AncChain.nil rfl, hdist0, by simp, by simp, fun _ => rfl⟩
    · cases h
  · exact ⟨0, [s], [], rfl,
      fun w hw nw hnw => by
        simp at hw; subst hw; exact distIs_unique hnw hdist0,
      by simp⟩
  · simp [fifoInit, setAt]

lemma unvisitedCount_false (g : Grid) :
    unvisitedCount g (fun _ => false) = rowsOf g * colsOf g := by
  unfold unvisitedCount
  rw [show (fun c : Coord => !(fun _ : Coord => false) c) =
    fun _ : Coord => true by funext c; rfl]
  rw [List.filter_true]
  exact length_allCoords g

theorem bfs_done (g : Grid) (s e : Coord) (hs : inBounds g s) :
    BfsDone g s e (bfsFinal g s e) := by
  apply bfsLoop_done g s e _ _ (bfsInv_init hs)
  unfold bfsMeasure fifoInit
  have h1 := unvisitedCount_mark (g := g) (v := fun _ => false) hs rfl
  rw [unvisitedCount_false] at h1
  simp only [List.length_singleton]
  omega

end PathVis

namespace PathVis

lemma ancChain_nil_inv {prev : Coord → Option Coord} {c : Coord}
    {l : List Coord} (h : AncChain prev c l) (hl : l = []) :
    prev c = none := by
  cases h with
  | nil h0 => exact h0
  | cons hc hu => exact absurd hl (by simp)

lemma nodup_get_not_mem_take {L : List Coord} (h : L.Nodup) (i : Nat)
    (hi : i < L.length) : L.get ⟨i, hi⟩ ∉ L.take i := by
  intro hmem
  have hnd : (L.take i ++ L.drop i).Nodup := by
    rw [List.take_append_drop i L]; exact h
  rw [List.nodup_append] at hnd
  have hdr : L.get ⟨i, hi⟩ ∈ L.drop i := by
    simp only [List.get_eq_getElem]
    rw [List.drop_eq_getElem_cons hi]
    exact List.mem_cons_self _ _
  exact hnd.2.2 hmem hdr

/-- Consolidated facts about a finished `bfs` run. -/
theorem bfs_run_spec (g : Grid) (s e : Coord) (hs : inBounds g s) :
    ((bfsFinal g s e).order.Nodup ∧ (bfsFinal g s e).order ≠ [] ∧
      (∀ c ∈ (bfsFinal g s e).order, inBounds g c ∧ Reach g s c) ∧
      (bfsFinal g s e).order.length ≤ rowsOf g * colsOf g) ∧
    (∃ l, getNodesInShortestPathOrder (bfsFinal g s e).prev e (walkFuel g) =
        some l ∧
      (((bfsFinal g s e).prev e = none ∧ l = []) ∨
        (l ≠ [] ∧ distIs g s e l.length ∧ l.head? = some s ∧ e ∉ l ∧
          List.Chain' (stepOK g) (l ++ [e]) ∧
          ∃ u, l.getLast? = some u ∧ stepOK g u e))) ∧
    ((¬Reach g s e → (bfsFinal g s e).prev e = none) ∧
      (Reach g s e → e ≠ s → (bfsFinal g s e).prev e ≠ none) ∧
      (bfsFinal g s e).prev s = none) := by
  have hD := bfs_done g s e hs
  have hnodup : (bfsFinal g s e).order.Nodup :=
    (List.nodup_append.mp hD.nodupAll).1
  have hdom : ∀ c ∈ (bfsFinal g s e).order, inBounds g c ∧ Reach g s c := by
    intro c hc
    have hv := (hD.visited_iff c).mpr (Or.inl hc)
    obtain ⟨hb, _⟩ := hD.visited_dom c hv
    obtain ⟨l, _, hdist, _⟩ := hD.chains c hv
    exact ⟨hb, ⟨l.length, hdist.1⟩⟩
  have hlenb : (bfsFinal g s e).order.length ≤ rowsOf g * colsOf g :=
    nodup_inBounds_length_le hnodup fun c hc => (hdom c hc).1
  have hne : (bfsFinal g s e).order ≠ [] := by
    rcases hD.exitCond with ⟨hqe, _⟩ | ⟨pre, hpre⟩
    · intro h0
      have := (hD.visited_iff s).mp hD.visited_s
      rw [h0, hqe] at this
      simp at this
    · rw [hpre]; simp
  have hattain : Reach g s e → (bfsFinal g s e).visited e = true := by
    rintro ⟨nr, hr⟩
    rcases hD.exitCond with ⟨hqe, hcomp⟩ | ⟨pre, hpre⟩
    · have hall : ∀ m x, ReachIn g s m x →
          (bfsFinal g s e).visited x = true := by
        intro m
        induction m with
        | zero =>
          intro x hx
          cases hx
          exact hD.visited_s
        | succ k ih =>
          intro x hx
          cases hx with
          | succ hw hstep =>
            rename_i u
            have hu := ih u hw
            have humem : u ∈ (bfsFinal g s e).order := by
              rcases (hD.visited_iff u).mp hu with h | h
              · exact h
              · rw [hqe] at h; cases h
            exact hcomp u humem x hstep
      exact hall nr e hr
    · exact (hD.visited_iff e).mpr (Or.inl (by rw [hpre]; simp))
  refine ⟨⟨hnodup, hne, hdom, hlenb⟩, ?_, ?_, ?_, hD.prev_s⟩
  · cases hpe : (bfsFinal g s e).prev e with
    | none =>
      exact ⟨[], by simp [getNodesInShortestPathOrder, hpe], Or.inl ⟨rfl, rfl⟩⟩
    | some u =>
      have hv : (bfsFinal g s e).visited e = true := (hD.prev_some e u hpe).1
      obtain ⟨l, hC, hdist, hCh, hH, hN⟩ := hD.chains e hv
      have hlne : l ≠ [] := by
        intro h0
        rw [ancChain_nil_inv hC h0] at hpe
        cases hpe
      have hM : ∀ c u2, (bfsFinal g s e).prev c = some u2 →
          u2 ∈ (bfsFinal g s e).order :=
        fun c u2 h => (hD.prev_some c u2 h).2.1
      obtain ⟨l2, hC2, hlen2, _⟩ := ancChain_total hD.prevOrder hM e
      have hll : l = l2 := ancChain_unique hC hC2
      have hflt : l.length < walkFuel g := by
        unfold walkFuel
        rw [hll]
        omega
      have hwalk := getNodes_of_ancChain hC hflt
      have henl : e ∉ l := by
        by_cases heo : e ∈ (bfsFinal g s e).order
        · obtain ⟨i, hget⟩ := List.mem_iff_get.mp heo
          obtain ⟨l3, hC3, _, hsub3⟩ :=
            ancChain_of_prevOrder hD.prevOrder i.1 i.2
          rw [show (⟨i.1, i.2⟩ : Fin _) = i from rfl, hget] at hC3
          have hl3 : l = l3 := ancChain_unique hC hC3
          intro hmem
          have : e ∈ (bfsFinal g s e).order.take i.1 :=
            hsub3 e (hl3 ▸ hmem)
          exact (hget ▸ nodup_get_not_mem_take hnodup i.1 i.2) this
        · intro hmem
          exact heo ((ancChain_mem hC fun x u2 hx =>
            (hD.prev_some x u2 hx).2.1) e hmem)
      have hlast : ∃ u2, l.getLast? = some u2 ∧ stepOK g u2 e := by
        cases hC with
        | nil h => rw [h] at hpe; cases hpe
        | cons hc hu2 =>
          rename_i u1 l1
          refine ⟨u1, List.getLast?_concat _, ?_⟩
          exact (hD.prev_some e u1 hc).2.2
      exact ⟨l, hwalk, Or.inr ⟨hlne, hdist, hH hlne, henl, hCh, hlast⟩⟩
  · intro hnr
    cases hpe : (bfsFinal g s e).prev e with
    | none => rfl
    | some u =>
      have hv := (hD.prev_some e u hpe).1
      obtain ⟨l, _, hdist, _⟩ := hD.chains e hv
      exact absurd ⟨l.length, hdist.1⟩ hnr
  · intro hr hnes
    have hv := hattain hr
    exact hD.prev_exists e hv hnes

end PathVis

namespace PathVis

/-! ## DFS: same bookkeeping as BFS, LIFO frontier, no optimality. -/

structure DfsInv (g : Grid) (s : Coord) (σ : FifoState) : Prop where
  nodupAll : (σ.order ++ σ.queue).Nodup
  visited_iff : ∀ c, σ.visited c = true ↔ (c ∈ σ.order ∨ c ∈ σ.queue)
  visited_dom : ∀ c, σ.visited c = true →
    inBounds g c ∧ (c = s ∨ isWallAt g c = false)
  prev_s : σ.prev s = none
  prev_some : ∀ c u, σ.prev c = some u →
    σ.visited c = true ∧ u ∈ σ.order ∧ stepOK g u c
  prev_exists : ∀ c, σ.visited c = true → c ≠ s → σ.prev c ≠ none
  prevOrder : PrevOrder σ.prev σ.order
  complete : ∀ u ∈ σ.order, ∀ v, stepOK g u v → σ.visited v = true
  chains : ∀ c, σ.visited c = true → ∃ l, AncChain σ.prev c l ∧
    ReachIn g s l.length c ∧ List.Chain' (stepOK g) (l ++ [c]) ∧
    (l ≠ [] → l.head? = some s) ∧ (l = [] → c = s)
  visited_s : σ.visited s = true

structure DfsMid (g : Grid) (s c : Coord) (σ : FifoState) : Prop where
  nodupAll : (σ.order ++ σ.queue).Nodup
  visited_iff : ∀ x, σ.visited x = true ↔ (x ∈ σ.order ∨ x ∈ σ.queue)
  visited_dom : ∀ x, σ.visited x = true →
    inBounds g x ∧ (x = s ∨ isWallAt g x = false)
  prev_s : σ.prev s = none
  prev_some : ∀ x u, σ.prev x = some u →
    σ.visited x = true ∧ u ∈ σ.order ∧ stepOK g u x
  prev_exists : ∀ x, σ.visited x = true → x ≠ s → σ.prev x ≠ none
  prevOrder : PrevOrder σ.prev σ.order
  completeExc : ∀ u ∈ σ.order, u ≠ c → ∀ v, stepOK g u v → σ.visited v = true
  chains : ∀ x, σ.visited x = true → ∃ l, AncChain σ.prev x l ∧
    ReachIn g s l.length x ∧ List.Chain' (stepOK g) (l ++ [x]) ∧
    (l ≠ [] → l.head? = some s) ∧ (l = [] → x = s)
  visited_s : σ.visited s = true
  cOrder : c ∈ σ.order
  cVisited : σ.visited c = true

lemma discoverNb_dfsMid {g : Grid} {s c : Coord} {σ : FifoState}
    {nb : Coord} (hm : DfsMid g s c σ) (hnb : nb ∈ getNeighbors g c) :
    DfsMid g s c (discoverNb g c σ nb) ∧
      (discoverNb g c σ nb).order = σ.order ∧
      (∀ x, σ.visited x = true → (discoverNb g c σ nb).visited x = true) ∧
      (isWallAt g nb = false → (discoverNb g c σ nb).visited nb = true) ∧
      unvisitedCount g (discoverNb g c σ nb).visited +
          (discoverNb g c σ nb).queue.length =
        unvisitedCount g σ.visited + σ.queue.length := by
  by_cases hskip : σ.visited nb = true ∨ isWallAt g nb = true
  · have heq : discoverNb g c σ nb = σ := by
      unfold discoverNb
      rcases hskip with h | h <;> simp [h]
    rw [heq]
    refine ⟨hm, rfl, fun x h => h, ?_, rfl⟩
    intro hwall
    rcases hskip with h | h
    · exact h
    · rw [hwall] at h; cases h
  · push_neg at hskip
    have hfresh : σ.visited nb = false := Bool.eq_false_iff.mpr hskip.1
    have hwall : isWallAt g nb = false := Bool.eq_false_iff.mpr hskip.2
    have hstep : stepOK g c nb := ⟨hnb, hwall⟩
    have hbnd : inBounds g nb := getNeighbors_inBounds hnb
    have heq : discoverNb g c σ nb =
        { σ with visited := setAt σ.visited nb true
                 prev := setAt σ.prev nb (some c)
                 queue := σ.queue ++ [nb] } := by
      unfold discoverNb
      simp [hfresh, hwall]
    have hnbo : nb ∉ σ.order := fun h => by
      have := (hm.visited_iff nb).mpr (Or.inl h)
      rw [hfresh] at this; cases this
    have hnbq : nb ∉ σ.queue := fun h => by
      have := (hm.visited_iff nb).mpr (Or.inr h)
      rw [hfresh] at this; cases this
    have hns : nb ≠ s := fun he => by
      rw [he, hm.visited_s] at hfresh; cases hfresh
    have hnc : nb ≠ c := fun he => by
      rw [he, hm.cVisited] at hfresh; cases hfresh
    obtain ⟨lc, hlcC, hlcR, hlcCh, hlcH, hlcN⟩ := hm.chains c hm.cVisited
    have hmemo : ∀ x ∈ lc, x ∈ σ.order :=
      ancChain_mem hlcC fun x u hx => (hm.prev_some x u hx).2.1
    have hnbl : nb ∉ c :: lc := by
      intro h
      rcases List.mem_cons.mp h with h | h
      · exact hnc h
      · exact hnbo (hmemo nb h)
    have hlcC2 : AncChain (setAt σ.prev nb (some c)) c lc :=
      ancChain_setAt hlcC nb hnbl _
    have hnbC : AncChain (setAt σ.prev nb (some c)) nb (lc ++ [c]) :=
      AncChain.cons (by simp [setAt]) hlcC2
    rw [heq]
    refine ⟨?_, rfl, ?_, ?_, ?_⟩
    · refine ⟨?_, ?_, ?_, ?_, ?_, ?_, ?_, ?_, ?_, ?_, ?_, ?_⟩
      · show (σ.order ++ (σ.queue ++ [nb])).Nodup
        rw [← List.append_assoc]
        refine nodup_append_singleton hm.nodupAll ?_
        intro h
        rcases List.mem_append.mp h with h | h
        · exact hnbo h
        · exact hnbq h
      · intro x
        by_cases hx : x = nb
        · subst hx
          simp [setAt]
        · simp only [setAt, if_neg hx]
          rw [hm.visited_iff x]
          constructor
          · rintro (h | h)
            · exact Or.inl h
            · exact Or.inr (List.mem_append.mpr (Or.inl h))
          · rintro (h | h)
            · exact Or.inl h
            · rcases List.mem_append.mp h with h | h
              · exact Or.inr h
              · simp at h; exact absurd h hx
      · intro x hx
        by_cases hxe : x = nb
        · subst hxe; exact ⟨hbnd, Or.inr hwall⟩
        · simp only [setAt, if_neg hxe] at hx
          exact hm.visited_dom x hx
      · simp only [setAt, if_neg (Ne.symm hns)]
        exact hm.prev_s
      · intro x u hx
        by_cases hxe : x = nb
        · subst hxe
          simp only [setAt, if_pos rfl] at hx
          cases hx
          exact ⟨by simp [setAt], hm.cOrder, hstep⟩
        · simp only [setAt, if_neg hxe] at hx
          obtain ⟨h1, h2, h3⟩ := hm.prev_some x u hx
          exact ⟨by simp [setAt, if_neg hxe, h1], h2, h3⟩
      · intro x hx hxs
        by_cases hxe : x = nb
        · subst hxe
          simp [setAt]
        · simp only [setAt, if_neg hxe] at hx ⊢
          exact hm.prev_exists x hx hxs
      · intro i hi u hu
        have hne : σ.order.get ⟨i, hi⟩ ≠ nb := by
          intro h
          exact hnbo (h ▸ List.get_mem σ.order i hi)
        simp only [setAt, if_neg hne] at hu
        exact hm.prevOrder i hi u hu
      · intro u hu hune v hst
        have := hm.completeExc u hu hune v hst
        by_cases hv : v = nb
        · subst hv; simp [setAt]
        · simp [setAt, if_neg hv, this]
      · intro x hx
        by_cases hxe : x = nb
        · subst hxe
          refine ⟨lc ++ [c], hnbC, ?_, ?_, ?_, ?_⟩
          · have hl : (lc ++ [c]).length = lc.length + 1 := by simp
            rw [hl]
            exact ReachIn.succ hlcR hstep
          · rw [List.chain'_append]
            refine ⟨hlcCh, List.chain'_singleton _, ?_⟩
            intro a ha b hb
            simp at hb
            subst hb
            have : (lc ++ [c]).getLast? = some c := List.getLast?_concat _
            rw [this] at ha
            simp at ha
            subst ha
            exact hstep
          · intro _
            cases hl : lc with
            | nil =>
              have := hlcN hl
              simp [hl, this]
            | cons a t =>
              have := hlcH (by simp [hl])
              rw [hl] at this
              simpa using this
          · intro h
            simp at h
        · simp only [setAt, if_neg hxe] at hx
          obtain ⟨l, hC, hR, hCh, hH, hN⟩ := hm.chains x hx
          have hmem : ∀ y ∈ l, y ∈ σ.order :=
            ancChain_mem hC fun y u hy => (hm.prev_some y u hy).2.1
          have hnl : nb ∉ x :: l := by
            intro h
            rcases List.mem_cons.mp h with h | h
            · exact hxe h.symm
            · exact hnbo (hmem nb h)
          exact ⟨l, ancChain_setAt hC nb hnl _, hR, hCh, hH, hN⟩
      · simp only [setAt, if_neg (Ne.symm hns)]
        exact hm.visited_s
      · exact hm.cOrder
      · show setAt σ.visited nb true c = true
        simp only [setAt]
        rw [if_neg fun h : c = nb => hnc h.symm]
        exact hm.cVisited
    · intro x hx
      by_cases hxe : x = nb
      · subst hxe; simp [setAt]
      · simp [setAt, if_neg hxe, hx]
    · intro _
      simp [setAt]
    · show unvisitedCount g (setAt σ.visited nb true) +
        (σ.queue ++ [nb]).length = unvisitedCount g σ.visited + σ.queue.length
      have := unvisitedCount_mark hbnd hfresh
      simp only [List.length_append, List.length_cons, List.length_nil]
      omega

end PathVis

namespace PathVis

lemma discover_fold_dfs {g : Grid} {s c : Coord} :
    ∀ (nbs : List Coord) {σ : FifoState}, DfsMid g s c σ →
      (∀ nb ∈ nbs, nb ∈ getNeighbors g c) →
      DfsMid g s c (nbs.foldl (discoverNb g c) σ) ∧
        (nbs.foldl (discoverNb g c) σ).order = σ.order ∧
        (∀ x, σ.visited x = true →
          (nbs.foldl (discoverNb g c) σ).visited x = true) ∧
        (∀ nb ∈ nbs, isWallAt g nb = false →
          (nbs.foldl (discoverNb g c) σ).visited nb = true) ∧
        unvisitedCount g (nbs.foldl (discoverNb g c) σ).visited +
            (nbs.foldl (discoverNb g c) σ).queue.length =
          unvisitedCount g σ.visited + σ.queue.length := by
  intro nbs
  induction nbs with
  | nil =>
    intro σ hm _
    exact ⟨hm, rfl, fun x h => h, by simp, rfl⟩
  | cons a t ih =>
    intro σ hm hmem
    have ha : a ∈ getNeighbors g c := hmem a (by simp)
    obtain ⟨hm1, hord1, hmono1, hvis1, hcnt1⟩ := discoverNb_dfsMid hm ha
    obtain ⟨hm2, hord2, hmono2, hvis2, hcnt2⟩ :=
      ih hm1 fun nb hnb => hmem nb (by simp [hnb])
    refine ⟨hm2, ?_, ?_, ?_, ?_⟩
    · show (t.foldl (discoverNb g c) (discoverNb g c σ a)).order = σ.order
      rw [hord2, hord1]
    · intro x hx
      exact hmono2 x (hmono1 x hx)
    · intro nb hnb hwall
      rcases List.mem_cons.mp hnb with h | h
      · subst h
        exact hmono2 nb (hvis1 hwall)
      · exact hvis2 nb h hwall
    · simp only [List.foldl_cons]
      omega

lemma dfsInv_pop {g : Grid} {s : Coord} {σ : FifoState} {c : Coord}
    (hI : DfsInv g s σ) (hq : σ.queue.getLast? = some c) :
    DfsMid g s c
      { σ with queue := σ.queue.dropLast, order := σ.order ++ [c] } := by
  have hqsplit : σ.queue.dropLast ++ [c] = σ.queue :=
    List.dropLast_append_getLast? c hq
  have hcq : c ∈ σ.queue := by rw [← hqsplit]; simp
  have hcv : σ.visited c = true := (hI.visited_iff c).mpr (Or.inr hcq)
  have hco : c ∉ σ.order := by
    intro h
    have hnd := hI.nodupAll
    rw [List.nodup_append] at hnd
    exact hnd.2.2 h hcq
  have hcdrop : c ∉ σ.queue.dropLast := by
    have hnd := hI.nodupAll
    rw [List.nodup_append] at hnd
    have hnd2 : σ.queue.Nodup := hnd.2.1
    rw [← hqsplit, List.nodup_append] at hnd2
    intro h
    exact hnd2.2.2 h (by simp)
  constructor
  · -- nodupAll
    show (σ.order ++ [c] ++ σ.queue.dropLast).Nodup
    have hperm : (σ.order ++ [c] ++ σ.queue.dropLast).Perm
        (σ.order ++ σ.queue) := by
      rw [List.append_assoc]
      refine List.Perm.append_left σ.order ?_
      calc ([c] ++ σ.queue.dropLast).Perm (σ.queue.dropLast ++ [c]) :=
            List.perm_append_comm
        _ = σ.queue := hqsplit
    exact hperm.symm.nodup hI.nodupAll
  · -- visited_iff
    intro x
    rw [hI.visited_iff x]
    constructor
    · rintro (h | h)
      · exact Or.inl (List.mem_append.mpr (Or.inl h))
      · rw [← hqsplit] at h
        rcases List.mem_append.mp h with h | h
        · exact Or.inr h
        · simp at h
          subst h
          exact Or.inl (List.mem_append.mpr (Or.inr (by simp)))
    · rintro (h | h)
      · rcases List.mem_append.mp h with h | h
        · exact Or.inl h
        · simp at h
          subst h
          exact Or.inr hcq
      · exact Or.inr (by rw [← hqsplit]; exact List.mem_append.mpr (Or.inl h))
  · exact hI.visited_dom
  · exact hI.prev_s
  · intro x u hx
    obtain ⟨h1, h2, h3⟩ := hI.prev_some x u hx
    exact ⟨h1, List.mem_append.mpr (Or.inl h2), h3⟩
  · exact hI.prev_exists
  · exact prevOrder_append hI.prevOrder fun u hu => (hI.prev_some c u hu).2.1
  · intro u hu hune v hst
    rcases List.mem_append.mp hu with h | h
    · exact hI.complete u h v hst
    · simp at h
      exact absurd h hune
  · intro x hx
    exact hI.chains x hx
  · exact hI.visited_s
  · exact List.mem_append.mpr (Or.inr (by simp))
  · exact hcv

lemma dfsMid_close {g : Grid} {s c : Coord} {σ : FifoState}
    (hm : DfsMid g s c σ)
    (hdone : ∀ v, stepOK g c v → σ.visited v = true) : DfsInv g s σ := by
  refine ⟨hm.nodupAll, hm.visited_iff, hm.visited_dom, hm.prev_s,
    hm.prev_some, hm.prev_exists, hm.prevOrder, ?_, hm.chains, hm.visited_s⟩
  intro u hu v hst
  by_cases huc : u = c
  · subst huc
    exact hdone v hst
  · exact hm.completeExc u hu huc v hst

/-- What holds of the state in which the `dfs` loop terminates. -/
structure DfsDone (g : Grid) (s e : Coord) (σ : FifoState) : Prop where
  nodupAll : (σ.order ++ σ.queue).Nodup
  visited_iff : ∀ c, σ.visited c = true ↔ (c ∈ σ.order ∨ c ∈ σ.queue)
  visited_dom : ∀ c, σ.visited c = true →
    inBounds g c ∧ (c = s ∨ isWallAt g c = false)
  prev_s : σ.prev s = none
  prev_some : ∀ c u, σ.prev c = some u →
    σ.visited c = true ∧ u ∈ σ.order ∧ stepOK g u c
  prev_exists : ∀ c, σ.visited c = true → c ≠ s → σ.prev c ≠ none
  prevOrder : PrevOrder σ.prev σ.order
  chains : ∀ c, σ.visited c = true → ∃ l, AncChain σ.prev c l ∧
    ReachIn g s l.length c ∧ List.Chain' (stepOK g) (l ++ [c]) ∧
    (l ≠ [] → l.head? = some s) ∧ (l = [] → c = s)
  visited_s : σ.visited s = true
  exitCond : (σ.queue = [] ∧
      ∀ u ∈ σ.order, ∀ v, stepOK g u v → σ.visited v = true) ∨
    ∃ pre, σ.order = pre ++ [e]

theorem dfsLoop_done (g : Grid) (s e : Coord) :
    ∀ (fuel : Nat) (σ : FifoState), DfsInv g s σ → bfsMeasure g σ < fuel →
      DfsDone g s e (dfsLoop g e fuel σ) := by
  intro fuel
  induction fuel with
  | zero =>
    intro σ _ h
    omega
  | succ f ih =>
    intro σ hI hm
    cases hq : σ.queue.getLast? with
    | none =>
      have hqe : σ.queue = [] := by
        cases hql : σ.queue with
        | nil => rfl
        | cons a t =>
          rw [hql] at hq
          simp [List.getLast?_eq_getLast] at hq
      have heval : dfsLoop g e (f + 1) σ = σ := by
        conv_lhs => rw [dfsLoop.eq_def]
        simp [hq]
      rw [heval]
      exact ⟨hI.nodupAll, hI.visited_iff, hI.visited_dom, hI.prev_s,
        hI.prev_some, hI.prev_exists, hI.prevOrder, hI.chains, hI.visited_s,
        Or.inl ⟨hqe, hI.complete⟩⟩
    | some c =>
      have hmid := dfsInv_pop hI hq
      have hqlen : σ.queue.length = σ.queue.dropLast.length + 1 := by
        have := List.dropLast_append_getLast? c hq
        conv_lhs => rw [← this]
        simp
      by_cases hce : c = e
      · have heval : dfsLoop g e (f + 1) σ =
            { σ with queue := σ.queue.dropLast, order := σ.order ++ [c] } := by
          conv_lhs => rw [dfsLoop.eq_def]
          simp [hq, hce]
        rw [heval]
        exact ⟨hmid.nodupAll, hmid.visited_iff, hmid.visited_dom, hmid.prev_s,
          hmid.prev_some, hmid.prev_exists, hmid.prevOrder, hmid.chains,
          hmid.visited_s, Or.inr ⟨σ.order, by rw [hce]⟩⟩
      · have heval : dfsLoop g e (f + 1) σ =
            dfsLoop g e f ((getNeighbors g c).foldl (discoverNb g c)
              { σ with queue := σ.queue.dropLast,
                       order := σ.order ++ [c] }) := by
          conv_lhs => rw [dfsLoop.eq_def]
          simp [hq, hce]
        rw [heval]
        obtain ⟨hm2, hord2, hmono2, hvis2, hcnt2⟩ :=
          discover_fold_dfs (getNeighbors g c) hmid fun nb h => h
        have hInv2 := dfsMid_close hm2 fun v hst => hvis2 v hst.1 hst.2
        apply ih _ hInv2
        unfold bfsMeasure at hm ⊢
        simp only at hcnt2
        omega

end PathVis

namespace PathVis

/-- Consolidated facts about a finished `dfs` run. -/
theorem dfs_run_spec (g : Grid) (s e : Coord) (hs : inBounds g s) :
    ((dfsFinal g s e).order.Nodup ∧ (dfsFinal g s e).order ≠ [] ∧
      (∀ c ∈ (dfsFinal g s e).order, inBounds g c ∧ Reach g s c) ∧
      (dfsFinal g s e).order.length ≤ rowsOf g * colsOf g) ∧
    (∃ l, getNodesInShortestPathOrder (dfsFinal g s e).prev e (walkFuel g) =
        some l ∧
      (((dfsFinal g s e).prev e = none ∧ l = []) ∨
        (l ≠ [] ∧ ReachIn g s l.length e ∧ l.head? = some s ∧ e ∉ l ∧
          List.Chain' (stepOK g) (l ++ [e]) ∧
          ∃ u, l.getLast? = some u ∧ stepOK g u e))) ∧
    ((¬Reach g s e → (dfsFinal g s e).prev e = none) ∧
      (Reach g s e → e ≠ s → (dfsFinal g s e).prev e ≠ none) ∧
      (dfsFinal g s e).prev s = none) := by
  have hD : DfsDone g s e (dfsFinal g s e) :=
    dfsLoop_done g s e (rowsOf g * colsOf g + 1) (fifoInit s)
    (by
      refine ⟨?_, ?_, ?_, ?_, ?_, ?_, ?_, ?_, ?_, ?_⟩
      · simp [fifoInit]
      · intro c
        constructor
        · intro h
          simp only [fifoInit, setAt] at h
          split at h
          · rename_i he; subst he; simp [fifoInit]
          · cases h
        · intro h
          simp only [fifoInit, List.not_mem_nil, false_or] at h
          simp only [List.mem_singleton] at h
          subst h
          simp [fifoInit, setAt]
      · intro c h
        simp only [fifoInit, setAt] at h
        split at h
        · rename_i he; subst he; exact ⟨hs, Or.inl rfl⟩
        · cases h
      · rfl
      · intro c u h; cases h
      · intro c h hcs
        simp only [fifoInit, setAt] at h
        split at h
        · rename_i he; exact absurd he hcs
        · cases h
      · intro i hi
        simp [fifoInit] at hi
      · intro u hu
        simp [fifoInit] at hu
      · intro c h
        simp only [fifoInit, setAt] at h
        split at h
        · rename_i he
          subst he
          exact ⟨[], AncChain.nil rfl, ReachIn.zero, by simp, by simp,
            fun _ => rfl⟩
        · cases h
      · simp [fifoInit, setAt])
    (by
      unfold bfsMeasure fifoInit
      have h1 := unvisitedCount_mark (g := g) (v := fun _ => false) hs rfl
      rw [unvisitedCount_false] at h1
      simp only [List.length_singleton]
      omega)
  have hnodup : (dfsFinal g s e).order.Nodup :=
    (List.nodup_append.mp hD.nodupAll).1
  have hdom : ∀ c ∈ (dfsFinal g s e).order, inBounds g c ∧ Reach g s c := by
    intro c hc
    have hv := (hD.visited_iff c).mpr (Or.inl hc)
    obtain ⟨hb, _⟩ := hD.visited_dom c hv
    obtain ⟨l, _, hreach, _⟩ := hD.chains c hv
    exact ⟨hb, ⟨l.length, hreach⟩⟩
  have hlenb : (dfsFinal g s e).order.length ≤ rowsOf g * colsOf g :=
    nodup_inBounds_length_le hnodup fun c hc => (hdom c hc).1
  have hne : (dfsFinal g s e).order ≠ [] := by
    rcases hD.exitCond with ⟨hqe, _⟩ | ⟨pre, hpre⟩
    · intro h0
      have := (hD.visited_iff s).mp hD.visited_s
      rw [h0, hqe] at this
      simp at this
    · rw [hpre]; simp
  have hattain : Reach g s e → (dfsFinal g s e).visited e = true := by
    rintro ⟨nr, hr⟩
    rcases hD.exitCond with ⟨hqe, hcomp⟩ | ⟨pre, hpre⟩
    · have hall : ∀ m x, ReachIn g s m x →
          (dfsFinal g s e).visited x = true := by
        intro m
        induction m with
        | zero =>
          intro x hx
          cases hx
          exact hD.visited_s
        | succ k ih =>
          intro x hx
          cases hx with
          | succ hw hstep =>
            rename_i u
            have hu := ih u hw
            have humem : u ∈ (dfsFinal g s e).order := by
              rcases (hD.visited_iff u).mp hu with h | h
              · exact h
              · rw [hqe] at h; cases h
            exact hcomp u humem x hstep
      exact hall nr e hr
    · exact (hD.visited_iff e).mpr (Or.inl (by rw [hpre]; simp))
  refine ⟨⟨hnodup, hne, hdom, hlenb⟩, ?_, ?_, ?_, hD.prev_s⟩
  · cases hpe : (dfsFinal g s e).prev e with
    | none =>
      exact ⟨[], by simp [getNodesInShortestPathOrder, hpe], Or.inl ⟨rfl, rfl⟩⟩
    | some u =>
      have hv : (dfsFinal g s e).visited e = true := (hD.prev_some e u hpe).1
      obtain ⟨l, hC, hreach, hCh, hH, hN⟩ := hD.chains e hv
      have hlne : l ≠ [] := by
        intro h0
        rw [ancChain_nil_inv hC h0] at hpe
        cases hpe
      have hM : ∀ c u2, (dfsFinal g s e).prev c = some u2 →
          u2 ∈ (dfsFinal g s e).order :=
        fun c u2 h => (hD.prev_some c u2 h).2.1
      obtain ⟨l2, hC2, hlen2, _⟩ := ancChain_total hD.prevOrder hM e
      have hll : l = l2 := ancChain_unique hC hC2
      have hflt : l.length < walkFuel g := by
        unfold walkFuel
        rw [hll]
        omega
      have hwalk := getNodes_of_ancChain hC hflt
      have henl : e ∉ l := by
        by_cases heo : e ∈ (dfsFinal g s e).order
        · obtain ⟨i, hget⟩ := List.mem_iff_get.mp heo
          obtain ⟨l3, hC3, _, hsub3⟩ :=
            ancChain_of_prevOrder hD.prevOrder i.1 i.2
          rw [show (⟨i.1, i.2⟩ : Fin _) = i from rfl, hget] at hC3
          have hl3 : l = l3 := ancChain_unique hC hC3
          intro hmem
          have : e ∈ (dfsFinal g s e).order.take i.1 :=
            hsub3 e (hl3 ▸ hmem)
          exact (hget ▸ nodup_get_not_mem_take hnodup i.1 i.2) this
        · intro hmem
          exact heo ((ancChain_mem hC fun x u2 hx =>
            (hD.prev_some x u2 hx).2.1) e hmem)
      have hlast : ∃ u2, l.getLast? = some u2 ∧ stepOK g u2 e := by
        cases hC with
        | nil h => rw [h] at hpe; cases hpe
        | cons hc hu2 =>
          rename_i u1 l1
          refine ⟨u1, List.getLast?_concat _, ?_⟩
          exact (hD.prev_some e u1 hc).2.2
      exact ⟨l, hwalk, Or.inr ⟨hlne, hreach, hH hlne, henl, hCh, hlast⟩⟩
  · intro hnr
    cases hpe : (dfsFinal g s e).prev e with
    | none => rfl
    | some u =>
      have hv := (hD.prev_some e u hpe).1
      obtain ⟨l, _, hreach, _⟩ := hD.chains e hv
      exact absurd ⟨l.length, hreach⟩ hnr
  · intro hr hnes
    have hv := hattain hr
    exact hD.prev_exists e hv hnes

end PathVis

namespace PathVis

/-! ## Priority queue lemmas -/

/-- The queue is sorted ascending by priority. -/
def PQSorted (q : PQueue) : Prop := q.Pairwise fun a b => a.2 ≤ b.2

lemma pqEnqueue_perm (q : PQueue) (v : Coord) (p : Nat) :
    (pqEnqueue q v p).Perm ((v, p) :: q) := by
  induction q with
  | nil => simp [pqEnqueue]
  | cons e rest ih =>
    unfold pqEnqueue
    split
    · exact (ih.cons e).trans (List.Perm.swap (v, p) e rest)
    · exact List.Perm.refl _

lemma mem_pqEnqueue {q : PQueue} {v : Coord} {p : Nat} {x : Coord × Nat} :
    x ∈ pqEnqueue q v p ↔ x = (v, p) ∨ x ∈ q := by
  rw [(pqEnqueue_perm q v p).mem_iff, List.mem_cons]

lemma pqSorted_enqueue {q : PQueue} (h : PQSorted q) (v : Coord) (p : Nat) :
    PQSorted (pqEnqueue q v p) := by
  induction q with
  | nil => simp [pqEnqueue, PQSorted]
  | cons e rest ih =>
    rw [PQSorted, List.pairwise_cons] at h
    unfold pqEnqueue
    split
    · rename_i hle
      rw [PQSorted, List.pairwise_cons]
      refine ⟨?_, ih h.2⟩
      intro x hx
      rcases mem_pqEnqueue.mp hx with hx | hx
      · subst hx; exact hle
      · exact h.1 x hx
    · rename_i hgt
      push_neg at hgt
      rw [PQSorted, List.pairwise_cons]
      refine ⟨?_, List.pairwise_cons.mpr h⟩
      intro x hx
      rcases List.mem_cons.mp hx with hx | hx
      · subst hx; exact Nat.le_of_lt hgt
      · exact Nat.le_trans (Nat.le_of_lt hgt) (h.1 x hx)

lemma coord_eq_of_rc {a b : Coord} (h1 : a.row = b.row)
    (h2 : a.col = b.col) : a = b := by
  cases a; cases b; simp_all

lemma pqHasNode_iff {q : PQueue} {c : Coord} :
    pqHasNode q c = true ↔ ∃ x ∈ q, x.1 = c := by
  unfold pqHasNode
  rw [List.any_eq_true]
  constructor
  · rintro ⟨x, hx, hb⟩
    rw [Bool.and_eq_true, beq_iff_eq, beq_iff_eq] at hb
    exact ⟨x, hx, coord_eq_of_rc hb.1 hb.2⟩
  · rintro ⟨x, hx, hb⟩
    exact ⟨x, hx, by rw [hb]; simp⟩

lemma mem_pqFilter {q : PQueue} {c : Coord} {x : Coord × Nat} :
    x ∈ (q.filter fun e => ¬(e.1.row = c.row ∧ e.1.col = c.col)) ↔
      x ∈ q ∧ x.1 ≠ c := by
  rw [List.mem_filter]
  constructor
  · rintro ⟨h1, h2⟩
    simp only [decide_eq_true_eq] at h2
    refine ⟨h1, ?_⟩
    intro he
    exact h2 ⟨by rw [he], by rw [he]⟩
  · rintro ⟨h1, h2⟩
    refine ⟨h1, ?_⟩
    simp only [decide_eq_true_eq]
    rintro ⟨hr, hc⟩
    exact h2 (coord_eq_of_rc hr hc)
  
lemma pqSorted_filter {q : PQueue} (h : PQSorted q) (c : Coord) :
    PQSorted (q.filter fun e => ¬(e.1.row = c.row ∧ e.1.col = c.col)) :=
  h.sublist (List.filter_sublist q)

lemma mem_pqUpdate {q : PQueue} {c : Coord} {p : Nat} {x : Coord × Nat}
    (hin : pqHasNode q c = true) :
    x ∈ pqUpdatePriority q c p ↔ (x ∈ q ∧ x.1 ≠ c) ∨ x = (c, p) := by
  unfold pqUpdatePriority
  rw [if_pos hin, mem_pqEnqueue, mem_pqFilter]
  tauto

lemma pqSorted_update {q : PQueue} (h : PQSorted q) (c : Coord) (p : Nat) :
    PQSorted (pqUpdatePriority q c p) := by
  unfold pqUpdatePriority
  split
  · exact pqSorted_enqueue (pqSorted_filter h c) c p
  · exact h

lemma pqSorted_head_min {e : Coord × Nat} {rest : PQueue}
    (h : PQSorted (e :: rest)) : ∀ x ∈ rest, e.2 ≤ x.2 :=
  (List.pairwise_cons.mp h).1

end PathVis

namespace PathVis

/-! ## Dijkstra invariants -/

structure DijInv (g : Grid) (s : Coord) (σ : DijkstraState) : Prop where
  sorted : PQSorted σ.queue
  nodupAll : (σ.order ++ σ.queue.map Prod.fst).Nodup
  visited_iff : ∀ c, σ.visited c = true ↔ c ∈ σ.order
  queue_unvisited : ∀ x ∈ σ.queue, σ.visited x.1 = false
  queue_dist : ∀ x ∈ σ.queue, σ.dist x.1 = some x.2
  dist_mem : ∀ v n, σ.dist v = some n → σ.visited v = true ∨ (v, n) ∈ σ.queue
  queue_dom : ∀ x ∈ σ.queue,
    inBounds g x.1 ∧ (x.1 = s ∨ isWallAt g x.1 = false)
  order_dom : ∀ c ∈ σ.order, inBounds g c ∧ (c = s ∨ isWallAt g c = false)
  dist_s : σ.dist s = some 0
  prev_s : σ.prev s = none
  dist_sound : ∀ c n, σ.dist c = some n → ReachIn g s n c
  prev_dist : ∀ c u, σ.prev c = some u → ∃ du dc, σ.dist u = some du ∧
    σ.dist c = some dc ∧ dc = du + 1 ∧ stepOK g u c ∧ u ∈ σ.order
  prev_none_s : ∀ c n, σ.dist c = some n → σ.prev c = none → c = s
  prevOrder : PrevOrder σ.prev σ.order
  vis_opt : ∀ c, σ.visited c = true → ∃ n, σ.dist c = some n ∧ distIs g s c n
  frontier : ∀ u v, σ.visited u = true → stepOK g u v →
    σ.visited v = false → ∃ pv du, (v, pv) ∈ σ.queue ∧
      σ.dist u = some du ∧ pv ≤ du + 1
  s_in : σ.visited s = true ∨ (s, 0) ∈ σ.queue

/-- Pop-optimality: the head priority of the sorted frontier lower-bounds
the distance of every unvisited node. -/
lemma dij_pop_lb {g : Grid} {s : Coord} {σ : DijkstraState} {c : Coord}
    {p : Nat} {rest : PQueue} (hI : DijInv g s σ)
    (hq : σ.queue = (c, p) :: rest) :
    ∀ m v, σ.visited v = false → ReachIn g s m v → p ≤ m := by
  have hmin : ∀ x ∈ σ.queue, p ≤ x.2 := by
    intro x hx
    rw [hq] at hx
    rcases List.mem_cons.mp hx with hx | hx
    · subst hx; rfl
    · exact pqSorted_head_min (hq ▸ hI.sorted) x hx
  intro m
  induction m using Nat.strong_induction_on with
  | _ m ih =>
    intro v hv hr
    cases hr with
    | zero =>
      rcases hI.s_in with h | h
      · rw [h] at hv; cases hv
      · exact hmin (s, 0) h
    | succ hw hstep =>
      rename_i m1 u
      by_cases hwv : σ.visited u = true
      · obtain ⟨du, hdu, hduOpt⟩ := hI.vis_opt u hwv
        obtain ⟨pv, du2, hpv, hdu2, hple⟩ := hI.frontier u v hwv hstep hv
        rw [hdu] at hdu2
        injection hdu2 with hdu2
        subst hdu2
        have h1 : du ≤ m1 := hduOpt.2 m1 hw
        have h2 := hmin (v, pv) hpv
        omega
      · have hwf : σ.visited u = false := Bool.eq_false_iff.mpr hwv
        have := ih m1 (Nat.lt_succ_self m1) u hwf hw
        omega

structure DijMid (g : Grid) (s c : Coord) (p : Nat) (σ : DijkstraState) :
    Prop where
  sorted : PQSorted σ.queue
  nodupAll : (σ.order ++ σ.queue.map Prod.fst).Nodup
  visited_iff : ∀ x, σ.visited x = true ↔ x ∈ σ.order
  queue_unvisited : ∀ x ∈ σ.queue, σ.visited x.1 = false
  queue_dist : ∀ x ∈ σ.queue, σ.dist x.1 = some x.2
  dist_mem : ∀ v n, σ.dist v = some n → σ.visited v = true ∨ (v, n) ∈ σ.queue
  queue_dom : ∀ x ∈ σ.queue,
    inBounds g x.1 ∧ (x.1 = s ∨ isWallAt g x.1 = false)
  order_dom : ∀ x ∈ σ.order, inBounds g x ∧ (x = s ∨ isWallAt g x = false)
  dist_s : σ.dist s = some 0
  prev_s : σ.prev s = none
  dist_sound : ∀ x n, σ.dist x = some n → ReachIn g s n x
  prev_dist : ∀ x u, σ.prev x = some u → ∃ du dc, σ.dist u = some du ∧
    σ.dist x = some dc ∧ dc = du + 1 ∧ stepOK g u x ∧ u ∈ σ.order
  prev_none_s : ∀ x n, σ.dist x = some n → σ.prev x = none → x = s
  prevOrder : PrevOrder σ.prev σ.order
  vis_opt : ∀ x, σ.visited x = true → ∃ n, σ.dist x = some n ∧ distIs g s x n
  frontierExc : ∀ u v, σ.visited u = true → u ≠ c → stepOK g u v →
    σ.visited v = false → ∃ pv du, (v, pv) ∈ σ.queue ∧
      σ.dist u = some du ∧ pv ≤ du + 1
  s_in : σ.visited s = true ∨ (s, 0) ∈ σ.queue
  cVisited : σ.visited c = true
  cOrder : c ∈ σ.order
  cDist : σ.dist c = some p
  cOpt : distIs g s c p

end PathVis

namespace PathVis

lemma filter_eq_self_of_ne {q : PQueue} {c : Coord}
    (h : ∀ x ∈ q, x.1 ≠ c) :
    (q.filter fun e => ¬(e.1.row = c.row ∧ e.1.col = c.col)) = q := by
  apply List.filter_eq_self.mpr
  intro x hx
  simp only [decide_eq_true_eq]
  intro ⟨hr, hcc⟩
  exact h x hx (coord_eq_of_rc hr hcc)

lemma pq_filter_length {q : PQueue} {c : Coord}
    (hnd : (q.map Prod.fst).Nodup) (hx : ∃ x ∈ q, x.1 = c) :
    (q.filter fun e => ¬(e.1.row = c.row ∧ e.1.col = c.col)).length + 1 =
      q.length := by
  induction q with
  | nil => obtain ⟨x, hx1, _⟩ := hx; cases hx1
  | cons e rest ih =>
    rw [List.map_cons, List.nodup_cons] at hnd
    by_cases hec : e.1 = c
    · have hrest : ∀ x ∈ rest, x.1 ≠ c := by
        intro x hxr he
        exact hnd.1 (by rw [hec, ← he]; exact List.mem_map_of_mem Prod.fst hxr)
      rw [List.filter_cons]
      have : (decide ¬(e.1.row = c.row ∧ e.1.col = c.col)) = false := by
        simp [hec]
      rw [this]
      simp only [Bool.false_eq_true, if_false]
      rw [filter_eq_self_of_ne hrest]
      simp
    · rw [List.filter_cons]
      have : (decide ¬(e.1.row = c.row ∧ e.1.col = c.col)) = true := by
        simp only [decide_eq_true_eq]
        intro ⟨hr, hcc⟩
        exact hec (coord_eq_of_rc hr hcc)
      rw [this]
      simp only [if_true, List.length_cons]
      have hx2 : ∃ x ∈ rest, x.1 = c := by
        obtain ⟨x, hx1, hx3⟩ := hx
        rcases List.mem_cons.mp hx1 with h | h
        · subst h; exact absurd hx3 hec
        · exact ⟨x, h, hx3⟩
      have := ih hnd.2 hx2
      omega

lemma mem_fst_iff {q : PQueue} {v : Coord} :
    v ∈ q.map Prod.fst ↔ ∃ x ∈ q, x.1 = v := by
  rw [List.mem_map]

lemma pq_update_mem_fst {q : PQueue} {c : Coord} {p : Nat}
    (hin : pqHasNode q c = true) (v : Coord) :
    v ∈ (pqUpdatePriority q c p).map Prod.fst ↔ v ∈ q.map Prod.fst := by
  rw [mem_fst_iff, mem_fst_iff]
  constructor
  · rintro ⟨x, hx, he⟩
    rcases (mem_pqUpdate hin).mp hx with ⟨hxq, _⟩ | hxe
    · exact ⟨x, hxq, he⟩
    · subst hxe
      obtain ⟨y, hy, hye⟩ := pqHasNode_iff.mp hin
      exact ⟨y, hy, by rw [hye, ← he]⟩
  · rintro ⟨x, hx, he⟩
    by_cases hxc : x.1 = c
    · exact ⟨(c, p), (mem_pqUpdate hin).mpr (Or.inr rfl), by rw [← he, hxc]⟩
    · exact ⟨x, (mem_pqUpdate hin).mpr (Or.inl ⟨hx, hxc⟩), he⟩

lemma pq_update_nodup {q : PQueue} {c : Coord} {p : Nat}
    (hnd : (q.map Prod.fst).Nodup) (hin : pqHasNode q c = true) :
    ((pqUpdatePriority q c p).map Prod.fst).Nodup := by
  unfold pqUpdatePriority
  rw [if_pos hin]
  have hperm := (pqEnqueue_perm
    (q.filter fun e => ¬(e.1.row = c.row ∧ e.1.col = c.col)) c p).map Prod.fst
  refine hperm.symm.nodup ?_
  rw [List.map_cons]
  rw [List.nodup_cons]
  constructor
  · intro hmem
    obtain ⟨x, hx, he⟩ := mem_fst_iff.mp hmem
    exact (mem_pqFilter.mp hx).2 he
  · exact List.Nodup.sublist
      ((List.filter_sublist q).map Prod.fst) hnd

lemma pq_update_length {q : PQueue} {c : Coord} {p : Nat}
    (hnd : (q.map Prod.fst).Nodup) (hin : pqHasNode q c = true) :
    (pqUpdatePriority q c p).length = q.length := by
  unfold pqUpdatePriority
  rw [if_pos hin]
  have hperm := pqEnqueue_perm
    (q.filter fun e => ¬(e.1.row = c.row ∧ e.1.col = c.col)) c p
  rw [hperm.length_eq]
  have := pq_filter_length hnd (pqHasNode_iff.mp hin)
  simp only [List.length_cons]
  omega

lemma countP_flip_at {p q : Coord → Bool} {b : Coord}
    (hp : p b = true) (hq : q b = false) :
    ∀ {L : List Coord}, L.Nodup → b ∈ L →
      (∀ x ∈ L, x ≠ b → p x = q x) →
      L.countP q + 1 = L.countP p := by
  intro L
  induction L with
  | nil => intro _ h; cases h
  | cons a t ih =>
    intro hnd hmem hagree
    rw [List.countP_cons, List.countP_cons]
    rcases List.mem_cons.mp hmem with ha | ha
    · subst ha
      have hnin : b ∉ t := (List.nodup_cons.mp hnd).1
      have heq : t.countP q = t.countP p := by
        apply countP_agree
        intro x hx
        exact (hagree x (by simp [hx]) fun he => hnin (he ▸ hx)).symm
      rw [heq, hp, hq]
      simp
    · have hnd2 := (List.nodup_cons.mp hnd).2
      have hab : a ≠ b := fun he => (List.nodup_cons.mp hnd).1 (he ▸ ha)
      have := ih hnd2 ha fun x hx hxn => hagree x (by simp [hx]) hxn
      rw [hagree a (by simp) hab]
      omega

/-- Measure of a Dijkstra state: unvisited unqueued cells plus frontier
size. -/
def dijMeasure (g : Grid) (σ : DijkstraState) : Nat :=
  ((allCoords g).filter fun x =>
    !σ.visited x && !pqHasNode σ.queue x).length + σ.queue.length

end PathVis

namespace PathVis

lemma bool_eq_of_iff {a b : Bool} (h : a = true ↔ b = true) : a = b := by
  cases a <;> cases b <;> simp_all

lemma setAt_ne {α : Type} (f : Coord → α) (c : Coord) (v : α) {x : Coord}
    (h : x ≠ c) : setAt f c v x = f x := by
  simp [setAt, h]

lemma setAt_eq {α : Type} (f : Coord → α) (c : Coord) (v : α) :
    setAt f c v c = v := by
  simp [setAt]

lemma pqHasNode_mem {q : PQueue} {v : Coord} :
    pqHasNode q v = true ↔ v ∈ q.map Prod.fst := by
  rw [pqHasNode_iff, mem_fst_iff]

lemma dijkstraRelax_mid {g : Grid} {s c : Coord} {p : Nat}
    {σ : DijkstraState} {nb : Coord} (hm : DijMid g s c p σ)
    (hnb : nb ∈ getNeighbors g c) :
    DijMid g s c p (dijkstraRelax g c σ nb) ∧
      (dijkstraRelax g c σ nb).order = σ.order ∧
      (dijkstraRelax g c σ nb).visited = σ.visited ∧
      (isWallAt g nb = false → σ.visited nb = false →
        ∃ pv, (nb, pv) ∈ (dijkstraRelax g c σ nb).queue ∧ pv ≤ p + 1) ∧
      (∀ v pv, (v, pv) ∈ σ.queue →
        ∃ pv2, pv2 ≤ pv ∧ (v, pv2) ∈ (dijkstraRelax g c σ nb).queue) ∧
      dijMeasure g (dijkstraRelax g c σ nb) = dijMeasure g σ := by
  have hndq : (σ.queue.map Prod.fst).Nodup :=
    (List.nodup_append.mp hm.nodupAll).2.1
  by_cases hskip : σ.visited nb = true ∨ isWallAt g nb = true
  · have heq : dijkstraRelax g c σ nb = σ := by
      unfold dijkstraRelax
      rcases hskip with h | h <;> simp [h]
    rw [heq]
    refine ⟨hm, rfl, rfl, ?_, fun v pv h => ⟨pv, Nat.le_refl pv, h⟩, rfl⟩
    intro hwall hfresh
    rcases hskip with h | h
    · rw [h] at hfresh; cases hfresh
    · rw [h] at hwall; cases hwall
  · push_neg at hskip
    have hfresh : σ.visited nb = false := Bool.eq_false_iff.mpr hskip.1
    have hwall : isWallAt g nb = false := Bool.eq_false_iff.mpr hskip.2
    by_cases himp : ltInf (p + 1) (σ.dist nb) = true
    case neg =>
      have heq : dijkstraRelax g c σ nb = σ := by
        unfold dijkstraRelax
        rw [hfresh, hwall, hm.cDist]
        simp [himp]
      rw [heq]
      refine ⟨hm, rfl, rfl, ?_, fun v pv h => ⟨pv, Nat.le_refl pv, h⟩, rfl⟩
      intro _ _
      cases hdnb : σ.dist nb with
      | none => rw [hdnb] at himp; simp [ltInf] at himp
      | some dn =>
        rw [hdnb] at himp
        simp only [ltInf, decide_eq_true_eq] at himp
        have hle : dn ≤ p + 1 := by omega
        rcases hm.dist_mem nb dn hdnb with h | h
        · rw [h] at hfresh; cases hfresh
        · exact ⟨dn, h, hle⟩
    case pos =>
      have hnbB : inBounds g nb := getNeighbors_inBounds hnb
      have hstep : stepOK g c nb := ⟨hnb, hwall⟩
      have hreach : ReachIn g s (p + 1) nb :=
        ReachIn.succ (hm.dist_sound c p hm.cDist) hstep
      have hnbs : nb ≠ s := by
        intro he
        rw [he, hm.dist_s] at himp
        simp [ltInf] at himp
      have hnbo : nb ∉ σ.order := fun h => by
        rw [(hm.visited_iff nb).mpr h] at hfresh; cases hfresh
      have hcnb : c ≠ nb := fun he => by
        rw [he] at hm
        rw [hm.cVisited] at hfresh; cases hfresh
      have hdc2 : setAt σ.dist nb (some (p + 1)) c = some p := by
        simp only [setAt_ne _ _ _ hcnb, hm.cDist]
      -- facts shared by both queue branches
      by_cases hasnb : pqHasNode σ.queue nb = true
      case pos =>
        have heq : dijkstraRelax g c σ nb =
            { σ with dist := setAt σ.dist nb (some (p + 1))
                     prev := setAt σ.prev nb (some c)
                     queue := pqUpdatePriority σ.queue nb (p + 1) } := by
          unfold dijkstraRelax
          rw [hfresh, hwall, hm.cDist]
          simp [himp, hasnb]
        have hmemq : ∀ x, x ∈ pqUpdatePriority σ.queue nb (p + 1) ↔
            (x ∈ σ.queue ∧ x.1 ≠ nb) ∨ x = (nb, p + 1) := fun x =>
          mem_pqUpdate hasnb
        rw [heq]
        dsimp only
        refine ⟨?_, rfl, rfl, ?_, ?_, ?_⟩
        · refine ⟨?_, ?_, hm.visited_iff, ?_, ?_, ?_, ?_, hm.order_dom,
            ?_, ?_, ?_, ?_, ?_, ?_, ?_, ?_, ?_, hm.cVisited, hm.cOrder,
            hdc2, hm.cOpt⟩
          · exact pqSorted_update hm.sorted nb (p + 1)
          · rw [List.nodup_append]
            have hold := List.nodup_append.mp hm.nodupAll
            refine ⟨hold.1, pq_update_nodup hndq hasnb, ?_⟩
            intro a ha hb
            exact hold.2.2 ha ((pq_update_mem_fst hasnb a).mp hb)
          · intro x hx
            rcases (hmemq x).mp hx with ⟨hxq, _⟩ | hxe
            · exact hm.queue_unvisited x hxq
            · subst hxe; exact hfresh
          · intro x hx
            rcases (hmemq x).mp hx with ⟨hxq, hxn⟩ | hxe
            · simp only [setAt_ne _ _ _ hxn]
              exact hm.queue_dist x hxq
            · subst hxe
              simp [setAt]
          · intro v n hv
            by_cases hvn : v = nb
            · subst hvn
              simp only [setAt_eq] at hv
              injection hv with hv
              exact Or.inr ((hmemq _).mpr (Or.inr (by rw [hv])))
            · simp only [setAt_ne _ _ _ hvn] at hv
              rcases hm.dist_mem v n hv with h | h
              · exact Or.inl h
              · exact Or.inr ((hmemq _).mpr (Or.inl ⟨h, hvn⟩))
          · intro x hx
            rcases (hmemq x).mp hx with ⟨hxq, _⟩ | hxe
            · exact hm.queue_dom x hxq
            · subst hxe; exact ⟨hnbB, Or.inr hwall⟩
          · simp only [setAt_ne _ _ _ (Ne.symm hnbs)]; exact hm.dist_s
          · simp only [setAt_ne _ _ _ (Ne.symm hnbs)]; exact hm.prev_s
          · intro x n hx
            by_cases hxn : x = nb
            · subst hxn
              simp only [setAt_eq] at hx
              injection hx with hx
              rw [← hx]
              exact hreach
            · simp only [setAt_ne _ _ _ hxn] at hx
              exact hm.dist_sound x n hx
          · intro x u hx
            by_cases hxn : x = nb
            · subst hxn
              simp only [setAt_eq] at hx
              injection hx with hx
              subst hx
              exact ⟨p, p + 1, hdc2, by simp [setAt], rfl, hstep, hm.cOrder⟩
            · simp only [setAt_ne _ _ _ hxn] at hx
              obtain ⟨du, dc, h1, h2, h3, h4, h5⟩ := hm.prev_dist x u hx
              have hun : u ≠ nb := fun he => hnbo (he ▸ h5)
              exact ⟨du, dc, by simp only [setAt_ne _ _ _ hun]; exact h1,
                by simp only [setAt_ne _ _ _ hxn]; exact h2, h3, h4, h5⟩
          · intro x n hx hpx
            by_cases hxn : x = nb
            · subst hxn
              simp only [setAt_eq] at hpx
              cases hpx
            · simp only [setAt_ne _ _ _ hxn] at hx hpx
              exact hm.prev_none_s x n hx hpx
          · intro i hi u hu
            have hne : σ.order.get ⟨i, hi⟩ ≠ nb := by
              intro h
              exact hnbo (h ▸ List.get_mem σ.order i hi)
            simp only [setAt_ne _ _ _ hne] at hu
            exact hm.prevOrder i hi u hu
          · intro x hx
            obtain ⟨n, h1, h2⟩ := hm.vis_opt x hx
            have hxn : x ≠ nb := fun he => by
              rw [he, hfresh] at hx; cases hx
            exact ⟨n, by simp only [setAt_ne _ _ _ hxn]; exact h1, h2⟩
          · intro u v hu hune hst hv
            obtain ⟨pv, du, h1, h2, h3⟩ := hm.frontierExc u v hu hune hst hv
            have hun : u ≠ nb := fun he => by
              rw [he, hfresh] at hu; cases hu
            by_cases hvn : v = nb
            · subst hvn
              have hdn := hm.queue_dist _ h1
              rw [hdn] at himp
              simp only [ltInf, decide_eq_true_eq] at himp
              exact ⟨p + 1, du, (hmemq _).mpr (Or.inr rfl),
                by simp only [setAt_ne _ _ _ hun]; exact h2, by omega⟩
            · exact ⟨pv, du, (hmemq _).mpr (Or.inl ⟨h1, fun h => hvn h⟩),
                by simp only [setAt_ne _ _ _ hun]; exact h2, h3⟩
          · rcases hm.s_in with h | h
            · exact Or.inl h
            · exact Or.inr ((hmemq _).mpr (Or.inl ⟨h, Ne.symm hnbs⟩))
        · intro _ _
          exact ⟨p + 1, (hmemq _).mpr (Or.inr rfl), Nat.le_refl _⟩
        · intro v pv hv
          by_cases hvn : v = nb
          · subst hvn
            have hdn := hm.queue_dist _ hv
            rw [hdn] at himp
            simp only [ltInf, decide_eq_true_eq] at himp
            exact ⟨p + 1, by omega, (hmemq _).mpr (Or.inr rfl)⟩
          · exact ⟨pv, Nat.le_refl _, (hmemq _).mpr (Or.inl ⟨hv, hvn⟩)⟩
        · unfold dijMeasure
          have hhn : ∀ x, pqHasNode (pqUpdatePriority σ.queue nb (p + 1)) x =
              pqHasNode σ.queue x := by
            intro x
            apply bool_eq_of_iff
            rw [pqHasNode_mem, pqHasNode_mem]
            exact pq_update_mem_fst hasnb x
          have hfeq : ((allCoords g).filter fun x =>
              !σ.visited x && !pqHasNode (pqUpdatePriority σ.queue nb
                (p + 1)) x).length =
              ((allCoords g).filter fun x =>
              !σ.visited x && !pqHasNode σ.queue x).length := by
            rw [← List.countP_eq_length_filter, ← List.countP_eq_length_filter]
            apply countP_agree
            intro x _
            rw [hhn x]
          rw [hfeq, pq_update_length hndq hasnb]
      case neg =>
        have hnin : nb ∉ σ.queue.map Prod.fst := by
          intro h
          exact hasnb (pqHasNode_mem.mpr h)
        have heq : dijkstraRelax g c σ nb =
            { σ with dist := setAt σ.dist nb (some (p + 1))
                     prev := setAt σ.prev nb (some c)
                     queue := pqEnqueue σ.queue nb (p + 1) } := by
          unfold dijkstraRelax
          rw [hfresh, hwall, hm.cDist]
          simp [himp, hasnb]
        have hmemq : ∀ x, x ∈ pqEnqueue σ.queue nb (p + 1) ↔
            x = (nb, p + 1) ∨ x ∈ σ.queue := fun x => mem_pqEnqueue
        rw [heq]
        dsimp only
        refine ⟨?_, rfl, rfl, ?_, ?_, ?_⟩
        · refine ⟨?_, ?_, hm.visited_iff, ?_, ?_, ?_, ?_, hm.order_dom,
            ?_, ?_, ?_, ?_, ?_, ?_, ?_, ?_, ?_, hm.cVisited, hm.cOrder,
            hdc2, hm.cOpt⟩
          · exact pqSorted_enqueue hm.sorted nb (p + 1)
          · rw [List.nodup_append]
            have hold := List.nodup_append.mp hm.nodupAll
            have hperm := (pqEnqueue_perm σ.queue nb (p + 1)).map Prod.fst
            refine ⟨hold.1, hperm.symm.nodup ?_, ?_⟩
            · rw [List.map_cons]
              exact List.nodup_cons.mpr ⟨hnin, hold.2.1⟩
            · intro a ha hb
              rcases (hperm.mem_iff).mp hb with h
              rw [List.map_cons, List.mem_cons] at h
              rcases h with h | h
              · subst h; exact hnbo ha
              · exact hold.2.2 ha h
          · intro x hx
            rcases (hmemq x).mp hx with hxe | hxq
            · subst hxe; exact hfresh
            · exact hm.queue_unvisited x hxq
          · intro x hx
            rcases (hmemq x).mp hx with hxe | hxq
            · subst hxe; simp [setAt]
            · have hxn : x.1 ≠ nb := by
                intro he
                exact hnin (he ▸ List.mem_map_of_mem Prod.fst hxq)
              simp only [setAt_ne _ _ _ hxn]
              exact hm.queue_dist x hxq
          · intro v n hv
            by_cases hvn : v = nb
            · subst hvn
              simp only [setAt_eq] at hv
              injection hv with hv
              exact Or.inr ((hmemq _).mpr (Or.inl (by rw [hv])))
            · simp only [setAt_ne _ _ _ hvn] at hv
              rcases hm.dist_mem v n hv with h | h
              · exact Or.inl h
              · exact Or.inr ((hmemq _).mpr (Or.inr h))
          · intro x hx
            rcases (hmemq x).mp hx with hxe | hxq
            · subst hxe; exact ⟨hnbB, Or.inr hwall⟩
            · exact hm.queue_dom x hxq
          · simp only [setAt_ne _ _ _ (Ne.symm hnbs)]; exact hm.dist_s
          · simp only [setAt_ne _ _ _ (Ne.symm hnbs)]; exact hm.prev_s
          · intro x n hx
            by_cases hxn : x = nb
            · subst hxn
              simp only [setAt_eq] at hx
              injection hx with hx
              rw [← hx]
              exact hreach
            · simp only [setAt_ne _ _ _ hxn] at hx
              exact hm.dist_sound x n hx
          · intro x u hx
            by_cases hxn : x = nb
            · subst hxn
              simp only [setAt_eq] at hx
              injection hx with hx
              subst hx
              exact ⟨p, p + 1, hdc2, by simp [setAt], rfl, hstep, hm.cOrder⟩
            · simp only [setAt_ne _ _ _ hxn] at hx
              obtain ⟨du, dc, h1, h2, h3, h4, h5⟩ := hm.prev_dist x u hx
              have hun : u ≠ nb := fun he => hnbo (he ▸ h5)
              exact ⟨du, dc, by simp only [setAt_ne _ _ _ hun]; exact h1,
                by simp only [setAt_ne _ _ _ hxn]; exact h2, h3, h4, h5⟩
          · intro x n hx hpx
            by_cases hxn : x = nb
            · subst hxn
              simp only [setAt_eq] at hpx
              cases hpx
            · simp only [setAt_ne _ _ _ hxn] at hx hpx
              exact hm.prev_none_s x n hx hpx
          · intro i hi u hu
            have hne : σ.order.get ⟨i, hi⟩ ≠ nb := by
              intro h
              exact hnbo (h ▸ List.get_mem σ.order i hi)
            simp only [setAt_ne _ _ _ hne] at hu
            exact hm.prevOrder i hi u hu
          · intro x hx
            obtain ⟨n, h1, h2⟩ := hm.vis_opt x hx
            have hxn : x ≠ nb := fun he => by
              rw [he, hfresh] at hx; cases hx
            exact ⟨n, by simp only [setAt_ne _ _ _ hxn]; exact h1, h2⟩
          · intro u v hu hune hst hv
            obtain ⟨pv, du, h1, h2, h3⟩ := hm.frontierExc u v hu hune hst hv
            have hun : u ≠ nb := fun he => by
              rw [he, hfresh] at hu; cases hu
            exact ⟨pv, du, (hmemq _).mpr (Or.inr h1),
              by simp only [setAt_ne _ _ _ hun]; exact h2, h3⟩
          · rcases hm.s_in with h | h
            · exact Or.inl h
            · exact Or.inr ((hmemq _).mpr (Or.inr h))
        · intro _ _
          exact ⟨p + 1, (hmemq _).mpr (Or.inl rfl), Nat.le_refl _⟩
        · intro v pv hv
          exact ⟨pv, Nat.le_refl _, (hmemq _).mpr (Or.inr hv)⟩
        · unfold dijMeasure
          dsimp only
          have hperm := (pqEnqueue_perm σ.queue nb (p + 1)).map Prod.fst
          have hcnt : ((allCoords g).filter fun x =>
              !σ.visited x && !pqHasNode (pqEnqueue σ.queue nb (p + 1))
                x).length + 1 =
              ((allCoords g).filter fun x =>
              !σ.visited x && !pqHasNode σ.queue x).length := by
            rw [← List.countP_eq_length_filter, ← List.countP_eq_length_filter]
            apply countP_flip_at (b := nb)
            · rw [hfresh]
              have : pqHasNode σ.queue nb = false :=
                Bool.eq_false_iff.mpr hasnb
              rw [this]
              rfl
            · have : pqHasNode (pqEnqueue σ.queue nb (p + 1)) nb = true := by
                rw [pqHasNode_mem, hperm.mem_iff, List.map_cons]
                simp
              rw [this]
              simp
            · exact nodup_allCoords g
            · exact mem_allCoords.mpr hnbB
            · intro x _ hxn
              have : pqHasNode (pqEnqueue σ.queue nb (p + 1)) x =
                  pqHasNode σ.queue x := by
                apply bool_eq_of_iff
                rw [pqHasNode_mem, pqHasNode_mem, hperm.mem_iff,
                  List.map_cons, List.mem_cons]
                constructor
                · rintro (h | h)
                  · exact absurd h hxn
                  · exact h
                · exact fun h => Or.inr h
              rw [this]
          have hlen : (pqEnqueue σ.queue nb (p + 1)).length =
              σ.queue.length + 1 := by
            rw [(pqEnqueue_perm σ.queue nb (p + 1)).length_eq]
            simp
          omega

end PathVis

namespace PathVis

lemma dijRelax_fold {g : Grid} {s c : Coord} {p : Nat} :
    ∀ (nbs : List Coord) {σ : DijkstraState}, DijMid g s c p σ →
      (∀ nb ∈ nbs, nb ∈ getNeighbors g c) →
      DijMid g s c p (nbs.foldl (dijkstraRelax g c) σ) ∧
        (nbs.foldl (dijkstraRelax g c) σ).order = σ.order ∧
        (nbs.foldl (dijkstraRelax g c) σ).visited = σ.visited ∧
        (∀ nb ∈ nbs, isWallAt g nb = false → σ.visited nb = false →
          ∃ pv, (nb, pv) ∈ (nbs.foldl (dijkstraRelax g c) σ).queue ∧
            pv ≤ p + 1) ∧
        (∀ v pv, (v, pv) ∈ σ.queue → ∃ pv2, pv2 ≤ pv ∧
          (v, pv2) ∈ (nbs.foldl (dijkstraRelax g c) σ).queue) ∧
        dijMeasure g (nbs.foldl (dijkstraRelax g c) σ) = dijMeasure g σ := by
  intro nbs
  induction nbs with
  | nil =>
    intro σ hm _
    exact ⟨hm, rfl, rfl, by simp, fun v pv h => ⟨pv, Nat.le_refl _, h⟩, rfl⟩
  | cons a t ih =>
    intro σ hm hmem
    have ha : a ∈ getNeighbors g c := hmem a (by simp)
    obtain ⟨hm1, hord1, hvis1, hproc1, hpre1, hcnt1⟩ := dijkstraRelax_mid hm ha
    obtain ⟨hm2, hord2, hvis2, hproc2, hpre2, hcnt2⟩ :=
      ih hm1 fun nb hnb => hmem nb (by simp [hnb])
    refine ⟨hm2, ?_, ?_, ?_, ?_, ?_⟩
    · show (t.foldl (dijkstraRelax g c) (dijkstraRelax g c σ a)).order =
        σ.order
      rw [hord2, hord1]
    · show (t.foldl (dijkstraRelax g c) (dijkstraRelax g c σ a)).visited =
        σ.visited
      rw [hvis2, hvis1]
    · intro nb hnb hwall hfr
      rcases List.mem_cons.mp hnb with h | h
      · subst h
        obtain ⟨pv, hpv, hle⟩ := hproc1 hwall hfr
        obtain ⟨pv2, hle2, hpv2⟩ := hpre2 nb pv hpv
        exact ⟨pv2, hpv2, Nat.le_trans hle2 hle⟩
      · have hfr1 : (dijkstraRelax g c σ a).visited nb = false := by
          rw [hvis1]; exact hfr
        exact hproc2 nb h hwall hfr1
    · intro v pv hv
      obtain ⟨pv1, hle1, hpv1⟩ := hpre1 v pv hv
      obtain ⟨pv2, hle2, hpv2⟩ := hpre2 v pv1 hpv1
      exact ⟨pv2, Nat.le_trans hle2 hle1, hpv2⟩
    · simp only [List.foldl_cons]
      omega

lemma dijInv_pop {g : Grid} {s : Coord} {σ : DijkstraState} {c : Coord}
    {p : Nat} {rest : PQueue} (hI : DijInv g s σ)
    (hq : σ.queue = (c, p) :: rest) :
    DijMid g s c p
      { σ with queue := rest, visited := setAt σ.visited c true,
               order := σ.order ++ [c] } := by
  have hcq : (c, p) ∈ σ.queue := by rw [hq]; simp
  have hcv : σ.visited c = false := hI.queue_unvisited _ hcq
  have hcd : σ.dist c = some p := hI.queue_dist _ hcq
  have hcopt : distIs g s c p :=
    ⟨hI.dist_sound c p hcd, fun m h => dij_pop_lb hI hq m c hcv h⟩
  have hco : c ∉ σ.order := fun h => by
    rw [(hI.visited_iff c).mpr h] at hcv; cases hcv
  have hcrest : c ∉ rest.map Prod.fst := by
    have hnd := (List.nodup_append.mp hI.nodupAll).2.1
    rw [hq, List.map_cons] at hnd
    exact (List.nodup_cons.mp hnd).1
  refine ⟨?_, ?_, ?_, ?_, ?_, ?_, ?_, ?_, ?_, ?_, ?_, ?_, ?_, ?_, ?_, ?_,
    ?_, ?_, ?_, ?_, ?_⟩
  · -- sorted
    have := hI.sorted
    rw [hq] at this
    exact (List.pairwise_cons.mp this).2
  · -- nodupAll
    show (σ.order ++ [c] ++ rest.map Prod.fst).Nodup
    have : σ.order ++ [c] ++ rest.map Prod.fst =
        σ.order ++ σ.queue.map Prod.fst := by
      rw [hq, List.map_cons, List.append_assoc]
      rfl
    rw [this]
    exact hI.nodupAll
  · -- visited_iff
    intro x
    by_cases hxc : x = c
    · subst hxc
      simp [setAt]
    · simp only [setAt_ne _ _ _ hxc]
      rw [hI.visited_iff x]
      constructor
      · intro h
        exact List.mem_append.mpr (Or.inl h)
      · intro h
        rcases List.mem_append.mp h with h | h
        · exact h
        · simp at h; exact absurd h hxc
  · -- queue_unvisited
    intro x hx
    have hxn : x.1 ≠ c := by
      intro he
      exact hcrest (he ▸ List.mem_map_of_mem Prod.fst hx)
    simp only [setAt_ne _ _ _ hxn]
    exact hI.queue_unvisited x (by rw [hq]; exact List.mem_cons_of_mem _ hx)
  · -- queue_dist
    intro x hx
    exact hI.queue_dist x (by rw [hq]; exact List.mem_cons_of_mem _ hx)
  · -- dist_mem
    intro v n hv
    rcases hI.dist_mem v n hv with h | h
    · exact Or.inl (by
        by_cases hvc : v = c
        · subst hvc; simp [setAt]
        · simp only [setAt_ne _ _ _ hvc]; exact h)
    · rw [hq] at h
      rcases List.mem_cons.mp h with h | h
      · injection h with h1 h2
        subst h1
        exact Or.inl (by simp [setAt])
      · exact Or.inr h
  · -- queue_dom
    intro x hx
    exact hI.queue_dom x (by rw [hq]; exact List.mem_cons_of_mem _ hx)
  · -- order_dom
    intro x hx
    rcases List.mem_append.mp hx with h | h
    · exact hI.order_dom x h
    · simp at h
      subst h
      exact hI.queue_dom _ hcq
  · exact hI.dist_s
  · exact hI.prev_s
  · exact hI.dist_sound
  · -- prev_dist
    intro x u hx
    obtain ⟨du, dc, h1, h2, h3, h4, h5⟩ := hI.prev_dist x u hx
    exact ⟨du, dc, h1, h2, h3, h4, List.mem_append.mpr (Or.inl h5)⟩
  · exact hI.prev_none_s
  · -- prevOrder
    refine prevOrder_append hI.prevOrder ?_
    intro u hu
    obtain ⟨du, dc, _, _, _, _, h5⟩ := hI.prev_dist c u hu
    exact h5
  · -- vis_opt
    intro x hx
    by_cases hxc : x = c
    · subst hxc
      exact ⟨p, hcd, hcopt⟩
    · simp only [setAt_ne _ _ _ hxc] at hx
      exact hI.vis_opt x hx
  · -- frontierExc
    intro u v hu hune hst hv
    have huo : σ.visited u = true := by
      by_cases huc : u = c
      · exact absurd huc hune
      · simp only [setAt_ne _ _ _ huc] at hu; exact hu
    have hvc : v ≠ c := by
      intro he
      subst he
      simp [setAt] at hv
    simp only [setAt_ne _ _ _ hvc] at hv
    obtain ⟨pv, du, h1, h2, h3⟩ := hI.frontier u v huo hst hv
    rw [hq] at h1
    rcases List.mem_cons.mp h1 with h | h
    · injection h with h4 h5
      exact absurd h4 hvc
    · exact ⟨pv, du, h, h2, h3⟩
  · -- s_in
    rcases hI.s_in with h | h
    · exact Or.inl (by
        by_cases hsc : s = c
        · subst hsc; simp [setAt]
        · simp only [setAt_ne _ _ _ hsc]; exact h)
    · rw [hq] at h
      rcases List.mem_cons.mp h with h | h
      · injection h with h1 h2
        subst h1
        exact Or.inl (by simp [setAt])
      · exact Or.inr h
  · simp [setAt]
  · exact List.mem_append.mpr (Or.inr (by simp))
  · exact hcd
  · exact hcopt

lemma dijMid_close {g : Grid} {s c : Coord} {p : Nat} {σ : DijkstraState}
    (hm : DijMid g s c p σ)
    (hdone : ∀ v, stepOK g c v → σ.visited v = false →
      ∃ pv, (v, pv) ∈ σ.queue ∧ pv ≤ p + 1) : DijInv g s σ := by
  refine ⟨hm.sorted, hm.nodupAll, hm.visited_iff, hm.queue_unvisited,
    hm.queue_dist, hm.dist_mem, hm.queue_dom, hm.order_dom, hm.dist_s,
    hm.prev_s, hm.dist_sound, hm.prev_dist, hm.prev_none_s, hm.prevOrder,
    hm.vis_opt, ?_, hm.s_in⟩
  intro u v hu hst hv
  by_cases huc : u = c
  · subst huc
    obtain ⟨pv, h1, h2⟩ := hdone v hst hv
    exact ⟨pv, p, h1, hm.cDist, h2⟩
  · exact hm.frontierExc u v hu huc hst hv

end PathVis

namespace PathVis

/-- What holds of the state in which the `dijkstra` loop terminates. -/
structure DijDone (g : Grid) (s e : Coord) (σ : DijkstraState) : Prop where
  nodupAll : (σ.order ++ σ.queue.map Prod.fst).Nodup
  dist_mem : ∀ v n, σ.dist v = some n → σ.visited v = true ∨ (v, n) ∈ σ.queue
  visited_iff : ∀ c, σ.visited c = true ↔ c ∈ σ.order
  order_dom : ∀ c ∈ σ.order, inBounds g c ∧ (c = s ∨ isWallAt g c = false)
  dist_s : σ.dist s = some 0
  prev_s : σ.prev s = none
  dist_sound : ∀ c n, σ.dist c = some n → ReachIn g s n c
  prev_dist : ∀ c u, σ.prev c = some u → ∃ du dc, σ.dist u = some du ∧
    σ.dist c = some dc ∧ dc = du + 1 ∧ stepOK g u c ∧ u ∈ σ.order
  prev_none_s : ∀ c n, σ.dist c = some n → σ.prev c = none → c = s
  prevOrder : PrevOrder σ.prev σ.order
  vis_opt : ∀ c, σ.visited c = true → ∃ n, σ.dist c = some n ∧ distIs g s c n
  s_in : σ.visited s = true ∨ (s, 0) ∈ σ.queue
  exitCond : (σ.queue = [] ∧
      ∀ u v, σ.visited u = true → stepOK g u v → σ.visited v = true) ∨
    ∃ pre, σ.order = pre ++ [e]

lemma dij_pop_measure {g : Grid} {σ : DijkstraState} {c : Coord} {p : Nat}
    {rest : PQueue} (hq : σ.queue = (c, p) :: rest) :
    dijMeasure g
      { σ with queue := rest, visited := setAt σ.visited c true,
               order := σ.order ++ [c] } + 1 = dijMeasure g σ := by
  unfold dijMeasure
  dsimp only
  have hcnt : ((allCoords g).filter fun x =>
      !(setAt σ.visited c true) x && !pqHasNode rest x).length =
      ((allCoords g).filter fun x =>
      !σ.visited x && !pqHasNode σ.queue x).length := by
    rw [← List.countP_eq_length_filter, ← List.countP_eq_length_filter]
    apply countP_agree
    intro x _
    by_cases hxc : x = c
    · subst hxc
      have h1 : (setAt σ.visited x true) x = true := by simp [setAt]
      have h2 : pqHasNode σ.queue x = true := by
        rw [pqHasNode_mem, hq, List.map_cons]
        simp
      rw [h1, h2]
      simp
    · have h1 : (setAt σ.visited c true) x = σ.visited x :=
        setAt_ne _ _ _ hxc
      have h2 : pqHasNode σ.queue x = pqHasNode rest x := by
        apply bool_eq_of_iff
        rw [pqHasNode_mem, pqHasNode_mem, hq, List.map_cons, List.mem_cons]
        constructor
        · rintro (h | h)
          · exact absurd h hxc
          · exact h
        · exact fun h => Or.inr h
      rw [h1, h2]
  rw [hcnt, hq]
  simp only [List.length_cons]
  omega

theorem dijLoop_done (g : Grid) (s e : Coord) :
    ∀ (fuel : Nat) (σ : DijkstraState), DijInv g s σ →
      dijMeasure g σ < fuel → DijDone g s e (dijkstraLoop g e fuel σ) := by
  intro fuel
  induction fuel with
  | zero =>
    intro σ _ h
    omega
  | succ f ih =>
    intro σ hI hm
    cases hq : σ.queue with
    | nil =>
      have heval : dijkstraLoop g e (f + 1) σ = σ := by
        conv_lhs => rw [dijkstraLoop.eq_def]
        simp [hq]
      rw [heval]
      refine ⟨hI.nodupAll, hI.dist_mem, hI.visited_iff, hI.order_dom,
        hI.dist_s, hI.prev_s, hI.dist_sound, hI.prev_dist, hI.prev_none_s,
        hI.prevOrder, hI.vis_opt, hI.s_in, Or.inl ⟨hq, ?_⟩⟩
      intro u v hu hst
      by_cases hv : σ.visited v = true
      · exact hv
      · obtain ⟨pv, du, h1, _, _⟩ :=
          hI.frontier u v hu hst (Bool.eq_false_iff.mpr hv)
        rw [hq] at h1
        cases h1
    | cons x rest =>
      obtain ⟨c, p⟩ := x
      have hcv : σ.visited c = false :=
        hI.queue_unvisited (c, p) (by rw [hq]; simp)
      have hmid := dijInv_pop hI hq
      by_cases hce : c = e
      · have heval : dijkstraLoop g e (f + 1) σ =
            { σ with queue := rest, visited := setAt σ.visited c true,
                     order := σ.order ++ [c] } := by
          conv_lhs => rw [dijkstraLoop.eq_def]
          simp [hq, hcv]
          intro h
          exact absurd hce h
        rw [heval]
        exact ⟨hmid.nodupAll, hmid.dist_mem, hmid.visited_iff,
          hmid.order_dom, hmid.dist_s, hmid.prev_s, hmid.dist_sound,
          hmid.prev_dist, hmid.prev_none_s, hmid.prevOrder, hmid.vis_opt,
          hmid.s_in, Or.inr ⟨σ.order, by rw [hce]⟩⟩
      · have heval : dijkstraLoop g e (f + 1) σ =
            dijkstraLoop g e f ((getNeighbors g c).foldl (dijkstraRelax g c)
              { σ with queue := rest, visited := setAt σ.visited c true,
                       order := σ.order ++ [c] }) := by
          conv_lhs => rw [dijkstraLoop.eq_def]
          simp [hq, hcv]
          intro h
          exact absurd h hce
        rw [heval]
        obtain ⟨hm2, hord2, hvis2, hproc2, hpre2, hcnt2⟩ :=
          dijRelax_fold (getNeighbors g c) hmid fun nb h => h
        have hInv2 := dijMid_close hm2 ?_
        · apply ih _ hInv2
          have hdec := dij_pop_measure (g := g) hq
          omega
        · intro v hst hv
          rw [hvis2] at hv
          have hv2 : (setAt σ.visited c true) v = false := hv
          have hvold : σ.visited v = false := by
            by_cases hvc : v = c
            · subst hvc
              simp [setAt] at hv2
            · rw [setAt_ne _ _ _ hvc] at hv2
              exact hv2
          exact hproc2 v hst.1 hst.2 hv2
  
end PathVis

namespace PathVis

lemma ancChain_getLast {prev : Coord → Option Coord} {x : Coord}
    {l : List Coord} (h : AncChain prev x l) (hne : l ≠ []) :
    ∃ u, prev x = some u ∧ l.getLast? = some u := by
  cases h with
  | nil h0 => exact absurd rfl hne
  | cons hc hu => exact ⟨_, hc, List.getLast?_concat _⟩

lemma dij_chain_spec {g : Grid} {s e : Coord} {σ : DijkstraState}
    (hD : DijDone g s e σ) :
    ∀ {x : Coord} {l : List Coord}, AncChain σ.prev x l →
      ∀ {n : Nat}, σ.dist x = some n →
        l.length = n ∧ List.Chain' (stepOK g) (l ++ [x]) ∧
        (l = [] → x = s) ∧ (l ≠ [] → l.head? = some s) := by
  intro x l hC
  induction hC with
  | nil h0 =>
    intro n hn
    have hxs : _ = s := hD.prev_none_s _ n hn h0
    subst hxs
    rw [hD.dist_s] at hn
    injection hn with hn
    exact ⟨by rw [← hn]; rfl, by simp, fun _ => rfl, by simp⟩
  | cons hc hu ih =>
    rename_i x1 u1 l1
    intro n hn
    obtain ⟨du, dc, h1, h2, h3, h4, _⟩ := hD.prev_dist x1 u1 hc
    rw [hn] at h2
    injection h2 with h2
    obtain ⟨ihlen, ihch, ihnil, ihhd⟩ := ih h1
    refine ⟨?_, ?_, by simp, ?_⟩
    · simp only [List.length_append, List.length_cons, List.length_nil]
      omega
    · rw [List.chain'_append]
      refine ⟨ihch, List.chain'_singleton _, ?_⟩
      intro a ha b hb
      simp at hb
      subst hb
      rw [List.getLast?_concat] at ha
      simp at ha
      subst ha
      exact h4
    · intro _
      cases hl1 : l1 with
      | nil =>
        have := ihnil hl1
        simp [hl1, this]
      | cons a t =>
        have := ihhd (by simp [hl1])
        rw [hl1] at this
        simpa using this

lemma dijInv_init {g : Grid} {s : Coord} (hs : inBounds g s) :
    DijInv g s (dijkstraInit s) := by
  have hq : (dijkstraInit s).queue = [(s, 0)] := rfl
  refine ⟨?_, ?_, ?_, ?_, ?_, ?_, ?_, ?_, ?_, ?_, ?_, ?_, ?_, ?_, ?_, ?_,
    ?_⟩
  · rw [hq]
    exact List.pairwise_singleton _ _
  · simp [dijkstraInit, pqEnqueue]
  · intro c
    simp [dijkstraInit]
  · intro x hx
    rfl
  · intro x hx
    rw [hq] at hx
    simp at hx
    subst hx
    simp [dijkstraInit, setAt]
  · intro v n hv
    simp only [dijkstraInit] at hv
    by_cases hvs : v = s
    · subst hvs
      rw [setAt_eq] at hv
      injection hv with hv
      exact Or.inr (by rw [hq, ← hv]; simp)
    · rw [setAt_ne _ _ _ hvs] at hv
      cases hv
  · intro x hx
    rw [hq] at hx
    simp at hx
    subst hx
    exact ⟨hs, Or.inl rfl⟩
  · intro c hc
    simp [dijkstraInit] at hc
  · simp [dijkstraInit, setAt]
  · rfl
  · intro c n hc
    simp only [dijkstraInit] at hc
    by_cases hcs : c = s
    · subst hcs
      rw [setAt_eq] at hc
      injection hc with hc
      rw [← hc]
      exact ReachIn.zero
    · rw [setAt_ne _ _ _ hcs] at hc
      cases hc
  · intro c u hc
    cases hc
  · intro c n hc _
    simp only [dijkstraInit] at hc
    by_cases hcs : c = s
    · exact hcs
    · rw [setAt_ne _ _ _ hcs] at hc
      cases hc
  · intro i hi
    simp [dijkstraInit] at hi
  · intro c hc
    simp [dijkstraInit] at hc
  · intro u v hu
    simp [dijkstraInit] at hu
  · exact Or.inr (by rw [hq]; simp)

theorem dij_done (g : Grid) (s e : Coord) (hs : inBounds g s) :
    DijDone g s e (dijkstraFinal g s e) := by
  apply dijLoop_done g s e _ _ (dijInv_init hs)
  unfold dijMeasure
  have hcnt : ((allCoords g).filter fun x =>
      !(dijkstraInit s).visited x &&
        !pqHasNode (dijkstraInit s).queue x).length + 1 =
      rowsOf g * colsOf g := by
    rw [← List.countP_eq_length_filter]
    have := countP_flip_at (L := allCoords g)
      (p := fun _ => true)
      (q := fun x => !(dijkstraInit s).visited x &&
        !pqHasNode (dijkstraInit s).queue x) (b := s)
      rfl
      (by
        have h1 : (dijkstraInit s).visited s = false := rfl
        have h2 : pqHasNode (dijkstraInit s).queue s = true := by
          rw [pqHasNode_mem]
          show s ∈ [(s, 0)].map Prod.fst
          simp
        simp [h1, h2])
      (nodup_allCoords g) (mem_allCoords.mpr hs)
      (by
        intro x _ hxs
        have h1 : (dijkstraInit s).visited x = false := rfl
        have h2 : pqHasNode (dijkstraInit s).queue x = false := by
          apply Bool.eq_false_iff.mpr
          intro hmem
          rw [pqHasNode_mem] at hmem
          simp only [dijkstraInit] at hmem
          have : ([((s : Coord), 0)].map Prod.fst) = [s] := rfl
          rw [show (pqEnqueue [] s 0) = [((s : Coord), 0)] from rfl] at hmem
          rw [this] at hmem
          simp at hmem
          exact hxs hmem
        simp [h1, h2])
    rw [this]
    rw [List.countP_true, length_allCoords]
  have hql : (dijkstraInit s).queue.length = 1 := rfl
  omega

end PathVis

namespace PathVis

/-- Consolidated facts about a finished `dijkstra` run. -/
theorem dij_run_spec (g : Grid) (s e : Coord) (hs : inBounds g s) :
    ((dijkstraFinal g s e).order.Nodup ∧ (dijkstraFinal g s e).order ≠ [] ∧
      (∀ c ∈ (dijkstraFinal g s e).order, inBounds g c ∧ Reach g s c) ∧
      (dijkstraFinal g s e).order.length ≤ rowsOf g * colsOf g) ∧
    (∀ c ∈ (dijkstraFinal g s e).order, ∃ n,
      (dijkstraFinal g s e).dist c = some n ∧ distIs g s c n) ∧
    (∃ l, getNodesInShortestPathOrder (dijkstraFinal g s e).prev e
        (walkFuel g) = some l ∧
      (((dijkstraFinal g s e).prev e = none ∧ l = []) ∨
        (l ≠ [] ∧ distIs g s e l.length ∧ l.head? = some s ∧ e ∉ l ∧
          List.Chain' (stepOK g) (l ++ [e]) ∧
          ∃ u, l.getLast? = some u ∧ stepOK g u e))) ∧
    ((¬Reach g s e → (dijkstraFinal g s e).prev e = none) ∧
      (Reach g s e → e ≠ s → (dijkstraFinal g s e).prev e ≠ none) ∧
      (dijkstraFinal g s e).prev s = none) := by
  have hD := dij_done g s e hs
  have hnodup : (dijkstraFinal g s e).order.Nodup :=
    (List.nodup_append.mp hD.nodupAll).1
  have hvopt : ∀ c ∈ (dijkstraFinal g s e).order, ∃ n,
      (dijkstraFinal g s e).dist c = some n ∧ distIs g s c n := by
    intro c hc
    exact hD.vis_opt c ((hD.visited_iff c).mpr hc)
  have hdom : ∀ c ∈ (dijkstraFinal g s e).order,
      inBounds g c ∧ Reach g s c := by
    intro c hc
    obtain ⟨hb, _⟩ := hD.order_dom c hc
    obtain ⟨n, _, hopt⟩ := hvopt c hc
    exact ⟨hb, ⟨n, hopt.1⟩⟩
  have hlenb : (dijkstraFinal g s e).order.length ≤ rowsOf g * colsOf g :=
    nodup_inBounds_length_le hnodup fun c hc => (hdom c hc).1
  have hne : (dijkstraFinal g s e).order ≠ [] := by
    rcases hD.exitCond with ⟨hqe, _⟩ | ⟨pre, hpre⟩
    · rcases hD.s_in with h | h
      · intro h0
        have := (hD.visited_iff s).mp h
        rw [h0] at this
        cases this
      · rw [hqe] at h
        cases h
    · rw [hpre]; simp
  have hvs : (dijkstraFinal g s e).visited s = true ∨
      (dijkstraFinal g s e).queue ≠ [] := by
    rcases hD.s_in with h | h
    · exact Or.inl h
    · right
      intro h0
      rw [h0] at h
      cases h
  have hattain : Reach g s e → (dijkstraFinal g s e).visited e = true := by
    rintro ⟨nr, hr⟩
    rcases hD.exitCond with ⟨hqe, hclosed⟩ | ⟨pre, hpre⟩
    · have hvs2 : (dijkstraFinal g s e).visited s = true := by
        rcases hvs with h | h
        · exact h
        · exact absurd hqe h
      have hall : ∀ m x, ReachIn g s m x →
          (dijkstraFinal g s e).visited x = true := by
        intro m
        induction m with
        | zero =>
          intro x hx
          cases hx
          exact hvs2
        | succ k ih =>
          intro x hx
          cases hx with
          | succ hw hstep =>
            rename_i u
            exact hclosed u x (ih u hw) hstep
      exact hall nr e hr
    · exact (hD.visited_iff e).mpr (by rw [hpre]; simp)
  have hvis_of_prev : ∀ u, (dijkstraFinal g s e).prev e = some u →
      (dijkstraFinal g s e).visited e = true := by
    intro u hpe
    obtain ⟨du, dc, _, h2, _, _, _⟩ := hD.prev_dist e u hpe
    rcases hD.exitCond with ⟨hqe, _⟩ | ⟨pre, hpre⟩
    · rcases hD.dist_mem e dc h2 with h | h
      · exact h
      · rw [hqe] at h
        cases h
    · exact (hD.visited_iff e).mpr (by rw [hpre]; simp)
  refine ⟨⟨hnodup, hne, hdom, hlenb⟩, hvopt, ?_, ?_, ?_, hD.prev_s⟩
  · cases hpe : (dijkstraFinal g s e).prev e with
    | none =>
      exact ⟨[], by simp [getNodesInShortestPathOrder, hpe], Or.inl ⟨rfl, rfl⟩⟩
    | some u =>
      have hv : (dijkstraFinal g s e).visited e = true := hvis_of_prev u hpe
      obtain ⟨n, hdn, hopt⟩ := hD.vis_opt e hv
      have hM : ∀ c u2, (dijkstraFinal g s e).prev c = some u2 →
          u2 ∈ (dijkstraFinal g s e).order := by
        intro c u2 h
        obtain ⟨_, _, _, _, _, _, h5⟩ := hD.prev_dist c u2 h
        exact h5
      obtain ⟨l, hC, hlen2, _⟩ := ancChain_total hD.prevOrder hM e
      obtain ⟨hlchain, hch, hnil, hhd⟩ := dij_chain_spec hD hC hdn
      have hlne : l ≠ [] := by
        intro h0
        rw [ancChain_nil_inv hC h0] at hpe
        cases hpe
      have hflt : l.length < walkFuel g := by
        unfold walkFuel
        omega
      have hwalk := getNodes_of_ancChain hC hflt
      have henl : e ∉ l := by
        by_cases heo : e ∈ (dijkstraFinal g s e).order
        · obtain ⟨i, hget⟩ := List.mem_iff_get.mp heo
          obtain ⟨l3, hC3, _, hsub3⟩ :=
            ancChain_of_prevOrder hD.prevOrder i.1 i.2
          rw [show (⟨i.1, i.2⟩ : Fin _) = i from rfl, hget] at hC3
          have hl3 : l = l3 := ancChain_unique hC hC3
          intro hmem
          have : e ∈ (dijkstraFinal g s e).order.take i.1 :=
            hsub3 e (hl3 ▸ hmem)
          exact (hget ▸ nodup_get_not_mem_take hnodup i.1 i.2) this
        · intro hmem
          exact heo ((ancChain_mem hC hM) e hmem)
      have hlast : ∃ u2, l.getLast? = some u2 ∧ stepOK g u2 e := by
        obtain ⟨u1, hcu, hl1⟩ := ancChain_getLast hC hlne
        refine ⟨u1, hl1, ?_⟩
        obtain ⟨_, _, _, _, _, h4, _⟩ := hD.prev_dist e u1 hcu
        exact h4
      refine ⟨l, hwalk, Or.inr ⟨hlne, ?_, hhd hlne, henl, hch, hlast⟩⟩
      rw [hlchain]
      exact hopt
  · intro hnr
    cases hpe : (dijkstraFinal g s e).prev e with
    | none => rfl
    | some u =>
      obtain ⟨du, dc, _, h2, _, _, _⟩ := hD.prev_dist e u hpe
      exact absurd ⟨dc, hD.dist_sound e dc h2⟩ hnr
  · intro hr hnes
    have hv := hattain hr
    obtain ⟨n, hdn, _⟩ := hD.vis_opt e hv
    intro hpe
    exact hnes (hD.prev_none_s e n hdn hpe)

end PathVis

namespace PathVis

/-! ## A* bookkeeping invariants (reachability and structure only) -/

structure AstarInv (g : Grid) (s : Coord) (σ : AstarState) : Prop where
  nodupAll : (σ.order ++ σ.queue.map Prod.fst).Nodup
  closed_iff : ∀ c, σ.closed c = true ↔ c ∈ σ.order
  queue_dom : ∀ x ∈ σ.queue,
    inBounds g x.1 ∧ (x.1 = s ∨ isWallAt g x.1 = false)
  order_dom : ∀ c ∈ σ.order, inBounds g c ∧ (c = s ∨ isWallAt g c = false)
  order_reach : ∀ c ∈ σ.order, Reach g s c
  queue_reach : ∀ x ∈ σ.queue, Reach g s x.1
  g_s : σ.gScore s = some 0
  prev_s : σ.prev s = none
  prev_some : ∀ c u, σ.prev c = some u →
    u ∈ σ.order ∧ stepOK g u c ∧ Reach g s c
  prev_exists : ∀ c, (c ∈ σ.order ∨ c ∈ σ.queue.map Prod.fst) → c ≠ s →
    σ.prev c ≠ none
  prevOrder : PrevOrder σ.prev σ.order
  queue_g : ∀ x ∈ σ.queue, ∃ n, σ.gScore x.1 = some n
  s_first : s ∈ σ.order ∨ σ.queue.map Prod.fst = [s]

structure AstarMid (g : Grid) (s c : Coord) (σ : AstarState) : Prop where
  nodupAll : (σ.order ++ σ.queue.map Prod.fst).Nodup
  closed_iff : ∀ x, σ.closed x = true ↔ x ∈ σ.order
  queue_dom : ∀ x ∈ σ.queue,
    inBounds g x.1 ∧ (x.1 = s ∨ isWallAt g x.1 = false)
  order_dom : ∀ x ∈ σ.order, inBounds g x ∧ (x = s ∨ isWallAt g x = false)
  order_reach : ∀ x ∈ σ.order, Reach g s x
  queue_reach : ∀ x ∈ σ.queue, Reach g s x.1
  g_s : σ.gScore s = some 0
  prev_s : σ.prev s = none
  prev_some : ∀ x u, σ.prev x = some u →
    u ∈ σ.order ∧ stepOK g u x ∧ Reach g s x
  prev_exists : ∀ x, (x ∈ σ.order ∨ x ∈ σ.queue.map Prod.fst) → x ≠ s →
    σ.prev x ≠ none
  prevOrder : PrevOrder σ.prev σ.order
  queue_g : ∀ x ∈ σ.queue, ∃ n, σ.gScore x.1 = some n
  sOrder : s ∈ σ.order
  cOrder : c ∈ σ.order

/-- Measure for the A*/greedy loops. -/
def openMeasure (g : Grid) (closed : Coord → Bool) (q : PQueue) : Nat :=
  ((allCoords g).filter fun x => !closed x && !pqHasNode q x).length +
    q.length

lemma astarRelax_mid {g : Grid} {s e c : Coord} {σ : AstarState}
    {nb : Coord} (hm : AstarMid g s c σ) (hnb : nb ∈ getNeighbors g c) :
    AstarMid g s c (astarRelax g e c σ nb) ∧
      (astarRelax g e c σ nb).order = σ.order ∧
      (astarRelax g e c σ nb).closed = σ.closed ∧
      openMeasure g (astarRelax g e c σ nb).closed
          (astarRelax g e c σ nb).queue =
        openMeasure g σ.closed σ.queue := by
  by_cases hskip : σ.closed nb = true ∨ isWallAt g nb = true
  · have heq : astarRelax g e c σ nb = σ := by
      unfold astarRelax
      rcases hskip with h | h <;> simp [h]
    rw [heq]
    exact ⟨hm, rfl, rfl, rfl⟩
  · push_neg at hskip
    have hfresh : σ.closed nb = false := Bool.eq_false_iff.mpr hskip.1
    have hwall : isWallAt g nb = false := Bool.eq_false_iff.mpr hskip.2
    cases hcg : σ.gScore c with
    | none =>
      have heq : astarRelax g e c σ nb = σ := by
        unfold astarRelax
        rw [hfresh, hwall, hcg]
        simp
      rw [heq]
      exact ⟨hm, rfl, rfl, rfl⟩
    | some d =>
      by_cases himp : ltInf (d + 1) (σ.gScore nb) = true
      case neg =>
        have heq : astarRelax g e c σ nb = σ := by
          unfold astarRelax
          rw [hfresh, hwall, hcg]
          simp [himp]
        rw [heq]
        exact ⟨hm, rfl, rfl, rfl⟩
      case pos =>
        have hnbB : inBounds g nb := getNeighbors_inBounds hnb
        have hstep : stepOK g c nb := ⟨hnb, hwall⟩
        have hnbs : nb ≠ s := by
          intro he
          rw [he, hm.g_s] at himp
          simp [ltInf] at himp
        have hnbo : nb ∉ σ.order := fun h => by
          rw [(hm.closed_iff nb).mpr h] at hfresh; cases hfresh
        have hreach : Reach g s nb := by
          obtain ⟨n, hn⟩ := hm.order_reach c hm.cOrder
          exact ⟨n + 1, ReachIn.succ hn hstep⟩
        by_cases hasnb : pqHasNode σ.queue nb = true
        case pos =>
          have heq : astarRelax g e c σ nb =
              { σ with prev := setAt σ.prev nb (some c)
                       gScore := setAt σ.gScore nb (some (d + 1))
                       fScore := setAt σ.fScore nb
                         (some (d + 1 + manhattanDistance nb e)) } := by
            unfold astarRelax
            rw [hfresh, hwall, hcg]
            simp [himp, hasnb]
          rw [heq]
          refine ⟨?_, rfl, rfl, rfl⟩
          refine ⟨hm.nodupAll, hm.closed_iff, hm.queue_dom, hm.order_dom,
            hm.order_reach, hm.queue_reach, ?_, ?_, ?_, ?_, ?_, ?_,
            hm.sOrder, hm.cOrder⟩
          · simp only [setAt_ne _ _ _ (Ne.symm hnbs)]
            exact hm.g_s
          · simp only [setAt_ne _ _ _ (Ne.symm hnbs)]
            exact hm.prev_s
          · intro x u hx
            by_cases hxn : x = nb
            · subst hxn
              simp only [setAt_eq] at hx
              injection hx with hx
              subst hx
              exact ⟨hm.cOrder, hstep, hreach⟩
            · simp only [setAt_ne _ _ _ hxn] at hx
              exact hm.prev_some x u hx
          · intro x hx hxs
            by_cases hxn : x = nb
            · subst hxn
              simp [setAt]
            · simp only [setAt_ne _ _ _ hxn]
              exact hm.prev_exists x hx hxs
          · intro i hi u hu
            have hne : σ.order.get ⟨i, hi⟩ ≠ nb := by
              intro h
              exact hnbo (h ▸ List.get_mem σ.order i hi)
            simp only [setAt_ne _ _ _ hne] at hu
            exact hm.prevOrder i hi u hu
          · intro x hx
            by_cases hxn : x.1 = nb
            · exact ⟨d + 1, by rw [hxn]; simp [setAt]⟩
            · simp only [setAt_ne _ _ _ hxn]
              exact hm.queue_g x hx
        case neg =>
          have hnin : nb ∉ σ.queue.map Prod.fst := fun h =>
            hasnb (pqHasNode_mem.mpr h)
          have heq : astarRelax g e c σ nb =
              { σ with prev := setAt σ.prev nb (some c)
                       gScore := setAt σ.gScore nb (some (d + 1))
                       fScore := setAt σ.fScore nb
                         (some (d + 1 + manhattanDistance nb e))
                       queue := pqEnqueue σ.queue nb
                         (d + 1 + manhattanDistance nb e) } := by
            unfold astarRelax
            rw [hfresh, hwall, hcg]
            simp [himp, hasnb]
          have hperm := (pqEnqueue_perm σ.queue nb
            (d + 1 + manhattanDistance nb e)).map Prod.fst
          have hmemq : ∀ x, x ∈ pqEnqueue σ.queue nb
              (d + 1 + manhattanDistance nb e) ↔
              x = (nb, d + 1 + manhattanDistance nb e) ∨ x ∈ σ.queue :=
            fun x => mem_pqEnqueue
          rw [heq]
          refine ⟨?_, rfl, rfl, ?_⟩
          · refine ⟨?_, hm.closed_iff, ?_, hm.order_dom,
              hm.order_reach, ?_, ?_, ?_, ?_, ?_, ?_, ?_,
              hm.sOrder, hm.cOrder⟩
            · rw [List.nodup_append]
              have hold := List.nodup_append.mp hm.nodupAll
              refine ⟨hold.1, hperm.symm.nodup ?_, ?_⟩
              · rw [List.map_cons]
                exact List.nodup_cons.mpr ⟨hnin, hold.2.1⟩
              · intro a ha hb
                have := hperm.mem_iff.mp hb
                rw [List.map_cons, List.mem_cons] at this
                rcases this with h | h
                · subst h; exact hnbo ha
                · exact hold.2.2 ha h
            · intro x hx
              rcases (hmemq x).mp hx with h | h
              · subst h; exact ⟨hnbB, Or.inr hwall⟩
              · exact hm.queue_dom x h
            · intro x hx
              rcases (hmemq x).mp hx with h | h
              · subst h; exact hreach
              · exact hm.queue_reach x h
            · simp only [setAt_ne _ _ _ (Ne.symm hnbs)]
              exact hm.g_s
            · simp only [setAt_ne _ _ _ (Ne.symm hnbs)]
              exact hm.prev_s
            · intro x u hx
              by_cases hxn : x = nb
              · subst hxn
                simp only [setAt_eq] at hx
                injection hx with hx
                subst hx
                exact ⟨hm.cOrder, hstep, hreach⟩
              · simp only [setAt_ne _ _ _ hxn] at hx
                exact hm.prev_some x u hx
            · intro x hx hxs
              by_cases hxn : x = nb
              · subst hxn
                simp [setAt]
              · simp only [setAt_ne _ _ _ hxn]
                refine hm.prev_exists x ?_ hxs
                rcases hx with h | h
                · exact Or.inl h
                · rw [hperm.mem_iff, List.map_cons, List.mem_cons] at h
                  rcases h with h | h
                  · exact absurd h hxn
                  · exact Or.inr h
            · intro i hi u hu
              have hne : σ.order.get ⟨i, hi⟩ ≠ nb := by
                intro h
                exact hnbo (h ▸ List.get_mem σ.order i hi)
              simp only [setAt_ne _ _ _ hne] at hu
              exact hm.prevOrder i hi u hu
            · intro x hx
              by_cases hxn : x.1 = nb
              · exact ⟨d + 1, by rw [hxn]; simp [setAt]⟩
              · simp only [setAt_ne _ _ _ hxn]
                rcases (hmemq x).mp hx with h | h
                · exact absurd (by rw [h]) hxn
                · exact hm.queue_g x h
          · unfold openMeasure
            dsimp only
            have hcnt : ((allCoords g).filter fun x =>
                !σ.closed x && !pqHasNode (pqEnqueue σ.queue nb
                  (d + 1 + manhattanDistance nb e)) x).length + 1 =
                ((allCoords g).filter fun x =>
                !σ.closed x && !pqHasNode σ.queue x).length := by
              rw [← List.countP_eq_length_filter,
                ← List.countP_eq_length_filter]
              apply countP_flip_at (b := nb)
              · rw [hfresh]
                have : pqHasNode σ.queue nb = false :=
                  Bool.eq_false_iff.mpr hasnb
                rw [this]
                rfl
              · have : pqHasNode (pqEnqueue σ.queue nb
                    (d + 1 + manhattanDistance nb e)) nb = true := by
                  rw [pqHasNode_mem, hperm.mem_iff, List.map_cons]
                  simp
                rw [this]
                simp
              · exact nodup_allCoords g
              · exact mem_allCoords.mpr hnbB
              · intro x _ hxn
                have : pqHasNode (pqEnqueue σ.queue nb
                    (d + 1 + manhattanDistance nb e)) x =
                    pqHasNode σ.queue x := by
                  apply bool_eq_of_iff
                  rw [pqHasNode_mem, pqHasNode_mem, hperm.mem_iff,
                    List.map_cons, List.mem_cons]
                  constructor
                  · rintro (h | h)
                    · exact absurd h hxn
                    · exact h
                  · exact fun h => Or.inr h
                rw [this]
            have hlen : (pqEnqueue σ.queue nb
                (d + 1 + manhattanDistance nb e)).length =
                σ.queue.length + 1 := by
              rw [(pqEnqueue_perm _ _ _).length_eq]
              simp
            omega

end PathVis

namespace PathVis

lemma astarRelax_fold {g : Grid} {s e c : Coord} :
    ∀ (nbs : List Coord) {σ : AstarState}, AstarMid g s c σ →
      (∀ nb ∈ nbs, nb ∈ getNeighbors g c) →
      AstarMid g s c (nbs.foldl (astarRelax g e c) σ) ∧
        (nbs.foldl (astarRelax g e c) σ).order = σ.order ∧
        (nbs.foldl (astarRelax g e c) σ).closed = σ.closed ∧
        openMeasure g (nbs.foldl (astarRelax g e c) σ).closed
            (nbs.foldl (astarRelax g e c) σ).queue =
          openMeasure g σ.closed σ.queue := by
  intro nbs
  induction nbs with
  | nil =>
    intro σ hm _
    exact ⟨hm, rfl, rfl, rfl⟩
  | cons a t ih =>
    intro σ hm hmem
    have ha : a ∈ getNeighbors g c := hmem a (by simp)
    obtain ⟨hm1, hord1, hcl1, hms1⟩ := astarRelax_mid hm ha
    obtain ⟨hm2, hord2, hcl2, hms2⟩ :=
      ih hm1 fun nb hnb => hmem nb (by simp [hnb])
    refine ⟨hm2, ?_, ?_, ?_⟩
    · show (t.foldl (astarRelax g e c) (astarRelax g e c σ a)).order = σ.order
      rw [hord2, hord1]
    · show (t.foldl (astarRelax g e c) (astarRelax g e c σ a)).closed =
        σ.closed
      rw [hcl2, hcl1]
    · show openMeasure g
        (t.foldl (astarRelax g e c) (astarRelax g e c σ a)).closed
        (t.foldl (astarRelax g e c) (astarRelax g e c σ a)).queue =
        openMeasure g σ.closed σ.queue
      rw [hms2, hms1]

lemma astarInv_pop {g : Grid} {s : Coord} {σ : AstarState} {c : Coord}
    {p : Nat} {rest : PQueue} (hI : AstarInv g s σ)
    (hq : σ.queue = (c, p) :: rest) :
    AstarMid g s c
      { σ with queue := rest, closed := setAt σ.closed c true,
               order := σ.order ++ [c] } := by
  have hcq : (c, p) ∈ σ.queue := by rw [hq]; simp
  have hcm : c ∈ σ.queue.map Prod.fst := by
    rw [hq, List.map_cons]; simp
  have hnd := List.nodup_append.mp hI.nodupAll
  have hco : c ∉ σ.order := fun h => hnd.2.2 h hcm
  have hsOrd : s ∈ σ.order ++ [c] := by
    rcases hI.s_first with h | h
    · exact List.mem_append.mpr (Or.inl h)
    · rw [hq, List.map_cons] at h
      have hcs : c = s := by
        have := congrArg List.head? h
        simpa using this
      rw [← hcs]
      simp
  refine ⟨?_, ?_, ?_, ?_, ?_, ?_, hI.g_s, hI.prev_s, ?_, ?_, ?_, ?_,
    hsOrd, by simp⟩
  · show (σ.order ++ [c] ++ rest.map Prod.fst).Nodup
    have heq : σ.order ++ [c] ++ rest.map Prod.fst =
        σ.order ++ σ.queue.map Prod.fst := by
      rw [hq, List.map_cons, List.append_assoc]
      rfl
    rw [heq]
    exact hI.nodupAll
  · intro x
    by_cases hxc : x = c
    · subst hxc
      simp [setAt]
    · simp only [setAt_ne _ _ _ hxc]
      rw [hI.closed_iff x, List.mem_append]
      constructor
      · exact fun h => Or.inl h
      · rintro (h | h)
        · exact h
        · simp at h
          exact absurd h hxc
  · intro x hx
    exact hI.queue_dom x (by rw [hq]; simp [hx])
  · intro x hx
    rcases List.mem_append.mp hx with h | h
    · exact hI.order_dom x h
    · simp at h
      subst h
      exact hI.queue_dom _ hcq
  · intro x hx
    rcases List.mem_append.mp hx with h | h
    · exact hI.order_reach x h
    · simp at h
      subst h
      exact hI.queue_reach _ hcq
  · intro x hx
    exact hI.queue_reach x (by rw [hq]; simp [hx])
  · intro x u hx
    obtain ⟨h1, h2, h3⟩ := hI.prev_some x u hx
    exact ⟨List.mem_append.mpr (Or.inl h1), h2, h3⟩
  · intro x hx hxs
    refine hI.prev_exists x ?_ hxs
    rcases hx with h | h
    · rcases List.mem_append.mp h with h | h
      · exact Or.inl h
      · simp at h
        subst h
        exact Or.inr hcm
    · refine Or.inr ?_
      rw [hq, List.map_cons]
      simp [h]
  · refine prevOrder_append hI.prevOrder ?_
    intro u hu
    exact (hI.prev_some c u hu).1
  · intro x hx
    exact hI.queue_g x (by rw [hq]; simp [hx])

lemma astarMid_inv {g : Grid} {s c : Coord} {σ : AstarState}
    (hm : AstarMid g s c σ) : AstarInv g s σ :=
  ⟨hm.nodupAll, hm.closed_iff, hm.queue_dom, hm.order_dom, hm.order_reach,
   hm.queue_reach, hm.g_s, hm.prev_s, hm.prev_some, hm.prev_exists,
   hm.prevOrder, hm.queue_g, Or.inl hm.sOrder⟩

lemma open_pop_measure {g : Grid} {d : Coord → Bool} {c : Coord}
    {p : Nat} {r : PQueue} :
    openMeasure g (setAt d c true) r + 1 =
      openMeasure g d ((c, p) :: r) := by
  unfold openMeasure
  have hcnt : ((allCoords g).filter fun x =>
      !(setAt d c true) x && !pqHasNode r x).length =
      ((allCoords g).filter fun x =>
      !d x && !pqHasNode ((c, p) :: r) x).length := by
    rw [← List.countP_eq_length_filter, ← List.countP_eq_length_filter]
    apply countP_agree
    intro x _
    by_cases hxc : x = c
    · subst hxc
      have h1 : (setAt d x true) x = true := by simp [setAt]
      have h2 : pqHasNode ((x, p) :: r) x = true := by
        rw [pqHasNode_mem, List.map_cons]
        simp
      rw [h1, h2]
      simp
    · have h1 : (setAt d c true) x = d x := setAt_ne _ _ _ hxc
      have h2 : pqHasNode ((c, p) :: r) x = pqHasNode r x := by
        apply bool_eq_of_iff
        rw [pqHasNode_mem, pqHasNode_mem, List.map_cons, List.mem_cons]
        constructor
        · rintro (h | h)
          · exact absurd h hxc
          · exact h
        · exact fun h => Or.inr h
      rw [h1, h2]
  rw [hcnt]
  simp only [List.length_cons]
  omega

end PathVis

namespace PathVis

/-- What holds of the state in which the `astar` loop terminates. -/
structure AstarDone (g : Grid) (s e : Coord) (σ : AstarState) : Prop where
  nodupOrder : σ.order.Nodup
  order_dom : ∀ c ∈ σ.order, inBounds g c ∧ (c = s ∨ isWallAt g c = false)
  order_reach : ∀ c ∈ σ.order, Reach g s c
  prev_s : σ.prev s = none
  prev_some : ∀ c u, σ.prev c = some u →
    u ∈ σ.order ∧ stepOK g u c ∧ Reach g s c
  order_prev : ∀ c ∈ σ.order, c ≠ s → σ.prev c ≠ none
  prevOrder : PrevOrder σ.prev σ.order
  s_in : s ∈ σ.order

theorem astarLoop_done (g : Grid) (s e : Coord) :
    ∀ (fuel : Nat) (σ : AstarState), AstarInv g s σ →
      openMeasure g σ.closed σ.queue < fuel →
      AstarDone g s e (astarLoop g e fuel σ) := by
  intro fuel
  induction fuel with
  | zero =>
    intro σ _ h
    omega
  | succ f ih =>
    intro σ hI hm
    have hmkDone : ∀ (τ : AstarState), AstarInv g s τ → s ∈ τ.order →
        AstarDone g s e τ := by
      intro τ hJ hsin
      exact ⟨(List.nodup_append.mp hJ.nodupAll).1, hJ.order_dom,
        hJ.order_reach, hJ.prev_s, hJ.prev_some,
        fun c hc => hJ.prev_exists c (Or.inl hc), hJ.prevOrder, hsin⟩
    cases hq : σ.queue with
    | nil =>
      have heval : astarLoop g e (f + 1) σ = σ := by
        conv_lhs => rw [astarLoop.eq_def]
        simp [hq]
      rw [heval]
      refine hmkDone σ hI ?_
      rcases hI.s_first with h | h
      · exact h
      · rw [hq] at h
        simp at h
    | cons x rest =>
      obtain ⟨c, p⟩ := x
      have hmid := astarInv_pop hI hq
      by_cases hce : c = e
      · have heval : astarLoop g e (f + 1) σ =
            { σ with queue := rest, order := σ.order ++ [c] } := by
          conv_lhs => rw [astarLoop.eq_def]
          simp [hq]
          intro h
          exact absurd hce h
        rw [heval]
        have hsOrd : s ∈ σ.order ++ [c] := hmid.sOrder
        have hcq : (c, p) ∈ σ.queue := by rw [hq]; simp
        have hcm : c ∈ σ.queue.map Prod.fst := by
          rw [hq, List.map_cons]; simp
        have hnd := List.nodup_append.mp hI.nodupAll
        have hco : c ∉ σ.order := fun h => hnd.2.2 h hcm
        refine ⟨?_, ?_, ?_, hI.prev_s, ?_, ?_, ?_, hsOrd⟩
        · show (σ.order ++ [c]).Nodup
          rw [List.nodup_append]
          exact ⟨hnd.1, List.nodup_singleton c, by
            intro a ha hb
            simp at hb
            subst hb
            exact hco ha⟩
        · intro x hx
          rcases List.mem_append.mp hx with h | h
          · exact hI.order_dom x h
          · simp at h
            subst h
            exact hI.queue_dom _ hcq
        · intro x hx
          rcases List.mem_append.mp hx with h | h
          · exact hI.order_reach x h
          · simp at h
            subst h
            exact hI.queue_reach _ hcq
        · intro x u hx
          obtain ⟨h1, h2, h3⟩ := hI.prev_some x u hx
          exact ⟨List.mem_append.mpr (Or.inl h1), h2, h3⟩
        · intro x hx hxs
          refine hI.prev_exists x ?_ hxs
          rcases List.mem_append.mp hx with h | h
          · exact Or.inl h
          · simp at h
            subst h
            exact Or.inr hcm
        · refine prevOrder_append hI.prevOrder ?_
          intro u hu
          exact (hI.prev_some c u hu).1
      · have heval : astarLoop g e (f + 1) σ =
            astarLoop g e f ((getNeighbors g c).foldl (astarRelax g e c)
              { σ with queue := rest, closed := setAt σ.closed c true,
                       order := σ.order ++ [c] }) := by
          conv_lhs => rw [astarLoop.eq_def]
          simp [hq]
          intro h
          exact absurd h hce
        rw [heval]
        obtain ⟨hm2, _, _, hms2⟩ :=
          astarRelax_fold (getNeighbors g c) hmid fun nb h => h
        apply ih _ (astarMid_inv hm2)
        rw [hms2]
        have hdec := open_pop_measure (g := g) (d := σ.closed)
          (c := c) (p := p) (r := rest)
        rw [← hq] at hdec
        dsimp only
        omega

end PathVis

namespace PathVis

/-- From local predecessor facts (each predecessor is an already-expanded
node reached by an admissible step, and every expanded node other than the
start has a predecessor), every ancestor chain is an admissible path that
starts at `s` when non-trivial. -/
lemma ancChain_path_facts {g : Grid} {prev : Coord → Option Coord}
    {s : Coord} {order : List Coord}
    (hsome : ∀ x u, prev x = some u → u ∈ order ∧ stepOK g u x)
    (hex : ∀ c ∈ order, c ≠ s → prev c ≠ none) :
    ∀ {x : Coord} {l : List Coord}, AncChain prev x l →
      List.Chain' (stepOK g) (l ++ [x]) ∧ (l ≠ [] → l.head? = some s) := by
  intro x l hC
  induction hC with
  | nil h0 =>
    exact ⟨List.chain'_singleton _, by simp⟩
  | cons hc hu ih =>
    rename_i x1 u1 l1
    obtain ⟨ihch, ihhd⟩ := ih
    refine ⟨?_, ?_⟩
    · rw [List.chain'_append]
      refine ⟨ihch, List.chain'_singleton _, ?_⟩
      intro a ha b hb
      simp at hb
      subst hb
      rw [List.getLast?_concat] at ha
      simp at ha
      subst ha
      exact (hsome x1 u1 hc).2
    · intro _
      cases hl1 : l1 with
      | nil =>
        have hpu : prev u1 = none := ancChain_nil_inv (hl1 ▸ hu) rfl
        have hus : u1 = s := by
          by_contra hne
          exact hex u1 (hsome x1 u1 hc).1 hne hpu
        simp [hl1, hus]
      | cons a t =>
        have := ihhd (by simp [hl1])
        rw [hl1] at this
        simp at this ⊢
        exact this

lemma astarInv_init {g : Grid} {s e : Coord} (hs : inBounds g s) :
    AstarInv g s (astarInit s e) := by
  have hq : (astarInit s e).queue = [(s, manhattanDistance s e)] := rfl
  refine ⟨?_, ?_, ?_, ?_, ?_, ?_, ?_, ?_, ?_, ?_, ?_, ?_, ?_⟩
  · rw [show (astarInit s e).order = [] from rfl, hq]
    simp
  · intro c
    simp [astarInit]
  · intro x hx
    rw [hq] at hx
    simp at hx
    subst hx
    exact ⟨hs, Or.inl rfl⟩
  · intro c hc
    simp [astarInit] at hc
  · intro c hc
    simp [astarInit] at hc
  · intro x hx
    rw [hq] at hx
    simp at hx
    subst hx
    exact ⟨0, ReachIn.zero⟩
  · show setAt (fun _ => none) s (some 0) s = some 0
    simp [setAt]
  · rfl
  · intro c u hc
    cases hc
  · intro x hx hxs
    rcases hx with h | h
    · simp [astarInit] at h
    · rw [hq, List.map_cons] at h
      simp at h
      exact absurd h hxs
  · intro i hi
    simp [astarInit] at hi
  · intro x hx
    rw [hq] at hx
    simp at hx
    subst hx
    exact ⟨0, by simp [astarInit, setAt]⟩
  · refine Or.inr ?_
    rw [hq]
    simp

theorem astar_done (g : Grid) (s e : Coord) (hs : inBounds g s) :
    AstarDone g s e (astarFinal g s e) := by
  apply astarLoop_done g s e _ _ (astarInv_init hs)
  unfold openMeasure
  have hcnt : ((allCoords g).filter fun x =>
      !(astarInit s e).closed x &&
        !pqHasNode (astarInit s e).queue x).length + 1 =
      rowsOf g * colsOf g := by
    rw [← List.countP_eq_length_filter]
    have := countP_flip_at (L := allCoords g)
      (p := fun _ => true)
      (q := fun x => !(astarInit s e).closed x &&
        !pqHasNode (astarInit s e).queue x) (b := s)
      rfl
      (by
        have h1 : (astarInit s e).closed s = false := rfl
        have h2 : pqHasNode (astarInit s e).queue s = true := by
          rw [pqHasNode_mem]
          show s ∈ [(s, manhattanDistance s e)].map Prod.fst
          simp
        simp [h1, h2])
      (nodup_allCoords g) (mem_allCoords.mpr hs)
      (by
        intro x _ hxs
        have h1 : (astarInit s e).closed x = false := rfl
        have h2 : pqHasNode (astarInit s e).queue x = false := by
          apply Bool.eq_false_iff.mpr
          intro hmem
          rw [pqHasNode_mem] at hmem
          rw [show (astarInit s e).queue =
            [(s, manhattanDistance s e)] from rfl] at hmem
          simp at hmem
          exact hxs hmem
        simp [h1, h2])
    rw [this]
    rw [List.countP_true, length_allCoords]
  have hlen : (astarInit s e).queue.length = 1 := rfl
  rw [hlen]
  omega

/-- Consolidated facts about a finished `astar` run. -/
theorem astar_run_spec (g : Grid) (s e : Coord) (hs : inBounds g s) :
    ((astarFinal g s e).order.Nodup ∧ (astarFinal g s e).order ≠ [] ∧
      (∀ c ∈ (astarFinal g s e).order, inBounds g c ∧ Reach g s c) ∧
      (astarFinal g s e).order.length ≤ rowsOf g * colsOf g) ∧
    (∃ l, getNodesInShortestPathOrder (astarFinal g s e).prev e
        (walkFuel g) = some l ∧
      (((astarFinal g s e).prev e = none ∧ l = []) ∨
        (l ≠ [] ∧ l.head? = some s ∧ e ∉ l ∧
          List.Chain' (stepOK g) (l ++ [e]) ∧
          ∃ u, l.getLast? = some u ∧ stepOK g u e))) ∧
    ((¬Reach g s e → (astarFinal g s e).prev e = none) ∧
      (astarFinal g s e).prev s = none) := by
  have hD := astar_done g s e hs
  have hnodup := hD.nodupOrder
  have hdom : ∀ c ∈ (astarFinal g s e).order, inBounds g c ∧ Reach g s c :=
    fun c hc => ⟨(hD.order_dom c hc).1, hD.order_reach c hc⟩
  have hlenb : (astarFinal g s e).order.length ≤ rowsOf g * colsOf g :=
    nodup_inBounds_length_le hnodup fun c hc => (hdom c hc).1
  have hne : (astarFinal g s e).order ≠ [] := by
    intro h0
    have hsi := hD.s_in
    rw [h0] at hsi
    simp at hsi
  have hM : ∀ c u2, (astarFinal g s e).prev c = some u2 →
      u2 ∈ (astarFinal g s e).order :=
    fun c u2 h => (hD.prev_some c u2 h).1
  have hsomeStep : ∀ x u, (astarFinal g s e).prev x = some u →
      u ∈ (astarFinal g s e).order ∧ stepOK g u x :=
    fun x u h => ⟨(hD.prev_some x u h).1, (hD.prev_some x u h).2.1⟩
  refine ⟨⟨hnodup, hne, hdom, hlenb⟩, ?_, ?_, hD.prev_s⟩
  · obtain ⟨l, hC, hlen, _⟩ := ancChain_total hD.prevOrder hM e
    have hflt : l.length < walkFuel g := by
      unfold walkFuel
      omega
    have hwalk := getNodes_of_ancChain hC hflt
    cases hpe : (astarFinal g s e).prev e with
    | none =>
      have hl0 : l = [] := by
        cases hC with
        | nil h0 => rfl
        | cons hc hu => rw [hpe] at hc; cases hc
      exact ⟨l, hwalk, Or.inl ⟨rfl, hl0⟩⟩
    | some u =>
      have hlne : l ≠ [] := by
        intro h0
        rw [ancChain_nil_inv hC h0] at hpe
        cases hpe
      obtain ⟨hCh, hH⟩ := ancChain_path_facts hsomeStep
        (fun c hc hcs => hD.order_prev c hc hcs) hC
      have henl : e ∉ l := by
        by_cases heo : e ∈ (astarFinal g s e).order
        · obtain ⟨i, hget⟩ := List.mem_iff_get.mp heo
          obtain ⟨l3, hC3, _, hsub3⟩ :=
            ancChain_of_prevOrder hD.prevOrder i.1 i.2
          rw [show (⟨i.1, i.2⟩ : Fin _) = i from rfl, hget] at hC3
          have hl3 : l = l3 := ancChain_unique hC hC3
          intro hmem
          have : e ∈ (astarFinal g s e).order.take i.1 :=
            hsub3 e (hl3 ▸ hmem)
          exact (hget ▸ nodup_get_not_mem_take hnodup i.1 i.2) this
        · intro hmem
          exact heo ((ancChain_mem hC fun x u2 hx =>
            (hD.prev_some x u2 hx).1) e hmem)
      have hlast : ∃ u2, l.getLast? = some u2 ∧ stepOK g u2 e := by
        cases hC with
        | nil h => rw [h] at hpe; cases hpe
        | cons hc hu2 =>
          rename_i u1 l1 hsubx
          refine ⟨u1, List.getLast?_concat _, ?_⟩
          exact (hD.prev_some e u1 hc).2.1
      exact ⟨l, hwalk, Or.inr ⟨hlne, hH hlne, henl, hCh, hlast⟩⟩
  · intro hnr
    cases hpe : (astarFinal g s e).prev e with
    | none => rfl
    | some u =>
      exact absurd (hD.prev_some e u hpe).2.2 hnr

end PathVis

namespace PathVis

/-! ## Greedy best-first bookkeeping invariants -/

structure GreedyInv (g : Grid) (s : Coord) (σ : GreedyState) : Prop where
  nodupAll : (σ.order ++ σ.queue.map Prod.fst).Nodup
  closed_iff : ∀ c, σ.closed c = true ↔ c ∈ σ.order
  queue_dom : ∀ x ∈ σ.queue,
    inBounds g x.1 ∧ (x.1 = s ∨ isWallAt g x.1 = false)
  order_dom : ∀ c ∈ σ.order, inBounds g c ∧ (c = s ∨ isWallAt g c = false)
  order_reach : ∀ c ∈ σ.order, Reach g s c
  queue_reach : ∀ x ∈ σ.queue, Reach g s x.1
  prev_s : σ.prev s = none
  prev_some : ∀ c u, σ.prev c = some u →
    u ∈ σ.order ∧ stepOK g u c ∧ Reach g s c
  prev_exists : ∀ c, (c ∈ σ.order ∨ c ∈ σ.queue.map Prod.fst) → c ≠ s →
    σ.prev c ≠ none
  prevOrder : PrevOrder σ.prev σ.order
  s_first : s ∈ σ.order ∨ σ.queue.map Prod.fst = [s]

structure GreedyMid (g : Grid) (s c : Coord) (σ : GreedyState) : Prop where
  nodupAll : (σ.order ++ σ.queue.map Prod.fst).Nodup
  closed_iff : ∀ x, σ.closed x = true ↔ x ∈ σ.order
  queue_dom : ∀ x ∈ σ.queue,
    inBounds g x.1 ∧ (x.1 = s ∨ isWallAt g x.1 = false)
  order_dom : ∀ x ∈ σ.order, inBounds g x ∧ (x = s ∨ isWallAt g x = false)
  order_reach : ∀ x ∈ σ.order, Reach g s x
  queue_reach : ∀ x ∈ σ.queue, Reach g s x.1
  prev_s : σ.prev s = none
  prev_some : ∀ x u, σ.prev x = some u →
    u ∈ σ.order ∧ stepOK g u x ∧ Reach g s x
  prev_exists : ∀ x, (x ∈ σ.order ∨ x ∈ σ.queue.map Prod.fst) → x ≠ s →
    σ.prev x ≠ none
  prevOrder : PrevOrder σ.prev σ.order
  sOrder : s ∈ σ.order
  cOrder : c ∈ σ.order

lemma greedyRelax_mid {g : Grid} {s e c : Coord} {σ : GreedyState}
    {nb : Coord} (hm : GreedyMid g s c σ) (hnb : nb ∈ getNeighbors g c) :
    GreedyMid g s c (greedyRelax g e c σ nb) ∧
      (greedyRelax g e c σ nb).order = σ.order ∧
      (greedyRelax g e c σ nb).closed = σ.closed ∧
      openMeasure g (greedyRelax g e c σ nb).closed
          (greedyRelax g e c σ nb).queue =
        openMeasure g σ.closed σ.queue := by
  by_cases hskip : σ.closed nb = true ∨ isWallAt g nb = true
  · have heq : greedyRelax g e c σ nb = σ := by
      unfold greedyRelax
      rcases hskip with h | h <;> simp [h]
    rw [heq]
    exact ⟨hm, rfl, rfl, rfl⟩
  · push_neg at hskip
    have hfresh : σ.closed nb = false := Bool.eq_false_iff.mpr hskip.1
    have hwall : isWallAt g nb = false := Bool.eq_false_iff.mpr hskip.2
    have hnbB : inBounds g nb := getNeighbors_inBounds hnb
    have hstep : stepOK g c nb := ⟨hnb, hwall⟩
    have hnbs : nb ≠ s := by
      intro he
      rw [he, (hm.closed_iff s).mpr hm.sOrder] at hfresh
      cases hfresh
    have hnbo : nb ∉ σ.order := fun h => by
      rw [(hm.closed_iff nb).mpr h] at hfresh; cases hfresh
    have hreach : Reach g s nb := by
      obtain ⟨n, hn⟩ := hm.order_reach c hm.cOrder
      exact ⟨n + 1, ReachIn.succ hn hstep⟩
    by_cases hasnb : pqHasNode σ.queue nb = true
    case pos =>
      have heq : greedyRelax g e c σ nb =
          { σ with prev := setAt σ.prev nb (some c) } := by
        unfold greedyRelax
        rw [hfresh, hwall]
        simp [hasnb]
      rw [heq]
      refine ⟨?_, rfl, rfl, rfl⟩
      refine ⟨hm.nodupAll, hm.closed_iff, hm.queue_dom, hm.order_dom,
        hm.order_reach, hm.queue_reach, ?_, ?_, ?_, ?_,
        hm.sOrder, hm.cOrder⟩
      · simp only [setAt_ne _ _ _ (Ne.symm hnbs)]
        exact hm.prev_s
      · intro x u hx
        by_cases hxn : x = nb
        · subst hxn
          simp only [setAt_eq] at hx
          injection hx with hx
          subst hx
          exact ⟨hm.cOrder, hstep, hreach⟩
        · simp only [setAt_ne _ _ _ hxn] at hx
          exact hm.prev_some x u hx
      · intro x hx hxs
        by_cases hxn : x = nb
        · subst hxn
          simp [setAt]
        · simp only [setAt_ne _ _ _ hxn]
          exact hm.prev_exists x hx hxs
      · intro i hi u hu
        have hne : σ.order.get ⟨i, hi⟩ ≠ nb := by
          intro h
          exact hnbo (h ▸ List.get_mem σ.order i hi)
        simp only [setAt_ne _ _ _ hne] at hu
        exact hm.prevOrder i hi u hu
    case neg =>
      have hnin : nb ∉ σ.queue.map Prod.fst := fun h =>
        hasnb (pqHasNode_mem.mpr h)
      have heq : greedyRelax g e c σ nb =
          { σ with prev := setAt σ.prev nb (some c)
                   queue := pqEnqueue σ.queue nb
                     (manhattanDistance nb e) } := by
        unfold greedyRelax
        rw [hfresh, hwall]
        simp [hasnb]
      have hperm := (pqEnqueue_perm σ.queue nb
        (manhattanDistance nb e)).map Prod.fst
      have hmemq : ∀ x, x ∈ pqEnqueue σ.queue nb
          (manhattanDistance nb e) ↔
          x = (nb, manhattanDistance nb e) ∨ x ∈ σ.queue :=
        fun x => mem_pqEnqueue
      rw [heq]
      refine ⟨?_, rfl, rfl, ?_⟩
      · refine ⟨?_, hm.closed_iff, ?_, hm.order_dom,
          hm.order_reach, ?_, ?_, ?_, ?_, ?_, hm.sOrder, hm.cOrder⟩
        · rw [List.nodup_append]
          have hold := List.nodup_append.mp hm.nodupAll
          refine ⟨hold.1, hperm.symm.nodup ?_, ?_⟩
          · rw [List.map_cons]
            exact List.nodup_cons.mpr ⟨hnin, hold.2.1⟩
          · intro a ha hb
            have := hperm.mem_iff.mp hb
            rw [List.map_cons, List.mem_cons] at this
            rcases this with h | h
            · subst h; exact hnbo ha
            · exact hold.2.2 ha h
        · intro x hx
          rcases (hmemq x).mp hx with h | h
          · subst h; exact ⟨hnbB, Or.inr hwall⟩
          · exact hm.queue_dom x h
        · intro x hx
          rcases (hmemq x).mp hx with h | h
          · subst h; exact hreach
          · exact hm.queue_reach x h
        · simp only [setAt_ne _ _ _ (Ne.symm hnbs)]
          exact hm.prev_s
        · intro x u hx
          by_cases hxn : x = nb
          · subst hxn
            simp only [setAt_eq] at hx
            injection hx with hx
            subst hx
            exact ⟨hm.cOrder, hstep, hreach⟩
          · simp only [setAt_ne _ _ _ hxn] at hx
            exact hm.prev_some x u hx
        · intro x hx hxs
          by_cases hxn : x = nb
          · subst hxn
            simp [setAt]
          · simp only [setAt_ne _ _ _ hxn]
            refine hm.prev_exists x ?_ hxs
            rcases hx with h | h
            · exact Or.inl h
            · rw [hperm.mem_iff, List.map_cons, List.mem_cons] at h
              rcases h with h | h
              · exact absurd h hxn
              · exact Or.inr h
        · intro i hi u hu
          have hne : σ.order.get ⟨i, hi⟩ ≠ nb := by
            intro h
            exact hnbo (h ▸ List.get_mem σ.order i hi)
          simp only [setAt_ne _ _ _ hne] at hu
          exact hm.prevOrder i hi u hu
      · unfold openMeasure
        dsimp only
        have hcnt : ((allCoords g).filter fun x =>
            !σ.closed x && !pqHasNode (pqEnqueue σ.queue nb
              (manhattanDistance nb e)) x).length + 1 =
            ((allCoords g).filter fun x =>
            !σ.closed x && !pqHasNode σ.queue x).length := by
          rw [← List.countP_eq_length_filter,
            ← List.countP_eq_length_filter]
          apply countP_flip_at (b := nb)
          · rw [hfresh]
            have : pqHasNode σ.queue nb = false :=
              Bool.eq_false_iff.mpr hasnb
            rw [this]
            rfl
          · have : pqHasNode (pqEnqueue σ.queue nb
                (manhattanDistance nb e)) nb = true := by
              rw [pqHasNode_mem, hperm.mem_iff, List.map_cons]
              simp
            rw [this]
            simp
          · exact nodup_allCoords g
          · exact mem_allCoords.mpr hnbB
          · intro x _ hxn
            have : pqHasNode (pqEnqueue σ.queue nb
                (manhattanDistance nb e)) x = pqHasNode σ.queue x := by
              apply bool_eq_of_iff
              rw [pqHasNode_mem, pqHasNode_mem, hperm.mem_iff,
                List.map_cons, List.mem_cons]
              constructor
              · rintro (h | h)
                · exact absurd h hxn
                · exact h
              · exact fun h => Or.inr h
            rw [this]
        have hlen : (pqEnqueue σ.queue nb
            (manhattanDistance nb e)).length = σ.queue.length + 1 := by
          rw [(pqEnqueue_perm _ _ _).length_eq]
          simp
        omega

end PathVis

namespace PathVis

lemma greedyRelax_fold {g : Grid} {s e c : Coord} :
    ∀ (nbs : List Coord) {σ : GreedyState}, GreedyMid g s c σ →
      (∀ nb ∈ nbs, nb ∈ getNeighbors g c) →
      GreedyMid g s c (nbs.foldl (greedyRelax g e c) σ) ∧
        (nbs.foldl (greedyRelax g e c) σ).order = σ.order ∧
        (nbs.foldl (greedyRelax g e c) σ).closed = σ.closed ∧
        openMeasure g (nbs.foldl (greedyRelax g e c) σ).closed
            (nbs.foldl (greedyRelax g e c) σ).queue =
          openMeasure g σ.closed σ.queue := by
  intro nbs
  induction nbs with
  | nil =>
    intro σ hm _
    exact ⟨hm, rfl, rfl, rfl⟩
  | cons a t ih =>
    intro σ hm hmem
    have ha : a ∈ getNeighbors g c := hmem a (by simp)
    obtain ⟨hm1, hord1, hcl1, hms1⟩ := greedyRelax_mid hm ha
    obtain ⟨hm2, hord2, hcl2, hms2⟩ :=
      ih hm1 fun nb hnb => hmem nb (by simp [hnb])
    refine ⟨hm2, ?_, ?_, ?_⟩
    · show (t.foldl (greedyRelax g e c) (greedyRelax g e c σ a)).order =
        σ.order
      rw [hord2, hord1]
    · show (t.foldl (greedyRelax g e c) (greedyRelax g e c σ a)).closed =
        σ.closed
      rw [hcl2, hcl1]
    · show openMeasure g
        (t.foldl (greedyRelax g e c) (greedyRelax g e c σ a)).closed
        (t.foldl (greedyRelax g e c) (greedyRelax g e c σ a)).queue =
        openMeasure g σ.closed σ.queue
      rw [hms2, hms1]

lemma greedyInv_pop {g : Grid} {s : Coord} {σ : GreedyState} {c : Coord}
    {p : Nat} {rest : PQueue} (hI : GreedyInv g s σ)
    (hq : σ.queue = (c, p) :: rest) :
    GreedyMid g s c
      { σ with queue := rest, closed := setAt σ.closed c true,
               order := σ.order ++ [c] } := by
  have hcq : (c, p) ∈ σ.queue := by rw [hq]; simp
  have hcm : c ∈ σ.queue.map Prod.fst := by
    rw [hq, List.map_cons]; simp
  have hnd := List.nodup_append.mp hI.nodupAll
  have hco : c ∉ σ.order := fun h => hnd.2.2 h hcm
  have hsOrd : s ∈ σ.order ++ [c] := by
    rcases hI.s_first with h | h
    · exact List.mem_append.mpr (Or.inl h)
    · rw [hq, List.map_cons] at h
      have hcs : c = s := by
        have := congrArg List.head? h
        simpa using this
      rw [← hcs]
      simp
  refine ⟨?_, ?_, ?_, ?_, ?_, ?_, hI.prev_s, ?_, ?_, ?_, hsOrd, by simp⟩
  · show (σ.order ++ [c] ++ rest.map Prod.fst).Nodup
    have heq : σ.order ++ [c] ++ rest.map Prod.fst =
        σ.order ++ σ.queue.map Prod.fst := by
      rw [hq, List.map_cons, List.append_assoc]
      rfl
    rw [heq]
    exact hI.nodupAll
  · intro x
    by_cases hxc : x = c
    · subst hxc
      simp [setAt]
    · simp only [setAt_ne _ _ _ hxc]
      rw [hI.closed_iff x, List.mem_append]
      constructor
      · exact fun h => Or.inl h
      · rintro (h | h)
        · exact h
        · simp at h
          exact absurd h hxc
  · intro x hx
    exact hI.queue_dom x (by rw [hq]; simp [hx])
  · intro x hx
    rcases List.mem_append.mp hx with h | h
    · exact hI.order_dom x h
    · simp at h
      subst h
      exact hI.queue_dom _ hcq
  · intro x hx
    rcases List.mem_append.mp hx with h | h
    · exact hI.order_reach x h
    · simp at h
      subst h
      exact hI.queue_reach _ hcq
  · intro x hx
    exact hI.queue_reach x (by rw [hq]; simp [hx])
  · intro x u hx
    obtain ⟨h1, h2, h3⟩ := hI.prev_some x u hx
    exact ⟨List.mem_append.mpr (Or.inl h1), h2, h3⟩
  · intro x hx hxs
    refine hI.prev_exists x ?_ hxs
    rcases hx with h | h
    · rcases List.mem_append.mp h with h | h
      · exact Or.inl h
      · simp at h
        subst h
        exact Or.inr hcm
    · refine Or.inr ?_
      rw [hq, List.map_cons]
      simp [h]
  · refine prevOrder_append hI.prevOrder ?_
    intro u hu
    exact (hI.prev_some c u hu).1

lemma greedyMid_inv {g : Grid} {s c : Coord} {σ : GreedyState}
    (hm : GreedyMid g s c σ) : GreedyInv g s σ :=
  ⟨hm.nodupAll, hm.closed_iff, hm.queue_dom, hm.order_dom, hm.order_reach,
   hm.queue_reach, hm.prev_s, hm.prev_some, hm.prev_exists,
   hm.prevOrder, Or.inl hm.sOrder⟩

/-- What holds of the state in which the `greedy` loop terminates. -/
structure GreedyDone (g : Grid) (s e : Coord) (σ : GreedyState) : Prop where
  nodupOrder : σ.order.Nodup
  order_dom : ∀ c ∈ σ.order, inBounds g c ∧ (c = s ∨ isWallAt g c = false)
  order_reach : ∀ c ∈ σ.order, Reach g s c
  prev_s : σ.prev s = none
  prev_some : ∀ c u, σ.prev c = some u →
    u ∈ σ.order ∧ stepOK g u c ∧ Reach g s c
  order_prev : ∀ c ∈ σ.order, c ≠ s → σ.prev c ≠ none
  prevOrder : PrevOrder σ.prev σ.order
  s_in : s ∈ σ.order

theorem greedyLoop_done (g : Grid) (s e : Coord) :
    ∀ (fuel : Nat) (σ : GreedyState), GreedyInv g s σ →
      openMeasure g σ.closed σ.queue < fuel →
      GreedyDone g s e (greedyLoop g e fuel σ) := by
  intro fuel
  induction fuel with
  | zero =>
    intro σ _ h
    omega
  | succ f ih =>
    intro σ hI hm
    have hmkDone : ∀ (τ : GreedyState), GreedyInv g s τ → s ∈ τ.order →
        GreedyDone g s e τ := by
      intro τ hJ hsin
      exact ⟨(List.nodup_append.mp hJ.nodupAll).1, hJ.order_dom,
        hJ.order_reach, hJ.prev_s, hJ.prev_some,
        fun c hc => hJ.prev_exists c (Or.inl hc), hJ.prevOrder, hsin⟩
    cases hq : σ.queue with
    | nil =>
      have heval : greedyLoop g e (f + 1) σ = σ := by
        conv_lhs => rw [greedyLoop.eq_def]
        simp [hq]
      rw [heval]
      refine hmkDone σ hI ?_
      rcases hI.s_first with h | h
      · exact h
      · rw [hq] at h
        simp at h
    | cons x rest =>
      obtain ⟨c, p⟩ := x
      have hmid := greedyInv_pop hI hq
      by_cases hce : c = e
      · have heval : greedyLoop g e (f + 1) σ =
            { σ with queue := rest, order := σ.order ++ [c] } := by
          conv_lhs => rw [greedyLoop.eq_def]
          simp [hq]
          intro h
          exact absurd hce h
        rw [heval]
        have hsOrd : s ∈ σ.order ++ [c] := hmid.sOrder
        have hcq : (c, p) ∈ σ.queue := by rw [hq]; simp
        have hcm : c ∈ σ.queue.map Prod.fst := by
          rw [hq, List.map_cons]; simp
        have hnd := List.nodup_append.mp hI.nodupAll
        have hco : c ∉ σ.order := fun h => hnd.2.2 h hcm
        refine ⟨?_, ?_, ?_, hI.prev_s, ?_, ?_, ?_, hsOrd⟩
        · show (σ.order ++ [c]).Nodup
          rw [List.nodup_append]
          exact ⟨hnd.1, List.nodup_singleton c, by
            intro a ha hb
            simp at hb
            subst hb
            exact hco ha⟩
        · intro x hx
          rcases List.mem_append.mp hx with h | h
          · exact hI.order_dom x h
          · simp at h
            subst h
            exact hI.queue_dom _ hcq
        · intro x hx
          rcases List.mem_append.mp hx with h | h
          · exact hI.order_reach x h
          · simp at h
            subst h
            exact hI.queue_reach _ hcq
        · intro x u hx
          obtain ⟨h1, h2, h3⟩ := hI.prev_some x u hx
          exact ⟨List.mem_append.mpr (Or.inl h1), h2, h3⟩
        · intro x hx hxs
          refine hI.prev_exists x ?_ hxs
          rcases List.mem_append.mp hx with h | h
          · exact Or.inl h
          · simp at h
            subst h
            exact Or.inr hcm
        · refine prevOrder_append hI.prevOrder ?_
          intro u hu
          exact (hI.prev_some c u hu).1
      · have heval : greedyLoop g e (f + 1) σ =
            greedyLoop g e f ((getNeighbors g c).foldl (greedyRelax g e c)
              { σ with queue := rest, closed := setAt σ.closed c true,
                       order := σ.order ++ [c] }) := by
          conv_lhs => rw [greedyLoop.eq_def]
          simp [hq]
          intro h
          exact absurd h hce
        rw [heval]
        obtain ⟨hm2, _, _, hms2⟩ :=
          greedyRelax_fold (getNeighbors g c) hmid fun nb h => h
        apply ih _ (greedyMid_inv hm2)
        rw [hms2]
        have hdec := open_pop_measure (g := g) (d := σ.closed)
          (c := c) (p := p) (r := rest)
        rw [← hq] at hdec
        dsimp only
        omega

lemma greedyInv_init {g : Grid} {s : Coord} (hs : inBounds g s) :
    GreedyInv g s (greedyInit s) := by
  have hq : (greedyInit s).queue = [(s, 0)] := rfl
  refine ⟨?_, ?_, ?_, ?_, ?_, ?_, ?_, ?_, ?_, ?_, ?_⟩
  · rw [show (greedyInit s).order = [] from rfl, hq]
    simp
  · intro c
    simp [greedyInit]
  · intro x hx
    rw [hq] at hx
    simp at hx
    subst hx
    exact ⟨hs, Or.inl rfl⟩
  · intro c hc
    simp [greedyInit] at hc
  · intro c hc
    simp [greedyInit] at hc
  · intro x hx
    rw [hq] at hx
    simp at hx
    subst hx
    exact ⟨0, ReachIn.zero⟩
  · rfl
  · intro c u hc
    cases hc
  · intro x hx hxs
    rcases hx with h | h
    · simp [greedyInit] at h
    · rw [hq, List.map_cons] at h
      simp at h
      exact absurd h hxs
  · intro i hi
    simp [greedyInit] at hi
  · refine Or.inr ?_
    rw [hq]
    simp

theorem greedy_done (g : Grid) (s e : Coord) (hs : inBounds g s) :
    GreedyDone g s e (greedyFinal g s e) := by
  apply greedyLoop_done g s e _ _ (greedyInv_init hs)
  unfold openMeasure
  have hcnt : ((allCoords g).filter fun x =>
      !(greedyInit s).closed x &&
        !pqHasNode (greedyInit s).queue x).length + 1 =
      rowsOf g * colsOf g := by
    rw [← List.countP_eq_length_filter]
    have := countP_flip_at (L := allCoords g)
      (p := fun _ => true)
      (q := fun x => !(greedyInit s).closed x &&
        !pqHasNode (greedyInit s).queue x) (b := s)
      rfl
      (by
        have h1 : (greedyInit s).closed s = false := rfl
        have h2 : pqHasNode (greedyInit s).queue s = true := by
          rw [pqHasNode_mem]
          show s ∈ [(s, 0)].map Prod.fst
          simp
        simp [h1, h2])
      (nodup_allCoords g) (mem_allCoords.mpr hs)
      (by
        intro x _ hxs
        have h1 : (greedyInit s).closed x = false := rfl
        have h2 : pqHasNode (greedyInit s).queue x = false := by
          apply Bool.eq_false_iff.mpr
          intro hmem
          rw [pqHasNode_mem] at hmem
          rw [show (greedyInit s).queue = [(s, 0)] from rfl] at hmem
          simp at hmem
          exact hxs hmem
        simp [h1, h2])
    rw [this]
    rw [List.countP_true, length_allCoords]
  have hlen : (greedyInit s).queue.length = 1 := rfl
  rw [hlen]
  omega

/-- Consolidated facts about a finished `greedy` run. -/
theorem greedy_run_spec (g : Grid) (s e : Coord) (hs : inBounds g s) :
    ((greedyFinal g s e).order.Nodup ∧ (greedyFinal g s e).order ≠ [] ∧
      (∀ c ∈ (greedyFinal g s e).order, inBounds g c ∧ Reach g s c) ∧
      (greedyFinal g s e).order.length ≤ rowsOf g * colsOf g) ∧
    (∃ l, getNodesInShortestPathOrder (greedyFinal g s e).prev e
        (walkFuel g) = some l ∧
      (((greedyFinal g s e).prev e = none ∧ l = []) ∨
        (l ≠ [] ∧ l.head? = some s ∧ e ∉ l ∧
          List.Chain' (stepOK g) (l ++ [e]) ∧
          ∃ u, l.getLast? = some u ∧ stepOK g u e))) ∧
    ((¬Reach g s e → (greedyFinal g s e).prev e = none) ∧
      (greedyFinal g s e).prev s = none) := by
  have hD := greedy_done g s e hs
  have hnodup := hD.nodupOrder
  have hdom : ∀ c ∈ (greedyFinal g s e).order,
      inBounds g c ∧ Reach g s c :=
    fun c hc => ⟨(hD.order_dom c hc).1, hD.order_reach c hc⟩
  have hlenb : (greedyFinal g s e).order.length ≤ rowsOf g * colsOf g :=
    nodup_inBounds_length_le hnodup fun c hc => (hdom c hc).1
  have hne : (greedyFinal g s e).order ≠ [] := by
    intro h0
    have hsi := hD.s_in
    rw [h0] at hsi
    simp at hsi
  have hM : ∀ c u2, (greedyFinal g s e).prev c = some u2 →
      u2 ∈ (greedyFinal g s e).order :=
    fun c u2 h => (hD.prev_some c u2 h).1
  have hsomeStep : ∀ x u, (greedyFinal g s e).prev x = some u →
      u ∈ (greedyFinal g s e).order ∧ stepOK g u x :=
    fun x u h => ⟨(hD.prev_some x u h).1, (hD.prev_some x u h).2.1⟩
  refine ⟨⟨hnodup, hne, hdom, hlenb⟩, ?_, ?_, hD.prev_s⟩
  · obtain ⟨l, hC, hlen, _⟩ := ancChain_total hD.prevOrder hM e
    have hflt : l.length < walkFuel g := by
      unfold walkFuel
      omega
    have hwalk := getNodes_of_ancChain hC hflt
    cases hpe : (greedyFinal g s e).prev e with
    | none =>
      have hl0 : l = [] := by
        cases hC with
        | nil h0 => rfl
        | cons hc hu => rw [hpe] at hc; cases hc
      exact ⟨l, hwalk, Or.inl ⟨rfl, hl0⟩⟩
    | some u =>
      have hlne : l ≠ [] := by
        intro h0
        rw [ancChain_nil_inv hC h0] at hpe
        cases hpe
      obtain ⟨hCh, hH⟩ := ancChain_path_facts hsomeStep
        (fun c hc hcs => hD.order_prev c hc hcs) hC
      have henl : e ∉ l := by
        by_cases heo : e ∈ (greedyFinal g s e).order
        · obtain ⟨i, hget⟩ := List.mem_iff_get.mp heo
          obtain ⟨l3, hC3, _, hsub3⟩ :=
            ancChain_of_prevOrder hD.prevOrder i.1 i.2
          rw [show (⟨i.1, i.2⟩ : Fin _) = i from rfl, hget] at hC3
          have hl3 : l = l3 := ancChain_unique hC hC3
          intro hmem
          have : e ∈ (greedyFinal g s e).order.take i.1 :=
            hsub3 e (hl3 ▸ hmem)
          exact (hget ▸ nodup_get_not_mem_take hnodup i.1 i.2) this
        · intro hmem
          exact heo ((ancChain_mem hC fun x u2 hx =>
            (hD.prev_some x u2 hx).1) e hmem)
      have hlast : ∃ u2, l.getLast? = some u2 ∧ stepOK g u2 e := by
        cases hC with
        | nil h => rw [h] at hpe; cases hpe
        | cons hc hu2 =>
          rename_i u1 l1 hsubx
          refine ⟨u1, List.getLast?_concat _, ?_⟩
          exact (hD.prev_some e u1 hc).2.1
      exact ⟨l, hwalk, Or.inr ⟨hlne, hH hlne, henl, hCh, hlast⟩⟩
  · intro hnr
    cases hpe : (greedyFinal g s e).prev e with
    | none => rfl
    | some u =>
      exact absurd (hD.prev_some e u hpe).2.2 hnr

end PathVis

namespace PathVis

lemma ancChain_of_prevOrder_nodup {prev : Coord → Option Coord}
    {L : List Coord} (hP : PrevOrder prev L) (hnd : L.Nodup) :
    ∀ i (h : i < L.length), ∃ l, AncChain prev (L.get ⟨i, h⟩) l ∧
      l.length ≤ i ∧ (∀ x ∈ l, x ∈ L.take i) ∧ l.Nodup := by
  intro i
  induction i using Nat.strong_induction_on with
  | _ i ih =>
    intro h
    cases hp : prev (L.get ⟨i, h⟩) with
    | none => exact ⟨[], AncChain.nil hp, by simp, by simp, List.nodup_nil⟩
    | some u =>
      have hu : u ∈ L.take i := hP i h u hp
      obtain ⟨j, hj, hji, hget⟩ := mem_take_get hu
      obtain ⟨l1, hchain, hlen, hsub, hl1nd⟩ := ih j hji hj
      rw [hget] at hchain
      refine ⟨l1 ++ [u], AncChain.cons hp hchain, ?_, ?_, ?_⟩
      · simp only [List.length_append, List.length_cons, List.length_nil]
        omega
      · intro x hx
        rcases List.mem_append.mp hx with hx | hx
        · exact mem_take_mono (Nat.le_of_lt hji) (hsub x hx)
        · simp at hx
          subst hx
          exact hu
      · rw [List.nodup_append]
        refine ⟨hl1nd, List.nodup_singleton u, ?_⟩
        intro a ha hb
        simp at hb
        subst hb
        have : a ∈ L.take j := hsub a ha
        rw [← hget] at this
        exact nodup_get_not_mem_take hnd j hj this

/-- Ancestor chains of a prev-order-closed state have no duplicates. -/
lemma ancChain_total_nodup {prev : Coord → Option Coord} {L : List Coord}
    (hP : PrevOrder prev L) (hnd : L.Nodup)
    (hM : ∀ c u, prev c = some u → u ∈ L) (c : Coord) :
    ∃ l, AncChain prev c l ∧ l.length ≤ L.length ∧ (∀ x ∈ l, x ∈ L) ∧
      l.Nodup := by
  cases hp : prev c with
  | none => exact ⟨[], AncChain.nil hp, by simp, by simp, List.nodup_nil⟩
  | some u =>
    have hu : u ∈ L := hM c u hp
    obtain ⟨j, hget⟩ := List.mem_iff_get.mp hu
    obtain ⟨l1, hchain, hlen, hsub, hl1nd⟩ :=
      ancChain_of_prevOrder_nodup hP hnd j.1 j.2
    rw [show (⟨j.1, j.2⟩ : Fin L.length) = j from rfl, hget] at hchain
    refine ⟨l1 ++ [u], AncChain.cons hp hchain, ?_, ?_, ?_⟩
    · simp only [List.length_append, List.length_cons, List.length_nil]
      have := j.isLt
      omega
    · intro x hx
      rcases List.mem_append.mp hx with hx | hx
      · exact List.mem_of_mem_take (hsub x hx)
      · simp at hx; subst hx; exact hu
    · rw [List.nodup_append]
      refine ⟨hl1nd, List.nodup_singleton u, ?_⟩
      intro a ha hb
      simp at hb
      subst hb
      have : a ∈ L.take j.1 := hsub a ha
      rw [← hget] at this
      exact nodup_get_not_mem_take hnd j.1 j.2 this

/-- C10: in every run of any of the five algorithms on a rectangular grid
with in-bounds start and end, `visitedNodesInOrder` lists each coordinate
at most once, so its length is at most `rows * cols`. -/
theorem visited_order_nodup_bounded (g : Grid) (s e : Coord) (hR : Rect g)
    (hs : inBounds g s) (he : inBounds g e) :
    ((dijkstra g (some s) (some e)).visitedNodesInOrder.Nodup ∧
      (dijkstra g (some s) (some e)).visitedNodesInOrder.length ≤
        rowsOf g * colsOf g) ∧
    ((bfs g (some s) (some e)).visitedNodesInOrder.Nodup ∧
      (bfs g (some s) (some e)).visitedNodesInOrder.length ≤
        rowsOf g * colsOf g) ∧
    ((dfs g (some s) (some e)).visitedNodesInOrder.Nodup ∧
      (dfs g (some s) (some e)).visitedNodesInOrder.length ≤
        rowsOf g * colsOf g) ∧
    ((astar g (some s) (some e)).visitedNodesInOrder.Nodup ∧
      (astar g (some s) (some e)).visitedNodesInOrder.length ≤
        rowsOf g * colsOf g) ∧
    ((greedy g (some s) (some e)).visitedNodesInOrder.Nodup ∧
      (greedy g (some s) (some e)).visitedNodesInOrder.length ≤
        rowsOf g * colsOf g) := by
  obtain ⟨hr, hc⟩ := inBounds_pos hs
  rw [dijkstra_some hr hc, bfs_some hr hc, dfs_some hr hc,
    astar_some hr hc, greedy_some hr hc]
  obtain ⟨⟨hd1, _, _, hd4⟩, _⟩ := dij_run_spec g s e hs
  obtain ⟨⟨hb1, _, _, hb4⟩, _⟩ := bfs_run_spec g s e hs
  obtain ⟨⟨hf1, _, _, hf4⟩, _⟩ := dfs_run_spec g s e hs
  obtain ⟨⟨ha1, _, _, ha4⟩, _⟩ := astar_run_spec g s e hs
  obtain ⟨⟨hg1, _, _, hg4⟩, _⟩ := greedy_run_spec g s e hs
  exact ⟨⟨hd1, hd4⟩, ⟨hb1, hb4⟩, ⟨hf1, hf4⟩, ⟨ha1, ha4⟩, ⟨hg1, hg4⟩⟩

theorem visited_order_nodup_bounded_witness :
    Rect gridNW12 ∧ inBounds gridNW12 ⟨0, 0⟩ ∧ inBounds gridNW12 ⟨0, 1⟩ ∧
    ((dijkstra gridNW12 (some ⟨0, 0⟩)
        (some ⟨0, 1⟩)).visitedNodesInOrder.Nodup ∧
      (dijkstra gridNW12 (some ⟨0, 0⟩)
        (some ⟨0, 1⟩)).visitedNodesInOrder.length ≤
        rowsOf gridNW12 * colsOf gridNW12) ∧
    ((bfs gridNW12 (some ⟨0, 0⟩)
        (some ⟨0, 1⟩)).visitedNodesInOrder.Nodup ∧
      (bfs gridNW12 (some ⟨0, 0⟩)
        (some ⟨0, 1⟩)).visitedNodesInOrder.length ≤
        rowsOf gridNW12 * colsOf gridNW12) ∧
    ((dfs gridNW12 (some ⟨0, 0⟩)
        (some ⟨0, 1⟩)).visitedNodesInOrder.Nodup ∧
      (dfs gridNW12 (some ⟨0, 0⟩)
        (some ⟨0, 1⟩)).visitedNodesInOrder.length ≤
        rowsOf gridNW12 * colsOf gridNW12) ∧
    ((astar gridNW12 (some ⟨0, 0⟩)
        (some ⟨0, 1⟩)).visitedNodesInOrder.Nodup ∧
      (astar gridNW12 (some ⟨0, 0⟩)
        (some ⟨0, 1⟩)).visitedNodesInOrder.length ≤
        rowsOf gridNW12 * colsOf gridNW12) ∧
    ((greedy gridNW12 (some ⟨0, 0⟩)
        (some ⟨0, 1⟩)).visitedNodesInOrder.Nodup ∧
      (greedy gridNW12 (some ⟨0, 0⟩)
        (some ⟨0, 1⟩)).visitedNodesInOrder.length ≤
        rowsOf gridNW12 * colsOf gridNW12) := by
  refine ⟨by decide, by decide, by decide, ?_⟩
  exact visited_order_nodup_bounded gridNW12 ⟨0, 0⟩ ⟨0, 1⟩ (by decide)
    (by decide) (by decide)

end PathVis

namespace PathVis

theorem dfs_done (g : Grid) (s e : Coord) (hs : inBounds g s) :
    DfsDone g s e (dfsFinal g s e) :=
  dfsLoop_done g s e (rowsOf g * colsOf g + 1) (fifoInit s)
    (by
      refine ⟨?_, ?_, ?_, ?_, ?_, ?_, ?_, ?_, ?_, ?_⟩
      · simp [fifoInit]
      · intro c
        constructor
        · intro h
          simp only [fifoInit, setAt] at h
          split at h
          · rename_i he; subst he; simp [fifoInit]
          · cases h
        · intro h
          simp only [fifoInit, List.not_mem_nil, false_or] at h
          simp only [List.mem_singleton] at h
          subst h
          simp [fifoInit, setAt]
      · intro c h
        simp only [fifoInit, setAt] at h
        split at h
        · rename_i he; subst he; exact ⟨hs, Or.inl rfl⟩
        · cases h
      · rfl
      · intro c u h; cases h
      · intro c h hcs
        simp only [fifoInit, setAt] at h
        split at h
        · rename_i he; exact absurd he hcs
        · cases h
      · intro i hi
        simp [fifoInit] at hi
      · intro u hu
        simp [fifoInit] at hu
      · intro c h
        simp only [fifoInit, setAt] at h
        split at h
        · rename_i he
          subst he
          exact ⟨[], AncChain.nil rfl, ReachIn.zero, by simp, by simp,
            fun _ => rfl⟩
        · cases h
      · simp [fifoInit, setAt])
    (by
      unfold bfsMeasure fifoInit
      have h1 := unvisitedCount_mark (g := g) (v := fun _ => false) hs rfl
      rw [unvisitedCount_false] at h1
      simp only [List.length_singleton]
      omega)

/-- The backward walk of a prev-order-closed predecessor map stabilises:
one duplicate-free result for every sufficiently large fuel. -/
lemma walk_stable {g : Grid} {prev : Coord → Option Coord}
    {L : List Coord} (hP : PrevOrder prev L) (hnd : L.Nodup)
    (hM : ∀ c u, prev c = some u → u ∈ L)
    (hL : L.length ≤ rowsOf g * colsOf g) (e : Coord) :
    ∃ l, l.Nodup ∧ l.length ≤ rowsOf g * colsOf g ∧
      ∀ fuel, rowsOf g * colsOf g < fuel →
        getNodesInShortestPathOrder prev e fuel = some l := by
  obtain ⟨l, hC, hlen, _, hndl⟩ := ancChain_total_nodup hP hnd hM e
  refine ⟨l, hndl, le_trans hlen hL, ?_⟩
  intro fuel hf
  exact getNodes_of_ancChain hC (by omega)

/-- C9: for the predecessor map each of the five algorithms produces, the
backward walk of `getNodesInShortestPathOrder` terminates — it returns one
fixed duplicate-free list for every fuel beyond the cell count, instead of
diverging along a predecessor cycle — including for `greedy`, whose relax
step overwrites predecessors unconditionally. -/
theorem walk_terminates_all_algorithms (g : Grid) (s e : Coord)
    (hR : Rect g) (hs : inBounds g s) (he : inBounds g e) :
    (∃ l, l.Nodup ∧ l.length ≤ rowsOf g * colsOf g ∧
      ∀ fuel, rowsOf g * colsOf g < fuel →
        getNodesInShortestPathOrder (dijkstraFinal g s e).prev e fuel =
          some l) ∧
    (∃ l, l.Nodup ∧ l.length ≤ rowsOf g * colsOf g ∧
      ∀ fuel, rowsOf g * colsOf g < fuel →
        getNodesInShortestPathOrder (bfsFinal g s e).prev e fuel =
          some l) ∧
    (∃ l, l.Nodup ∧ l.length ≤ rowsOf g * colsOf g ∧
      ∀ fuel, rowsOf g * colsOf g < fuel →
        getNodesInShortestPathOrder (dfsFinal g s e).prev e fuel =
          some l) ∧
    (∃ l, l.Nodup ∧ l.length ≤ rowsOf g * colsOf g ∧
      ∀ fuel, rowsOf g * colsOf g < fuel →
        getNodesInShortestPathOrder (astarFinal g s e).prev e fuel =
          some l) ∧
    (∃ l, l.Nodup ∧ l.length ≤ rowsOf g * colsOf g ∧
      ∀ fuel, rowsOf g * colsOf g < fuel →
        getNodesInShortestPathOrder (greedyFinal g s e).prev e fuel =
          some l) := by
  refine ⟨?_, ?_, ?_, ?_, ?_⟩
  · have hD := dij_done g s e hs
    have hnd : (dijkstraFinal g s e).order.Nodup :=
      (List.nodup_append.mp hD.nodupAll).1
    have hM : ∀ c u, (dijkstraFinal g s e).prev c = some u →
        u ∈ (dijkstraFinal g s e).order := by
      intro c u h
      obtain ⟨_, _, _, _, _, _, hmem⟩ := hD.prev_dist c u h
      exact hmem
    exact walk_stable hD.prevOrder hnd hM
      (nodup_inBounds_length_le hnd fun c hc => (hD.order_dom c hc).1) e
  · have hD := bfs_done g s e hs
    have hnd : (bfsFinal g s e).order.Nodup :=
      (List.nodup_append.mp hD.nodupAll).1
    have hM : ∀ c u, (bfsFinal g s e).prev c = some u →
        u ∈ (bfsFinal g s e).order :=
      fun c u h => (hD.prev_some c u h).2.1
    refine walk_stable hD.prevOrder hnd hM
      (nodup_inBounds_length_le hnd ?_) e
    intro c hc
    exact (hD.visited_dom c ((hD.visited_iff c).mpr (Or.inl hc))).1
  · have hD := dfs_done g s e hs
    have hnd : (dfsFinal g s e).order.Nodup :=
      (List.nodup_append.mp hD.nodupAll).1
    have hM : ∀ c u, (dfsFinal g s e).prev c = some u →
        u ∈ (dfsFinal g s e).order :=
      fun c u h => (hD.prev_some c u h).2.1
    refine walk_stable hD.prevOrder hnd hM
      (nodup_inBounds_length_le hnd ?_) e
    intro c hc
    exact (hD.visited_dom c ((hD.visited_iff c).mpr (Or.inl hc))).1
  · have hD := astar_done g s e hs
    have hM : ∀ c u, (astarFinal g s e).prev c = some u →
        u ∈ (astarFinal g s e).order :=
      fun c u h => (hD.prev_some c u h).1
    exact walk_stable hD.prevOrder hD.nodupOrder hM
      (nodup_inBounds_length_le hD.nodupOrder
        fun c hc => (hD.order_dom c hc).1) e
  · have hD := greedy_done g s e hs
    have hM : ∀ c u, (greedyFinal g s e).prev c = some u →
        u ∈ (greedyFinal g s e).order :=
      fun c u h => (hD.prev_some c u h).1
    exact walk_stable hD.prevOrder hD.nodupOrder hM
      (nodup_inBounds_length_le hD.nodupOrder
        fun c hc => (hD.order_dom c hc).1) e

theorem walk_terminates_all_algorithms_witness :
    Rect gridNW12 ∧ inBounds gridNW12 ⟨0, 0⟩ ∧ inBounds gridNW12 ⟨0, 1⟩ ∧
    ((∃ l, l.Nodup ∧ l.length ≤ rowsOf gridNW12 * colsOf gridNW12 ∧
      ∀ fuel, rowsOf gridNW12 * colsOf gridNW12 < fuel →
        getNodesInShortestPathOrder
          (dijkstraFinal gridNW12 ⟨0, 0⟩ ⟨0, 1⟩).prev ⟨0, 1⟩ fuel =
          some l) ∧
    (∃ l, l.Nodup ∧ l.length ≤ rowsOf gridNW12 * colsOf gridNW12 ∧
      ∀ fuel, rowsOf gridNW12 * colsOf gridNW12 < fuel →
        getNodesInShortestPathOrder
          (bfsFinal gridNW12 ⟨0, 0⟩ ⟨0, 1⟩).prev ⟨0, 1⟩ fuel = some l) ∧
    (∃ l, l.Nodup ∧ l.length ≤ rowsOf gridNW12 * colsOf gridNW12 ∧
      ∀ fuel, rowsOf gridNW12 * colsOf gridNW12 < fuel →
        getNodesInShortestPathOrder
          (dfsFinal gridNW12 ⟨0, 0⟩ ⟨0, 1⟩).prev ⟨0, 1⟩ fuel = some l) ∧
    (∃ l, l.Nodup ∧ l.length ≤ rowsOf gridNW12 * colsOf gridNW12 ∧
      ∀ fuel, rowsOf gridNW12 * colsOf gridNW12 < fuel →
        getNodesInShortestPathOrder
          (astarFinal gridNW12 ⟨0, 0⟩ ⟨0, 1⟩).prev ⟨0, 1⟩ fuel = some l) ∧
    (∃ l, l.Nodup ∧ l.length ≤ rowsOf gridNW12 * colsOf gridNW12 ∧
      ∀ fuel, rowsOf gridNW12 * colsOf gridNW12 < fuel →
        getNodesInShortestPathOrder
          (greedyFinal gridNW12 ⟨0, 0⟩ ⟨0, 1⟩).prev ⟨0, 1⟩ fuel =
          some l)) := by
  refine ⟨by decide, by decide, by decide, ?_⟩
  exact walk_terminates_all_algorithms gridNW12 ⟨0, 0⟩ ⟨0, 1⟩ (by decide)
    (by decide) (by decide)

end PathVis

namespace PathVis

lemma getNodes_none {prev : Coord → Option Coord} {e : Coord} {fuel : Nat}
    (h : prev e = none) :
    getNodesInShortestPathOrder prev e fuel = some [] := by
  simp [getNodesInShortestPathOrder, h]

/-- C7: with an in-bounds but unreachable end, every one of the five
algorithms returns an empty `shortestPath` and a non-empty
`visitedNodesInOrder` that is no longer than any duplicate-free list
covering the region reachable from the start. -/
theorem unreachable_end_results (g : Grid) (s e : Coord) (hR : Rect g)
    (hs : inBounds g s) (he : inBounds g e) (hur : ¬ Reach g s e) :
    ((dijkstra g (some s) (some e)).shortestPath = [] ∧
      (dijkstra g (some s) (some e)).visitedNodesInOrder ≠ [] ∧
      ∀ L : List Coord, L.Nodup → (∀ c, inBounds g c → Reach g s c → c ∈ L) →
        (dijkstra g (some s) (some e)).visitedNodesInOrder.length ≤
          L.length) ∧
    ((bfs g (some s) (some e)).shortestPath = [] ∧
      (bfs g (some s) (some e)).visitedNodesInOrder ≠ [] ∧
      ∀ L : List Coord, L.Nodup → (∀ c, inBounds g c → Reach g s c → c ∈ L) →
        (bfs g (some s) (some e)).visitedNodesInOrder.length ≤ L.length) ∧
    ((dfs g (some s) (some e)).shortestPath = [] ∧
      (dfs g (some s) (some e)).visitedNodesInOrder ≠ [] ∧
      ∀ L : List Coord, L.Nodup → (∀ c, inBounds g c → Reach g s c → c ∈ L) →
        (dfs g (some s) (some e)).visitedNodesInOrder.length ≤ L.length) ∧
    ((astar g (some s) (some e)).shortestPath = [] ∧
      (astar g (some s) (some e)).visitedNodesInOrder ≠ [] ∧
      ∀ L : List Coord, L.Nodup → (∀ c, inBounds g c → Reach g s c → c ∈ L) →
        (astar g (some s) (some e)).visitedNodesInOrder.length ≤ L.length) ∧
    ((greedy g (some s) (some e)).shortestPath = [] ∧
      (greedy g (some s) (some e)).visitedNodesInOrder ≠ [] ∧
      ∀ L : List Coord, L.Nodup → (∀ c, inBounds g c → Reach g s c → c ∈ L) →
        (greedy g (some s) (some e)).visitedNodesInOrder.length ≤
          L.length) := by
  obtain ⟨hr, hc⟩ := inBounds_pos hs
  rw [dijkstra_some hr hc, bfs_some hr hc, dfs_some hr hc,
    astar_some hr hc, greedy_some hr hc]
  obtain ⟨⟨hd1, hd2, hd3, _⟩, _, _, ⟨hdpe, _, _⟩⟩ := dij_run_spec g s e hs
  obtain ⟨⟨hb1, hb2, hb3, _⟩, _, ⟨hbpe, _, _⟩⟩ := bfs_run_spec g s e hs
  obtain ⟨⟨hf1, hf2, hf3, _⟩, _, ⟨hfpe, _, _⟩⟩ := dfs_run_spec g s e hs
  obtain ⟨⟨ha1, ha2, ha3, _⟩, _, ⟨hape, _⟩⟩ := astar_run_spec g s e hs
  obtain ⟨⟨hg1, hg2, hg3, _⟩, _, ⟨hgpe, _⟩⟩ := greedy_run_spec g s e hs
  have hbound : ∀ (ord : List Coord), ord.Nodup →
      (∀ c ∈ ord, inBounds g c ∧ Reach g s c) →
      ∀ L : List Coord, L.Nodup →
        (∀ c, inBounds g c → Reach g s c → c ∈ L) →
        ord.length ≤ L.length := by
    intro ord hnd hdom L _ hcov
    refine List.Subperm.length_le (List.subperm_of_subset hnd ?_)
    intro c hcm
    obtain ⟨hb, hrc⟩ := hdom c hcm
    exact hcov c hb hrc
  refine ⟨⟨?_, hd2, hbound _ hd1 hd3⟩, ⟨?_, hb2, hbound _ hb1 hb3⟩,
    ⟨?_, hf2, hbound _ hf1 hf3⟩, ⟨?_, ha2, hbound _ ha1 ha3⟩,
    ⟨?_, hg2, hbound _ hg1 hg3⟩⟩
  · show (getNodesInShortestPathOrder (dijkstraFinal g s e).prev e
      (walkFuel g)).getD [] = []
    rw [getNodes_none (hdpe hur)]
    rfl
  · show (getNodesInShortestPathOrder (bfsFinal g s e).prev e
      (walkFuel g)).getD [] = []
    rw [getNodes_none (hbpe hur)]
    rfl
  · show (getNodesInShortestPathOrder (dfsFinal g s e).prev e
      (walkFuel g)).getD [] = []
    rw [getNodes_none (hfpe hur)]
    rfl
  · show (getNodesInShortestPathOrder (astarFinal g s e).prev e
      (walkFuel g)).getD [] = []
    rw [getNodes_none (hape hur)]
    rfl
  · show (getNodesInShortestPathOrder (greedyFinal g s e).prev e
      (walkFuel g)).getD [] = []
    rw [getNodes_none (hgpe hur)]
    rfl

end PathVis

namespace PathVis

/-- A 1×2 grid whose second cell is a wall: the end is unreachable. -/
def gridW12 : Grid := [[false, true]]

theorem unreachable_end_results_witness :
    Rect gridW12 ∧ inBounds gridW12 ⟨0, 0⟩ ∧ inBounds gridW12 ⟨0, 1⟩ ∧
    ¬ Reach gridW12 ⟨0, 0⟩ ⟨0, 1⟩ ∧
    (dijkstra gridW12 (some ⟨0, 0⟩) (some ⟨0, 1⟩)).shortestPath = [] ∧
    (dijkstra gridW12 (some ⟨0, 0⟩) (some ⟨0, 1⟩)).visitedNodesInOrder ≠
      [] ∧
    (bfs gridW12 (some ⟨0, 0⟩) (some ⟨0, 1⟩)).shortestPath = [] ∧
    (bfs gridW12 (some ⟨0, 0⟩) (some ⟨0, 1⟩)).visitedNodesInOrder ≠ [] ∧
    (dfs gridW12 (some ⟨0, 0⟩) (some ⟨0, 1⟩)).shortestPath = [] ∧
    (dfs gridW12 (some ⟨0, 0⟩) (some ⟨0, 1⟩)).visitedNodesInOrder ≠ [] ∧
    (astar gridW12 (some ⟨0, 0⟩) (some ⟨0, 1⟩)).shortestPath = [] ∧
    (astar gridW12 (some ⟨0, 0⟩) (some ⟨0, 1⟩)).visitedNodesInOrder ≠ [] ∧
    (greedy gridW12 (some ⟨0, 0⟩) (some ⟨0, 1⟩)).shortestPath = [] ∧
    (greedy gridW12 (some ⟨0, 0⟩) (some ⟨0, 1⟩)).visitedNodesInOrder ≠
      [] := by
  have hno : ∀ n c, ReachIn gridW12 ⟨0, 0⟩ n c → c = ⟨0, 0⟩ := by
    intro n
    induction n with
    | zero =>
      intro c hx
      cases hx
      rfl
    | succ k ih =>
      intro c hx
      cases hx with
      | succ hw hstep =>
        rename_i u
        have hu := ih u hw
        subst hu
        have hnb : c ∈ getNeighbors gridW12 ⟨0, 0⟩ := hstep.1
        have hlist : getNeighbors gridW12 ⟨0, 0⟩ = [⟨0, 1⟩] := by decide
        rw [hlist] at hnb
        simp at hnb
        subst hnb
        have : isWallAt gridW12 ⟨0, 1⟩ = true := by decide
        rw [hstep.2] at this
        cases this
  have hur : ¬ Reach gridW12 ⟨0, 0⟩ ⟨0, 1⟩ := by
    rintro ⟨n, hn⟩
    have := hno n _ hn
    simp at this
  have hT := unreachable_end_results gridW12 ⟨0, 0⟩ ⟨0, 1⟩ (by decide)
    (by decide) (by decide) hur
  exact ⟨by decide, by decide, by decide, hur,
    hT.1.1, hT.1.2.1, hT.2.1.1, hT.2.1.2.1, hT.2.2.1.1, hT.2.2.1.2.1,
    hT.2.2.2.1.1, hT.2.2.2.1.2.1, hT.2.2.2.2.1, hT.2.2.2.2.2.1⟩

end PathVis

namespace PathVis

/-- C3 (amended): whenever a run of any of the five algorithms sets the
end's predecessor, the returned `shortestPath` is a non-empty admissible
path that STARTS WITH the start coordinate, excludes the end coordinate,
and whose last element steps into the end — i.e. it runs from the start to
the end's predecessor. -/
theorem path_start_included_end_excluded (g : Grid) (s e : Coord)
    (hs : inBounds g s) :
    (((dijkstraFinal g s e).prev e ≠ none →
      (dijkstra g (some s) (some e)).shortestPath ≠ [] ∧
      (dijkstra g (some s) (some e)).shortestPath.head? = some s ∧
      e ∉ (dijkstra g (some s) (some e)).shortestPath ∧
      List.Chain' (stepOK g)
        ((dijkstra g (some s) (some e)).shortestPath ++ [e]) ∧
      ∃ u, (dijkstra g (some s) (some e)).shortestPath.getLast? = some u ∧
        stepOK g u e)) ∧
    (((bfsFinal g s e).prev e ≠ none →
      (bfs g (some s) (some e)).shortestPath ≠ [] ∧
      (bfs g (some s) (some e)).shortestPath.head? = some s ∧
      e ∉ (bfs g (some s) (some e)).shortestPath ∧
      List.Chain' (stepOK g)
        ((bfs g (some s) (some e)).shortestPath ++ [e]) ∧
      ∃ u, (bfs g (some s) (some e)).shortestPath.getLast? = some u ∧
        stepOK g u e)) ∧
    (((dfsFinal g s e).prev e ≠ none →
      (dfs g (some s) (some e)).shortestPath ≠ [] ∧
      (dfs g (some s) (some e)).shortestPath.head? = some s ∧
      e ∉ (dfs g (some s) (some e)).shortestPath ∧
      List.Chain' (stepOK g)
        ((dfs g (some s) (some e)).shortestPath ++ [e]) ∧
      ∃ u, (dfs g (some s) (some e)).shortestPath.getLast? = some u ∧
        stepOK g u e)) ∧
    (((astarFinal g s e).prev e ≠ none →
      (astar g (some s) (some e)).shortestPath ≠ [] ∧
      (astar g (some s) (some e)).shortestPath.head? = some s ∧
      e ∉ (astar g (some s) (some e)).shortestPath ∧
      List.Chain' (stepOK g)
        ((astar g (some s) (some e)).shortestPath ++ [e]) ∧
      ∃ u, (astar g (some s) (some e)).shortestPath.getLast? = some u ∧
        stepOK g u e)) ∧
    (((greedyFinal g s e).prev e ≠ none →
      (greedy g (some s) (some e)).shortestPath ≠ [] ∧
      (greedy g (some s) (some e)).shortestPath.head? = some s ∧
      e ∉ (greedy g (some s) (some e)).shortestPath ∧
      List.Chain' (stepOK g)
        ((greedy g (some s) (some e)).shortestPath ++ [e]) ∧
      ∃ u, (greedy g (some s) (some e)).shortestPath.getLast? = some u ∧
        stepOK g u e)) := by
  obtain ⟨hr, hc⟩ := inBounds_pos hs
  rw [dijkstra_some hr hc, bfs_some hr hc, dfs_some hr hc,
    astar_some hr hc, greedy_some hr hc]
  obtain ⟨_, _, ⟨ld, hwd, hcd⟩, _⟩ := dij_run_spec g s e hs
  obtain ⟨_, ⟨lb, hwb, hcb⟩, _⟩ := bfs_run_spec g s e hs
  obtain ⟨_, ⟨lf, hwf, hcf⟩, _⟩ := dfs_run_spec g s e hs
  obtain ⟨_, ⟨la, hwa, hca⟩, _⟩ := astar_run_spec g s e hs
  obtain ⟨_, ⟨lg, hwg, hcg⟩, _⟩ := greedy_run_spec g s e hs
  refine ⟨?_, ?_, ?_, ?_, ?_⟩
  · intro hpe
    rcases hcd with ⟨h0, _⟩ | ⟨h1, _, h3, h4, h5, h6⟩
    · exact absurd h0 hpe
    · rw [show (getNodesInShortestPathOrder (dijkstraFinal g s e).prev e
        (walkFuel g)).getD [] = ld by rw [hwd]; rfl]
      exact ⟨h1, h3, h4, h5, h6⟩
  · intro hpe
    rcases hcb with ⟨h0, _⟩ | ⟨h1, _, h3, h4, h5, h6⟩
    · exact absurd h0 hpe
    · rw [show (getNodesInShortestPathOrder (bfsFinal g s e).prev e
        (walkFuel g)).getD [] = lb by rw [hwb]; rfl]
      exact ⟨h1, h3, h4, h5, h6⟩
  · intro hpe
    rcases hcf with ⟨h0, _⟩ | ⟨h1, _, h3, h4, h5, h6⟩
    · exact absurd h0 hpe
    · rw [show (getNodesInShortestPathOrder (dfsFinal g s e).prev e
        (walkFuel g)).getD [] = lf by rw [hwf]; rfl]
      exact ⟨h1, h3, h4, h5, h6⟩
  · intro hpe
    rcases hca with ⟨h0, _⟩ | ⟨h1, h3, h4, h5, h6⟩
    · exact absurd h0 hpe
    · rw [show (getNodesInShortestPathOrder (astarFinal g s e).prev e
        (walkFuel g)).getD [] = la by rw [hwa]; rfl]
      exact ⟨h1, h3, h4, h5, h6⟩
  · intro hpe
    rcases hcg with ⟨h0, _⟩ | ⟨h1, h3, h4, h5, h6⟩
    · exact absurd h0 hpe
    · rw [show (getNodesInShortestPathOrder (greedyFinal g s e).prev e
        (walkFuel g)).getD [] = lg by rw [hwg]; rfl]
      exact ⟨h1, h3, h4, h5, h6⟩

theorem path_start_included_end_excluded_witness :
    inBounds gridNW12 ⟨0, 0⟩ ∧
    (bfsFinal gridNW12 ⟨0, 0⟩ ⟨0, 1⟩).prev ⟨0, 1⟩ ≠ none ∧
    ((bfs gridNW12 (some ⟨0, 0⟩) (some ⟨0, 1⟩)).shortestPath ≠ [] ∧
      (bfs gridNW12 (some ⟨0, 0⟩) (some ⟨0, 1⟩)).shortestPath.head? =
        some ⟨0, 0⟩ ∧
      (⟨0, 1⟩ : Coord) ∉
        (bfs gridNW12 (some ⟨0, 0⟩) (some ⟨0, 1⟩)).shortestPath ∧
      List.Chain' (stepOK gridNW12)
        ((bfs gridNW12 (some ⟨0, 0⟩) (some ⟨0, 1⟩)).shortestPath ++
          [⟨0, 1⟩]) ∧
      ∃ u, (bfs gridNW12 (some ⟨0, 0⟩)
          (some ⟨0, 1⟩)).shortestPath.getLast? = some u ∧
        stepOK gridNW12 u ⟨0, 1⟩) := by
  have hpe : (bfsFinal gridNW12 ⟨0, 0⟩ ⟨0, 1⟩).prev ⟨0, 1⟩ ≠ none := by
    decide
  exact ⟨by decide, hpe,
    (path_start_included_end_excluded gridNW12 ⟨0, 0⟩ ⟨0, 1⟩
      (by decide)).2.1 hpe⟩

end PathVis

namespace PathVis

lemma distMatrix_getD {g : Grid} {d : Coord → Option Nat} {r c : Nat}
    (hr : r < rowsOf g) (hc : c < colsOf g) :
    ((distMatrix g d).getD r []).getD c none = d ⟨r, c⟩ := by
  unfold distMatrix
  have hlen1 : r < ((List.range (rowsOf g)).map fun r =>
      (List.range (colsOf g)).map fun c => d ⟨r, c⟩).length := by
    simpa using hr
  have h1 : ((List.range (rowsOf g)).map fun r =>
      (List.range (colsOf g)).map fun c => d ⟨r, c⟩).getD r [] =
      (List.range (colsOf g)).map fun c => d ⟨r, c⟩ := by
    rw [List.getD_eq_getElem _ _ hlen1, List.getElem_map,
      List.getElem_range]
  rw [h1]
  have hlen2 : c < ((List.range (colsOf g)).map fun c =>
      d ⟨r, c⟩).length := by
    simpa using hc
  rw [List.getD_eq_getElem _ _ hlen2, List.getElem_map,
    List.getElem_range]

/-- C1: on every rectangular grid with in-bounds endpoints, `dijkstra` and
`bfs` return paths of the same length; that common length is a lower bound
realised by no shorter admissible walk, and is the optimal distance when
the end is reachable and distinct from the start; and each distance
`dijkstra` finalises in its returned matrix for a visited cell is the
optimal distance from the start. -/
theorem dijkstra_bfs_optimal (g : Grid) (s e : Coord) (hR : Rect g)
    (hs : inBounds g s) (he : inBounds g e) :
    (dijkstra g (some s) (some e)).shortestPath.length =
      (bfs g (some s) (some e)).shortestPath.length ∧
    (∀ n, ReachIn g s n e →
      (bfs g (some s) (some e)).shortestPath.length ≤ n ∧
      (dijkstra g (some s) (some e)).shortestPath.length ≤ n) ∧
    (Reach g s e → e ≠ s →
      distIs g s e (dijkstra g (some s) (some e)).shortestPath.length ∧
      distIs g s e (bfs g (some s) (some e)).shortestPath.length) ∧
    (∀ c ∈ (dijkstra g (some s) (some e)).visitedNodesInOrder, ∃ n,
      (((dijkstra g (some s) (some e)).distances.getD c.row []).getD c.col
        none) = some n ∧ distIs g s c n) := by
  obtain ⟨hr, hc⟩ := inBounds_pos hs
  rw [dijkstra_some hr hc, bfs_some hr hc]
  obtain ⟨⟨_, _, hddom, _⟩, hvopt, ⟨ld, hwd, hcd⟩, ⟨hdnr, hdatt, hdps⟩⟩ :=
    dij_run_spec g s e hs
  obtain ⟨_, ⟨lb, hwb, hcb⟩, ⟨hbnr, hbatt, hbps⟩⟩ := bfs_run_spec g s e hs
  have hpd : (getNodesInShortestPathOrder (dijkstraFinal g s e).prev e
      (walkFuel g)).getD [] = ld := by rw [hwd]; rfl
  have hpb : (getNodesInShortestPathOrder (bfsFinal g s e).prev e
      (walkFuel g)).getD [] = lb := by rw [hwb]; rfl
  dsimp only
  rw [hpd, hpb]
  have hdnone : (dijkstraFinal g s e).prev e = none → ld = [] := by
    intro h0
    have := hwd
    rw [getNodes_none h0] at this
    injection this with this
    exact this.symm
  have hbnone : (bfsFinal g s e).prev e = none → lb = [] := by
    intro h0
    have := hwb
    rw [getNodes_none h0] at this
    injection this with this
    exact this.symm
  have hmain : Reach g s e → e ≠ s →
      distIs g s e ld.length ∧ distIs g s e lb.length := by
    intro hre hes
    have hd1 := hdatt hre hes
    have hb1 := hbatt hre hes
    rcases hcd with ⟨h0, _⟩ | ⟨_, hdi, _⟩
    · exact absurd h0 hd1
    · rcases hcb with ⟨h0, _⟩ | ⟨_, hbi, _⟩
      · exact absurd h0 hb1
      · exact ⟨hdi, hbi⟩
  have hempty : ¬ Reach g s e ∨ e = s → ld = [] ∧ lb = [] := by
    rintro (hnr | hes)
    · exact ⟨hdnone (hdnr hnr), hbnone (hbnr hnr)⟩
    · subst hes
      exact ⟨hdnone hdps, hbnone hbps⟩
  refine ⟨?_, ?_, hmain, ?_⟩
  · by_cases hre : Reach g s e
    · by_cases hes : e = s
      · obtain ⟨h1, h2⟩ := hempty (Or.inr hes)
        rw [h1, h2]
      · obtain ⟨hdi, hbi⟩ := hmain hre hes
        exact distIs_unique hdi hbi
    · obtain ⟨h1, h2⟩ := hempty (Or.inl hre)
      rw [h1, h2]
  · intro n hn
    by_cases hes : e = s
    · obtain ⟨h1, h2⟩ := hempty (Or.inr hes)
      rw [h1, h2]
      simp
    · obtain ⟨hdi, hbi⟩ := hmain ⟨n, hn⟩ hes
      exact ⟨hbi.2 n hn, hdi.2 n hn⟩
  · intro c hcm
    obtain ⟨n, hdist, hopt⟩ := hvopt c hcm
    have hcb := (hddom c hcm).1
    refine ⟨n, ?_, hopt⟩
    rw [distMatrix_getD hcb.1 hcb.2]
    exact hdist

theorem dijkstra_bfs_optimal_witness :
    Rect gridNW12 ∧ inBounds gridNW12 ⟨0, 0⟩ ∧ inBounds gridNW12 ⟨0, 1⟩ ∧
    (dijkstra gridNW12 (some ⟨0, 0⟩) (some ⟨0, 1⟩)).shortestPath.length =
      (bfs gridNW12 (some ⟨0, 0⟩) (some ⟨0, 1⟩)).shortestPath.length :=
  ⟨by decide, by decide, by decide,
    (dijkstra_bfs_optimal gridNW12 ⟨0, 0⟩ ⟨0, 1⟩ (by decide) (by decide)
      (by decide)).1⟩

end PathVis

namespace PathVis

/-! ## Manhattan distance and wall-free grids -/

lemma manhattan_eq (a b : Coord) :
    manhattanDistance a b =
      (b.row - a.row) + (a.row - b.row) +
        ((b.col - a.col) + (a.col - b.col)) := by
  unfold manhattanDistance
  split <;> split <;> omega

lemma manhattan_self (a : Coord) : manhattanDistance a a = 0 := by
  rw [manhattan_eq]
  omega

lemma manhattan_eq_zero {a b : Coord} (h : manhattanDistance a b = 0) :
    a = b := by
  rw [manhattan_eq] at h
  cases a with
  | mk ar ac =>
    cases b with
    | mk br bc =>
      simp only at h ⊢
      have : ar = br ∧ ac = bc := by omega
      rw [this.1, this.2]

/-- Each grid neighbor differs by exactly one in exactly one coordinate. -/
lemma neighbor_delta {g : Grid} {u v : Coord} (h : v ∈ getNeighbors g u) :
    (v.row + 1 = u.row ∧ v.col = u.col) ∨
    (v.row = u.row + 1 ∧ v.col = u.col) ∨
    (v.col + 1 = u.col ∧ v.row = u.row) ∨
    (v.col = u.col + 1 ∧ v.row = u.row) := by
  unfold getNeighbors at h
  rcases List.mem_append.mp h with h1 | h1
  · rcases List.mem_append.mp h1 with h2 | h2
    · rcases List.mem_append.mp h2 with h3 | h3
      · split at h3
        · rename_i hcond
          simp at h3
          subst h3
          refine Or.inl ⟨?_, rfl⟩
          show u.row - 1 + 1 = u.row
          omega
        · simp at h3
      · split at h3
        · simp at h3
          subst h3
          exact Or.inr (Or.inl ⟨rfl, rfl⟩)
        · simp at h3
    · split at h2
      · rename_i hcond
        simp at h2
        subst h2
        refine Or.inr (Or.inr (Or.inl ⟨?_, rfl⟩))
        show u.col - 1 + 1 = u.col
        omega
      · simp at h2
  · split at h1
    · simp at h1
      subst h1
      exact Or.inr (Or.inr (Or.inr ⟨rfl, rfl⟩))
    · simp at h1

/-- Every admissible walk of `n` steps covers at most `n` of Manhattan
distance. -/
lemma manhattan_le_reachIn {g : Grid} {s : Coord} :
    ∀ {n : Nat} {x : Coord}, ReachIn g s n x →
      manhattanDistance s x ≤ n := by
  intro n
  induction n with
  | zero =>
    intro x hx
    cases hx
    rw [manhattan_self]
  | succ k ih =>
    intro x hx
    cases hx with
    | succ hw hstep =>
      rename_i u
      have h1 := ih hw
      have h2 := neighbor_delta hstep.1
      rw [manhattan_eq] at h1 ⊢
      rcases h2 with ⟨ha, hb⟩ | ⟨ha, hb⟩ | ⟨ha, hb⟩ | ⟨ha, hb⟩ <;> omega

lemma manhattan_le_reachIn' {g : Grid} {s : Coord} :
    ∀ {n : Nat} {x : Coord}, ReachIn g s n x →
      manhattanDistance x s ≤ n := by
  intro n x h
  have := manhattan_le_reachIn h
  rw [manhattan_eq] at this ⊢
  omega

lemma coord_eta {r c : Nat} (a : Coord) (hr : r = a.row)
    (hc : c = a.col) : a = ⟨r, c⟩ := by
  subst hr
  subst hc
  rfl

/-- On a wall-free grid every in-bounds cell is reached by a monotone walk
of exactly its Manhattan distance from the start. -/
lemma reachIn_manhattan {g : Grid} {s : Coord} (hs : inBounds g s)
    (hwf : ∀ c, inBounds g c → isWallAt g c = false) :
    ∀ (k : Nat) (c : Coord), inBounds g c → manhattanDistance s c = k →
      ReachIn g s k c := by
  intro k
  induction k with
  | zero =>
    intro c hc hm
    have := manhattan_eq_zero hm
    subst this
    exact ReachIn.zero
  | succ k ih =>
    intro c hc hm
    rw [manhattan_eq] at hm
    by_cases hrow : s.row < c.row
    · set b : Coord := ⟨c.row - 1, c.col⟩ with hb
      have hbB : inBounds g b := ⟨by have := hc.1; simp [hb]; omega, hc.2⟩
      have hbm : manhattanDistance s b = k := by
        rw [manhattan_eq]
        simp [hb]
        omega
      have hR := ih b hbB hbm
      have hmem : c ∈ getNeighbors g b := by
        unfold getNeighbors
        rw [List.mem_append]
        refine Or.inl ?_
        rw [List.mem_append]
        refine Or.inl ?_
        rw [List.mem_append]
        refine Or.inr ?_
        have hcond : b.row + 1 < rowsOf g ∧ b.col < colsOf g := by
          constructor
          · show c.row - 1 + 1 < rowsOf g
            have := hc.1
            omega
          · exact hc.2
        rw [if_pos hcond]
        simp only [hb, List.mem_singleton]
        exact coord_eta c (by omega) rfl
      exact ReachIn.succ hR ⟨hmem, hwf c hc⟩
    · by_cases hrow2 : c.row < s.row
      · set b : Coord := ⟨c.row + 1, c.col⟩ with hb
        have hbB : inBounds g b :=
          ⟨by have := hs.1; simp [hb]; omega, hc.2⟩
        have hbm : manhattanDistance s b = k := by
          rw [manhattan_eq]
          simp [hb]
          omega
        have hR := ih b hbB hbm
        have hmem : c ∈ getNeighbors g b := by
          unfold getNeighbors
          rw [List.mem_append]
          refine Or.inl ?_
          rw [List.mem_append]
          refine Or.inl ?_
          rw [List.mem_append]
          refine Or.inl ?_
          have hcond : b.row ≠ 0 ∧ b.row - 1 < rowsOf g ∧
              b.col < colsOf g := by
            refine ⟨by simp [hb], ?_, hc.2⟩
            show c.row + 1 - 1 < rowsOf g
            exact hc.1
          rw [if_pos hcond]
          simp only [hb, List.mem_singleton]
          exact coord_eta c (by omega) rfl
        exact ReachIn.succ hR ⟨hmem, hwf c hc⟩
      · have hre : c.row = s.row := by omega
        by_cases hcol : s.col < c.col
        · set b : Coord := ⟨c.row, c.col - 1⟩ with hb
          have hbB : inBounds g b :=
            ⟨hc.1, by have := hc.2; simp [hb]; omega⟩
          have hbm : manhattanDistance s b = k := by
            rw [manhattan_eq]
            simp [hb]
            omega
          have hR := ih b hbB hbm
          have hmem : c ∈ getNeighbors g b := by
            unfold getNeighbors
            rw [List.mem_append]
            refine Or.inr ?_
            have hcond : b.row < rowsOf g ∧ b.col + 1 < colsOf g := by
              refine ⟨hc.1, ?_⟩
              show c.col - 1 + 1 < colsOf g
              have := hc.2
              omega
            rw [if_pos hcond]
            simp only [hb, List.mem_singleton]
            exact coord_eta c rfl (by omega)
          exact ReachIn.succ hR ⟨hmem, hwf c hc⟩
        · have hcol2 : c.col < s.col := by omega
          set b : Coord := ⟨c.row, c.col + 1⟩ with hb
          have hbB : inBounds g b :=
            ⟨hc.1, by have := hs.2; simp [hb]; omega⟩
          have hbm : manhattanDistance s b = k := by
            rw [manhattan_eq]
            simp [hb]
            omega
          have hR := ih b hbB hbm
          have hmem : c ∈ getNeighbors g b := by
            unfold getNeighbors
            rw [List.mem_append]
            refine Or.inl ?_
            rw [List.mem_append]
            refine Or.inr ?_
            have hcond : b.row < rowsOf g ∧ b.col ≠ 0 ∧
                b.col - 1 < colsOf g := by
              refine ⟨hc.1, by simp [hb], ?_⟩
              show c.col + 1 - 1 < colsOf g
              exact hc.2
            rw [if_pos hcond]
            simp only [hb, List.mem_singleton]
            exact coord_eta c rfl (by omega)
          exact ReachIn.succ hR ⟨hmem, hwf c hc⟩

/-- On a wall-free grid the optimal distance is the Manhattan distance. -/
lemma distIs_manhattan {g : Grid} {s e : Coord} (hs : inBounds g s)
    (he : inBounds g e)
    (hwf : ∀ c, inBounds g c → isWallAt g c = false) :
    distIs g s e (manhattanDistance s e) :=
  ⟨reachIn_manhattan hs hwf _ e he rfl, fun m h => manhattan_le_reachIn h⟩

end PathVis

namespace PathVis

lemma neighbor_manhattan_pm1 {g : Grid} {u v e : Coord}
    (h : v ∈ getNeighbors g u) :
    manhattanDistance v e + 1 = manhattanDistance u e ∨
      manhattanDistance v e = manhattanDistance u e + 1 := by
  have h2 := neighbor_delta h
  rw [manhattan_eq, manhattan_eq]
  rcases h2 with ⟨ha, hb⟩ | ⟨ha, hb⟩ | ⟨ha, hb⟩ | ⟨ha, hb⟩ <;> omega

lemma toward_neighbor {g : Grid} {c e : Coord} (hc : inBounds g c)
    (he : inBounds g e) (hm : 1 ≤ manhattanDistance c e) :
    ∃ w ∈ getNeighbors g c,
      manhattanDistance w e + 1 = manhattanDistance c e := by
  rw [manhattan_eq] at hm
  by_cases hrow : c.row < e.row
  · refine ⟨⟨c.row + 1, c.col⟩, ?_, ?_⟩
    · unfold getNeighbors
      rw [List.mem_append]
      refine Or.inl ?_
      rw [List.mem_append]
      refine Or.inl ?_
      rw [List.mem_append]
      refine Or.inr ?_
      have hcond : c.row + 1 < rowsOf g ∧ c.col < colsOf g :=
        ⟨by have := he.1; omega, hc.2⟩
      rw [if_pos hcond]
      simp
    · rw [manhattan_eq, manhattan_eq]
      simp only
      omega
  · by_cases hrow2 : e.row < c.row
    · refine ⟨⟨c.row - 1, c.col⟩, ?_, ?_⟩
      · unfold getNeighbors
        rw [List.mem_append]
        refine Or.inl ?_
        rw [List.mem_append]
        refine Or.inl ?_
        rw [List.mem_append]
        refine Or.inl ?_
        have hcond : c.row ≠ 0 ∧ c.row - 1 < rowsOf g ∧
            c.col < colsOf g := ⟨by omega, by have := hc.1; omega, hc.2⟩
        rw [if_pos hcond]
        simp
      · rw [manhattan_eq, manhattan_eq]
        simp only
        omega
    · by_cases hcol : c.col < e.col
      · refine ⟨⟨c.row, c.col + 1⟩, ?_, ?_⟩
        · unfold getNeighbors
          rw [List.mem_append]
          refine Or.inr ?_
          have hcond : c.row < rowsOf g ∧ c.col + 1 < colsOf g :=
            ⟨hc.1, by have := he.2; omega⟩
          rw [if_pos hcond]
          simp
        · rw [manhattan_eq, manhattan_eq]
          simp only
          omega
      · by_cases hcol2 : e.col < c.col
        · refine ⟨⟨c.row, c.col - 1⟩, ?_, ?_⟩
          · unfold getNeighbors
            rw [List.mem_append]
            refine Or.inl ?_
            rw [List.mem_append]
            refine Or.inr ?_
            have hcond : c.row < rowsOf g ∧ c.col ≠ 0 ∧
                c.col - 1 < colsOf g :=
              ⟨hc.1, by omega, by have := hc.2; omega⟩
            rw [if_pos hcond]
            simp
          · rw [manhattan_eq, manhattan_eq]
            simp only
            omega
        · omega

lemma manhattan_lt_cells {g : Grid} {s e : Coord} (hs : inBounds g s)
    (he : inBounds g e) :
    manhattanDistance s e < rowsOf g * colsOf g := by
  obtain ⟨hr, hc⟩ := inBounds_pos hs
  obtain ⟨a, ha⟩ : ∃ a, rowsOf g = a + 1 := ⟨rowsOf g - 1, by omega⟩
  obtain ⟨b, hb⟩ : ∃ b, colsOf g = b + 1 := ⟨colsOf g - 1, by omega⟩
  have hprod : (a + 1) * (b + 1) = a * b + a + b + 1 := by ring
  have hsr := hs.1
  have hsc := hs.2
  have her := he.1
  have hec := he.2
  rw [manhattan_eq, ha, hb] at *
  rw [hprod]
  have habz : 0 ≤ a * b := Nat.zero_le _
  omega

lemma head?_get0 {L : List Coord} (hL : 0 < L.length) :
    L.head? = some (L.get ⟨0, hL⟩) := by
  cases L with
  | nil => simp at hL
  | cons a t => rfl

/-- An order list whose consecutive entries are predecessor-linked and
whose head has no predecessor yields ancestor chains that are its own
prefixes. -/
lemma chain_of_path {prev : Coord → Option Coord} {L : List Coord}
    (h0 : ∀ (hL : 0 < L.length), prev (L.get ⟨0, hL⟩) = none)
    (hpath : ∀ i (hi : i + 1 < L.length),
      prev (L.get ⟨i + 1, hi⟩) =
        some (L.get ⟨i, Nat.lt_of_succ_lt hi⟩)) :
    ∀ j (hj : j < L.length), AncChain prev (L.get ⟨j, hj⟩) (L.take j) := by
  intro j
  induction j with
  | zero =>
    intro hj
    exact AncChain.nil (h0 hj)
  | succ k ih =>
    intro hj
    have hk : k < L.length := Nat.lt_of_succ_lt hj
    have hstep := hpath k hj
    have hchain := ih hk
    have htake : L.take k ++ [L.get ⟨k, hk⟩] = L.take (k + 1) := by
      rw [← List.concat_eq_append]
      exact List.take_concat_get L k hk
    rw [← htake]
    exact AncChain.cons hstep hchain

end PathVis

namespace PathVis

/-- Wall-free greedy invariant, mid-iteration form: the order is a single
strictly-advancing wavefront path, the queue holds true-heuristic entries
one or two levels around it, and predecessors point one level back. -/
structure GWmid (g : Grid) (s e c : Coord) (σ : GreedyState) : Prop where
  hlen1 : 1 ≤ σ.order.length
  hlen : σ.order.length ≤ manhattanDistance s e
  hhead : σ.order.head? = some s
  hlev : ∀ i (hi : i < σ.order.length),
    manhattanDistance (σ.order.get ⟨i, hi⟩) e + i = manhattanDistance s e
  hclast : ∀ (hL : σ.order.length - 1 < σ.order.length),
    σ.order.get ⟨σ.order.length - 1, hL⟩ = c
  hpath : ∀ i (hi : i + 1 < σ.order.length),
    σ.prev (σ.order.get ⟨i + 1, hi⟩) =
      some (σ.order.get ⟨i, Nat.lt_of_succ_lt hi⟩)
  hq_pr : ∀ x ∈ σ.queue, x.2 = manhattanDistance x.1 e
  hq_ge : ∀ x ∈ σ.queue,
    manhattanDistance s e ≤ x.2 + σ.order.length
  hq_prev : ∀ x ∈ σ.queue, ∃ i, ∃ (hi : i < σ.order.length),
    σ.prev x.1 = some (σ.order.get ⟨i, hi⟩) ∧
    (x.2 + i = manhattanDistance s e + 1 ∨
      x.2 + i + 1 = manhattanDistance s e)
  hsort : PQSorted σ.queue

/-- Loop-entry form: additionally the queue carries a wavefront entry one
level past the order. -/
structure GWinv (g : Grid) (s e : Coord) (σ : GreedyState) : Prop where
  hlen1 : 1 ≤ σ.order.length
  hlen : σ.order.length ≤ manhattanDistance s e
  hhead : σ.order.head? = some s
  hlev : ∀ i (hi : i < σ.order.length),
    manhattanDistance (σ.order.get ⟨i, hi⟩) e + i = manhattanDistance s e
  hpath : ∀ i (hi : i + 1 < σ.order.length),
    σ.prev (σ.order.get ⟨i + 1, hi⟩) =
      some (σ.order.get ⟨i, Nat.lt_of_succ_lt hi⟩)
  hq_pr : ∀ x ∈ σ.queue, x.2 = manhattanDistance x.1 e
  hq_ge : ∀ x ∈ σ.queue,
    manhattanDistance s e ≤ x.2 + σ.order.length
  hq_prev : ∀ x ∈ σ.queue, ∃ i, ∃ (hi : i < σ.order.length),
    σ.prev x.1 = some (σ.order.get ⟨i, hi⟩) ∧
    (x.2 + i = manhattanDistance s e + 1 ∨
      x.2 + i + 1 = manhattanDistance s e)
  hq_wave : ∃ x p, (x, p) ∈ σ.queue ∧
    p + σ.order.length = manhattanDistance s e
  hsort : PQSorted σ.queue

lemma gw_relax {g : Grid} {s e c : Coord} {σ : GreedyState} {nb : Coord}
    (hwf : ∀ x, inBounds g x → isWallAt g x = false)
    (hbm : GreedyMid g s c σ) (hm : GWmid g s e c σ)
    (hnb : nb ∈ getNeighbors g c) :
    GWmid g s e c (greedyRelax g e c σ nb) ∧
      (∀ x ∈ σ.queue, x ∈ (greedyRelax g e c σ nb).queue) ∧
      (σ.closed nb = false →
        (nb, manhattanDistance nb e) ∈ (greedyRelax g e c σ nb).queue) := by
  have hnbB : inBounds g nb := getNeighbors_inBounds hnb
  have hwall : isWallAt g nb = false := hwf nb hnbB
  by_cases hcl : σ.closed nb = true
  · have heq : greedyRelax g e c σ nb = σ := by
      unfold greedyRelax
      simp [hcl]
    rw [heq]
    refine ⟨hm, fun x hx => hx, ?_⟩
    intro h0
    rw [hcl] at h0
    cases h0
  · have hfresh : σ.closed nb = false := Bool.eq_false_iff.mpr hcl
    have hnbo : nb ∉ σ.order := fun h => by
      rw [(hbm.closed_iff nb).mpr h] at hfresh; cases hfresh
    have hL := hm.hlen1
    have hL1 : σ.order.length - 1 < σ.order.length := by omega
    have hc1 : σ.order.get ⟨σ.order.length - 1, hL1⟩ = c := hm.hclast hL1
    have hcl1 : manhattanDistance c e + (σ.order.length - 1) =
        manhattanDistance s e := by
      have := hm.hlev (σ.order.length - 1) hL1
      rw [hc1] at this
      exact this
    have hpm := neighbor_manhattan_pm1 (e := e) hnb
    by_cases hasnb : pqHasNode σ.queue nb = true
    · have heq : greedyRelax g e c σ nb =
          { σ with prev := setAt σ.prev nb (some c) } := by
        unfold greedyRelax
        rw [hfresh, hwall]
        simp [hasnb]
      rw [heq]
      refine ⟨?_, fun x hx => hx, ?_⟩
      · refine ⟨hm.hlen1, hm.hlen, hm.hhead, hm.hlev, hm.hclast, ?_,
          hm.hq_pr, hm.hq_ge, ?_, hm.hsort⟩
        · intro i hi
          have hne : σ.order.get ⟨i + 1, hi⟩ ≠ nb := fun h =>
            hnbo (h ▸ List.get_mem σ.order (i + 1) hi)
          simp only [setAt_ne _ _ _ hne]
          exact hm.hpath i hi
        · intro x hx
          by_cases hxn : x.1 = nb
          · refine ⟨σ.order.length - 1, hL1, ?_, ?_⟩
            · dsimp only
              rw [hxn, setAt_eq, hc1]
            · have hpr := hm.hq_pr x hx
              rw [hxn] at hpr
              rcases hpm with h | h <;> [right; left] <;> omega
          · dsimp only
            simp only [setAt_ne _ _ _ hxn]
            exact hm.hq_prev x hx
      · intro _
        obtain ⟨y, hy, hy1⟩ := pqHasNode_iff.mp hasnb
        have hpr := hm.hq_pr y hy
        rw [hy1] at hpr
        have : y = (nb, manhattanDistance nb e) := by
          obtain ⟨y1, y2⟩ := y
          simp only at hy1 hpr
          rw [hy1, hpr]
        rw [← this]
        exact hy
    · have heq : greedyRelax g e c σ nb =
          { σ with prev := setAt σ.prev nb (some c)
                   queue := pqEnqueue σ.queue nb
                     (manhattanDistance nb e) } := by
        unfold greedyRelax
        rw [hfresh, hwall]
        simp [hasnb]
      rw [heq]
      have hmemq : ∀ x, x ∈ pqEnqueue σ.queue nb (manhattanDistance nb e) ↔
          x = (nb, manhattanDistance nb e) ∨ x ∈ σ.queue :=
        fun x => mem_pqEnqueue
      refine ⟨?_, ?_, ?_⟩
      · refine ⟨hm.hlen1, hm.hlen, hm.hhead, hm.hlev, hm.hclast, ?_,
          ?_, ?_, ?_, pqSorted_enqueue hm.hsort _ _⟩
        · intro i hi
          have hne : σ.order.get ⟨i + 1, hi⟩ ≠ nb := fun h =>
            hnbo (h ▸ List.get_mem σ.order (i + 1) hi)
          simp only [setAt_ne _ _ _ hne]
          exact hm.hpath i hi
        · intro x hx
          rcases (hmemq x).mp hx with h | h
          · rw [h]
          · exact hm.hq_pr x h
        · intro x hx
          rcases (hmemq x).mp hx with h | h
          · rw [h]
            simp only
            rcases hpm with h2 | h2 <;> omega
          · exact hm.hq_ge x h
        · intro x hx
          rcases (hmemq x).mp hx with h | h
          · refine ⟨σ.order.length - 1, hL1, ?_, ?_⟩
            · dsimp only
              rw [h]
              dsimp only
              rw [setAt_eq, hc1]
            · rw [h]
              dsimp only
              rcases hpm with h2 | h2 <;> [right; left] <;> omega
          · by_cases hxn : x.1 = nb
            · refine ⟨σ.order.length - 1, hL1, ?_, ?_⟩
              · dsimp only
                rw [hxn, setAt_eq, hc1]
              · have hpr := hm.hq_pr x h
                rw [hxn] at hpr
                rcases hpm with h2 | h2 <;> [right; left] <;> omega
            · dsimp only
              simp only [setAt_ne _ _ _ hxn]
              exact hm.hq_prev x h
      · intro x hx
        exact (hmemq x).mpr (Or.inr hx)
      · intro _
        exact (hmemq _).mpr (Or.inl rfl)

end PathVis

namespace PathVis

lemma head?_append_left {L L' : List Coord} (h : 0 < L.length) :
    (L ++ L').head? = L.head? := by
  cases L with
  | nil => simp at h
  | cons a t => rfl

lemma gw_fold {g : Grid} {s e c : Coord}
    (hwf : ∀ x, inBounds g x → isWallAt g x = false) :
    ∀ (nbs : List Coord) {σ : GreedyState}, GreedyMid g s c σ →
      GWmid g s e c σ → (∀ nb ∈ nbs, nb ∈ getNeighbors g c) →
      GWmid g s e c (nbs.foldl (greedyRelax g e c) σ) ∧
        (∀ x ∈ σ.queue, x ∈ (nbs.foldl (greedyRelax g e c) σ).queue) ∧
        (∀ nb ∈ nbs, σ.closed nb = false →
          (nb, manhattanDistance nb e) ∈
            (nbs.foldl (greedyRelax g e c) σ).queue) := by
  intro nbs
  induction nbs with
  | nil =>
    intro σ _ hm _
    exact ⟨hm, fun x hx => hx, by simp⟩
  | cons a t ih =>
    intro σ hbm hm hmem
    have ha : a ∈ getNeighbors g c := hmem a (by simp)
    obtain ⟨hbm1, _, hcl1, _⟩ := greedyRelax_mid hbm ha
    obtain ⟨hm1, hpers1, hproc1⟩ := gw_relax hwf hbm hm ha
    obtain ⟨hm2, hpers2, hproc2⟩ :=
      ih hbm1 hm1 fun nb hnb => hmem nb (by simp [hnb])
    refine ⟨hm2, ?_, ?_⟩
    · intro x hx
      exact hpers2 x (hpers1 x hx)
    · intro nb hnb hfr
      rcases List.mem_cons.mp hnb with h | h
      · subst h
        exact hpers2 _ (hproc1 hfr)
      · have hfr1 : (greedyRelax g e c σ a).closed nb = false := by
          rw [hcl1]
          exact hfr
        exact hproc2 nb h hfr1

lemma gw_pop {g : Grid} {s e : Coord} {σ : GreedyState} {c : Coord}
    {p : Nat} {rest : PQueue} (hI : GreedyInv g s σ)
    (hW : GWinv g s e σ) (hq : σ.queue = (c, p) :: rest) (hce : c ≠ e) :
    GWmid g s e c
      { σ with queue := rest, closed := setAt σ.closed c true,
               order := σ.order ++ [c] } ∧
      p + σ.order.length = manhattanDistance s e := by
  have hcq : (c, p) ∈ σ.queue := by rw [hq]; simp
  have hpm : p + σ.order.length = manhattanDistance s e := by
    obtain ⟨x, pw, hxw, hpw⟩ := hW.hq_wave
    have hge := hW.hq_ge (c, p) hcq
    simp only at hge
    rw [hq] at hxw
    rcases List.mem_cons.mp hxw with h | h
    · have : pw = p := by
        have := congrArg Prod.snd h
        simpa using this
      omega
    · have hsorted := hW.hsort
      rw [hq] at hsorted
      have := pqSorted_head_min hsorted (x, pw) h
      simp only at this
      omega
  have hcpr : p = manhattanDistance c e := by
    have := hW.hq_pr (c, p) hcq
    simpa using this
  have hlt : σ.order.length < manhattanDistance s e := by
    rcases Nat.lt_or_ge σ.order.length (manhattanDistance s e) with h | h
    · exact h
    · have hle := hW.hlen
      have hLm : σ.order.length = manhattanDistance s e := by omega
      have hp0 : p = 0 := by omega
      rw [hp0] at hcpr
      exact absurd (manhattan_eq_zero hcpr.symm) hce
  have hL1 := hW.hlen1
  refine ⟨⟨?_, ?_, ?_, ?_, ?_, ?_, ?_, ?_, ?_, ?_⟩, hpm⟩
  · show 1 ≤ (σ.order ++ [c]).length
    simp
  · show (σ.order ++ [c]).length ≤ manhattanDistance s e
    simp only [List.length_append, List.length_cons, List.length_nil]
    omega
  · show (σ.order ++ [c]).head? = some s
    rw [head?_append_left (by omega : 0 < σ.order.length)]
    exact hW.hhead
  · intro i hi
    have hi2 : i < σ.order.length + 1 := by
      simpa using hi
    by_cases hilt : i < σ.order.length
    · have hget : (σ.order ++ [c]).get ⟨i, hi⟩ = σ.order.get ⟨i, hilt⟩ := by
        simp only [List.get_eq_getElem]
        exact List.getElem_append_left hilt
      rw [hget]
      exact hW.hlev i hilt
    · have hieq : i = σ.order.length := by omega
      have hget : (σ.order ++ [c]).get ⟨i, hi⟩ = c := by
        simp only [List.get_eq_getElem]
        exact List.getElem_concat_length σ.order c i hieq _
      rw [hget, hieq]
      omega
  · intro hL
    have hieq : (σ.order ++ [c]).length - 1 = σ.order.length := by
      simp
    have hget : (σ.order ++ [c]).get ⟨(σ.order ++ [c]).length - 1, hL⟩ =
        c := by
      simp only [List.get_eq_getElem]
      exact List.getElem_concat_length σ.order c _ hieq _
    exact hget
  · intro i hi
    have hi2 : i + 1 < σ.order.length + 1 := by simpa using hi
    by_cases hilt : i + 1 < σ.order.length
    · have hg1 : (σ.order ++ [c]).get ⟨i + 1, hi⟩ =
          σ.order.get ⟨i + 1, hilt⟩ := by
        simp only [List.get_eq_getElem]
        exact List.getElem_append_left hilt
      have hg2 : (σ.order ++ [c]).get ⟨i, Nat.lt_of_succ_lt hi⟩ =
          σ.order.get ⟨i, Nat.lt_of_succ_lt hilt⟩ := by
        simp only [List.get_eq_getElem]
        exact List.getElem_append_left (Nat.lt_of_succ_lt hilt)
      rw [hg1, hg2]
      exact hW.hpath i hilt
    · have hieq : i + 1 = σ.order.length := by omega
      have hg1 : (σ.order ++ [c]).get ⟨i + 1, hi⟩ = c := by
        simp only [List.get_eq_getElem]
        exact List.getElem_concat_length σ.order c _ hieq _
      obtain ⟨i0, hi0, hpc, hdisj⟩ := hW.hq_prev (c, p) hcq
      have hi0eq : i0 = i := by
        simp only at hdisj
        omega
      have hg2 : (σ.order ++ [c]).get ⟨i, Nat.lt_of_succ_lt hi⟩ =
          σ.order.get ⟨i0, hi0⟩ := by
        simp only [List.get_eq_getElem]
        subst hi0eq
        exact List.getElem_append_left hi0
      rw [hg1, hg2]
      exact hpc
  · intro x hx
    exact hW.hq_pr x (by rw [hq]; simp [hx])
  · intro x hx
    have := hW.hq_ge x (by rw [hq]; simp [hx])
    simp only [List.length_append, List.length_cons, List.length_nil]
    omega
  · intro x hx
    obtain ⟨i0, hi0, hpc, hdisj⟩ := hW.hq_prev x (by rw [hq]; simp [hx])
    refine ⟨i0, by simp; omega, ?_, ?_⟩
    · have hg : (σ.order ++ [c]).get ⟨i0, by simp; omega⟩ =
          σ.order.get ⟨i0, hi0⟩ := by
        simp only [List.get_eq_getElem]
        exact List.getElem_append_left hi0
      rw [hg]
      exact hpc
    · exact hdisj
  · have := hW.hsort
    rw [hq] at this
    exact (List.pairwise_cons.mp this).2

end PathVis

namespace PathVis

lemma gw_close {g : Grid} {s e c : Coord} {σ : GreedyState}
    (he : inBounds g e) (hbm : GreedyMid g s c σ) (hm : GWmid g s e c σ)
    (hproc : ∀ nb ∈ getNeighbors g c, σ.closed nb = false →
      (nb, manhattanDistance nb e) ∈ σ.queue) :
    GWinv g s e σ := by
  have hL1 := hm.hlen1
  have hLl : σ.order.length - 1 < σ.order.length := by omega
  have hc1 := hm.hclast hLl
  have hcmem : c ∈ σ.order := hc1 ▸ List.get_mem _ _ _
  have hcB : inBounds g c := (hbm.order_dom c hcmem).1
  have hclev : manhattanDistance c e + (σ.order.length - 1) =
      manhattanDistance s e := by
    have := hm.hlev (σ.order.length - 1) hLl
    rw [hc1] at this
    exact this
  have hc_ge1 : 1 ≤ manhattanDistance c e := by
    have := hm.hlen
    omega
  obtain ⟨w, hwmem, hwlev⟩ := toward_neighbor hcB he hc_ge1
  have hwcl : σ.closed w = false := by
    by_contra hcl
    have hwT : σ.closed w = true := by
      cases hclw : σ.closed w
      · exact absurd hclw hcl
      · rfl
    have hwo : w ∈ σ.order := (hbm.closed_iff w).mp hwT
    obtain ⟨i, hget⟩ := List.mem_iff_get.mp hwo
    have := hm.hlev i.1 i.2
    rw [show (⟨i.1, i.2⟩ : Fin _) = i from rfl, hget] at this
    have hiub : i.1 < σ.order.length := i.2
    omega
  have hwq := hproc w hwmem hwcl
  refine ⟨hm.hlen1, hm.hlen, hm.hhead, hm.hlev, hm.hpath, hm.hq_pr,
    hm.hq_ge, hm.hq_prev, ?_, hm.hsort⟩
  exact ⟨w, manhattanDistance w e, hwq, by omega⟩

lemma gw_head_level {g : Grid} {s e : Coord} {σ : GreedyState} {c : Coord}
    {p : Nat} {rest : PQueue} (hW : GWinv g s e σ)
    (hq : σ.queue = (c, p) :: rest) :
    p + σ.order.length = manhattanDistance s e ∧
      p = manhattanDistance c e := by
  have hcq : (c, p) ∈ σ.queue := by rw [hq]; simp
  constructor
  · obtain ⟨x, pw, hxw, hpw⟩ := hW.hq_wave
    have hge := hW.hq_ge (c, p) hcq
    simp only at hge
    rw [hq] at hxw
    rcases List.mem_cons.mp hxw with h | h
    · have : pw = p := by
        have := congrArg Prod.snd h
        simpa using this
      omega
    · have hsorted := hW.hsort
      rw [hq] at hsorted
      have := pqSorted_head_min hsorted (x, pw) h
      simp only at this
      omega
  · have := hW.hq_pr (c, p) hcq
    simpa using this

theorem gw_loop (g : Grid) (s e : Coord)
    (hwf : ∀ x, inBounds g x → isWallAt g x = false) (he : inBounds g e) :
    ∀ (fuel : Nat) (σ : GreedyState), GreedyInv g s σ → GWinv g s e σ →
      openMeasure g σ.closed σ.queue < fuel →
      ∃ l, getNodesInShortestPathOrder (greedyLoop g e fuel σ).prev e
          (walkFuel g) = some l ∧
        l.length = manhattanDistance s e := by
  intro fuel
  induction fuel with
  | zero =>
    intro σ _ _ h
    omega
  | succ f ih =>
    intro σ hI hW hmeas
    cases hq : σ.queue with
    | nil =>
      obtain ⟨x, pw, hxw, _⟩ := hW.hq_wave
      rw [hq] at hxw
      simp at hxw
    | cons y rest =>
      obtain ⟨c, p⟩ := y
      obtain ⟨hpm, hcpr⟩ := gw_head_level hW hq
      by_cases hce : c = e
      · have heval : greedyLoop g e (f + 1) σ =
            { σ with queue := rest, order := σ.order ++ [c] } := by
          conv_lhs => rw [greedyLoop.eq_def]
          simp [hq]
          intro h
          exact absurd hce h
        have hp0 : p = 0 := by
          rw [hcpr, hce, manhattan_self]
        have hLm : σ.order.length = manhattanDistance s e := by omega
        have hL1 := hW.hlen1
        have hs0 : 0 < σ.order.length := by omega
        have hgets : σ.order.get ⟨0, hs0⟩ = s := by
          have h1 := head?_get0 hs0
          rw [hW.hhead] at h1
          injection h1 with h1
          exact h1.symm
        have h0 : ∀ (hL : 0 < σ.order.length),
            σ.prev (σ.order.get ⟨0, hL⟩) = none := by
          intro hL
          rw [hgets]
          exact hI.prev_s
        have hLl : σ.order.length - 1 < σ.order.length := by omega
        obtain ⟨i0, hi0, hpc, hdisj⟩ := hW.hq_prev (c, p)
          (by rw [hq]; simp)
        have hi0eq : i0 = σ.order.length - 1 := by
          simp only at hdisj
          omega
        subst hi0eq
        have hchain := chain_of_path h0 hW.hpath (σ.order.length - 1) hi0
        have hbig : AncChain σ.prev c
            (σ.order.take (σ.order.length - 1) ++
              [σ.order.get ⟨σ.order.length - 1, hi0⟩]) :=
          AncChain.cons hpc hchain
        have htake : σ.order.take (σ.order.length - 1) ++
            [σ.order.get ⟨σ.order.length - 1, hi0⟩] = σ.order := by
          simp only [List.get_eq_getElem]
          rw [← List.concat_eq_append, List.take_concat_get]
          have h1 : σ.order.length - 1 + 1 = σ.order.length := by omega
          rw [h1]
          exact List.take_length σ.order
        rw [htake] at hbig
        have hsmem : s ∈ σ.order := hgets ▸ List.get_mem _ _ _
        have hsB : inBounds g s := (hI.order_dom s hsmem).1
        have hmlt : manhattanDistance s e < rowsOf g * colsOf g :=
          manhattan_lt_cells hsB he
        have hflt : σ.order.length < walkFuel g := by
          unfold walkFuel
          omega
        have hwalk := getNodes_of_ancChain hbig hflt
        have hwalk2 : getNodesInShortestPathOrder σ.prev e (walkFuel g) =
            some σ.order := by
          rw [← hce]
          exact hwalk
        rw [heval]
        exact ⟨σ.order, hwalk2, by omega⟩
      · have heval : greedyLoop g e (f + 1) σ =
            greedyLoop g e f ((getNeighbors g c).foldl (greedyRelax g e c)
              { σ with queue := rest, closed := setAt σ.closed c true,
                       order := σ.order ++ [c] }) := by
          conv_lhs => rw [greedyLoop.eq_def]
          simp [hq]
          intro h
          exact absurd h hce
        rw [heval]
        have hbm := greedyInv_pop hI hq
        obtain ⟨hWm, _⟩ := gw_pop hI hW hq hce
        obtain ⟨hbm2, _, hcl2, hms2⟩ :=
          greedyRelax_fold (getNeighbors g c) hbm fun nb h => h
        obtain ⟨hWm2, _, hproc2⟩ :=
          gw_fold hwf (getNeighbors g c) hbm hWm fun nb h => h
        have hproc3 : ∀ nb ∈ getNeighbors g c,
            ((getNeighbors g c).foldl (greedyRelax g e c)
              { σ with queue := rest, closed := setAt σ.closed c true,
                       order := σ.order ++ [c] }).closed nb = false →
            (nb, manhattanDistance nb e) ∈
              ((getNeighbors g c).foldl (greedyRelax g e c)
                { σ with queue := rest, closed := setAt σ.closed c true,
                         order := σ.order ++ [c] }).queue := by
          intro nb hnb hfr
          rw [hcl2] at hfr
          exact hproc2 nb hnb hfr
        have hW2 := gw_close he hbm2 hWm2 hproc3
        have hI2 := greedyMid_inv hbm2
        apply ih _ hI2 hW2
        rw [hms2]
        have hdec := open_pop_measure (g := g) (d := σ.closed)
          (c := c) (p := p) (r := rest)
        rw [← hq] at hdec
        dsimp only
        omega

end PathVis

namespace PathVis

lemma greedyInit_measure {g : Grid} {s : Coord} (hs : inBounds g s) :
    openMeasure g (greedyInit s).closed (greedyInit s).queue =
      rowsOf g * colsOf g := by
  unfold openMeasure
  have hcnt : ((allCoords g).filter fun x =>
      !(greedyInit s).closed x &&
        !pqHasNode (greedyInit s).queue x).length + 1 =
      rowsOf g * colsOf g := by
    rw [← List.countP_eq_length_filter]
    have := countP_flip_at (L := allCoords g)
      (p := fun _ => true)
      (q := fun x => !(greedyInit s).closed x &&
        !pqHasNode (greedyInit s).queue x) (b := s)
      rfl
      (by
        have h1 : (greedyInit s).closed s = false := rfl
        have h2 : pqHasNode (greedyInit s).queue s = true := by
          rw [pqHasNode_mem]
          show s ∈ [(s, 0)].map Prod.fst
          simp
        simp [h1, h2])
      (nodup_allCoords g) (mem_allCoords.mpr hs)
      (by
        intro x _ hxs
        have h1 : (greedyInit s).closed x = false := rfl
        have h2 : pqHasNode (greedyInit s).queue x = false := by
          apply Bool.eq_false_iff.mpr
          intro hmem
          rw [pqHasNode_mem] at hmem
          rw [show (greedyInit s).queue = [(s, 0)] from rfl] at hmem
          simp at hmem
          exact hxs hmem
        simp [h1, h2])
    rw [this]
    rw [List.countP_true, length_allCoords]
  have hlen : (greedyInit s).queue.length = 1 := rfl
  rw [hlen]
  omega

/-- On a wall-free grid with distinct in-bounds endpoints, the backward
walk over `greedy`'s final predecessor map returns a path of exactly the
Manhattan distance. -/
theorem greedy_wallfree_path (g : Grid) (s e : Coord) (hs : inBounds g s)
    (he : inBounds g e)
    (hwf : ∀ x, inBounds g x → isWallAt g x = false) (hse : s ≠ e) :
    ∃ l, getNodesInShortestPathOrder (greedyFinal g s e).prev e
        (walkFuel g) = some l ∧
      l.length = manhattanDistance s e := by
  have hm1 : 1 ≤ manhattanDistance s e := by
    rcases Nat.eq_zero_or_pos (manhattanDistance s e) with h | h
    · exact absurd (manhattan_eq_zero h) hse
    · exact h
  obtain ⟨hr, hc⟩ := inBounds_pos hs
  have hrc1 : 1 ≤ rowsOf g * colsOf g := Nat.one_le_iff_ne_zero.mpr
    (by positivity)
  obtain ⟨f, hf⟩ : ∃ f, rowsOf g * colsOf g = f + 1 :=
    ⟨rowsOf g * colsOf g - 1, by omega⟩
  have hqinit : (greedyInit s).queue = [(s, 0)] := rfl
  have heval : greedyFinal g s e =
      greedyLoop g e (rowsOf g * colsOf g)
        ((getNeighbors g s).foldl (greedyRelax g e s)
          { greedyInit s with
              queue := []
              closed := setAt (greedyInit s).closed s true
              order := (greedyInit s).order ++ [s] }) := by
    unfold greedyFinal
    conv_lhs => rw [greedyLoop.eq_def]
    simp [hqinit]
    intro h
    exact absurd h hse
  have hbm1 : GreedyMid g s s
      { greedyInit s with
          queue := []
          closed := setAt (greedyInit s).closed s true
          order := (greedyInit s).order ++ [s] } :=
    greedyInv_pop (greedyInv_init hs) hqinit
  have hWm1 : GWmid g s e s
      { greedyInit s with
          queue := []
          closed := setAt (greedyInit s).closed s true
          order := (greedyInit s).order ++ [s] } := by
    refine ⟨by simp [greedyInit], by simp [greedyInit]; omega, ?_, ?_, ?_,
      ?_, ?_, ?_, ?_, ?_⟩
    · rfl
    · intro i hi
      simp only [greedyInit] at hi ⊢
      have : i = 0 := by
        simp at hi
        omega
      subst this
      simp
    · intro hL
      rfl
    · intro i hi
      simp [greedyInit] at hi
    · intro x hx
      simp [greedyInit] at hx
    · intro x hx
      simp [greedyInit] at hx
    · intro x hx
      simp [greedyInit] at hx
    · simp [greedyInit, PQSorted]
  obtain ⟨hbm2, _, hcl2, hms2⟩ :=
    greedyRelax_fold (g := g) (s := s) (e := e) (getNeighbors g s) hbm1
      fun nb h => h
  obtain ⟨hWm2, _, hproc2⟩ :=
    gw_fold (s := s) hwf (getNeighbors g s) hbm1 hWm1 fun nb h => h
  have hproc3 : ∀ nb ∈ getNeighbors g s,
      ((getNeighbors g s).foldl (greedyRelax g e s)
        { greedyInit s with
            queue := []
            closed := setAt (greedyInit s).closed s true
            order := (greedyInit s).order ++ [s] }).closed nb = false →
      (nb, manhattanDistance nb e) ∈
        ((getNeighbors g s).foldl (greedyRelax g e s)
          { greedyInit s with
              queue := []
              closed := setAt (greedyInit s).closed s true
              order := (greedyInit s).order ++ [s] }).queue := by
    intro nb hnb hfr
    rw [hcl2] at hfr
    exact hproc2 nb hnb hfr
  have hW2 := gw_close he hbm2 hWm2 hproc3
  have hI2 := greedyMid_inv hbm2
  have hmeas : openMeasure g
      ((getNeighbors g s).foldl (greedyRelax g e s)
        { greedyInit s with
            queue := []
            closed := setAt (greedyInit s).closed s true
            order := (greedyInit s).order ++ [s] }).closed
      ((getNeighbors g s).foldl (greedyRelax g e s)
        { greedyInit s with
            queue := []
            closed := setAt (greedyInit s).closed s true
            order := (greedyInit s).order ++ [s] }).queue <
      rowsOf g * colsOf g := by
    rw [hms2]
    have hdec := open_pop_measure (g := g)
      (d := (greedyInit s).closed) (c := s) (p := 0) (r := [])
    rw [← hqinit] at hdec
    have hinit := greedyInit_measure (g := g) hs
    dsimp only
    omega
  rw [heval]
  exact gw_loop g s e hwf he (rowsOf g * colsOf g) _ hI2 hW2 hmeas

end PathVis

namespace PathVis

/-! ## A* on wall-free grids -/

lemma manhattan_comm (a b : Coord) :
    manhattanDistance a b = manhattanDistance b a := by
  rw [manhattan_eq, manhattan_eq]
  omega

lemma manhattan_triangle (a b c : Coord) :
    manhattanDistance a c ≤ manhattanDistance a b +
      manhattanDistance b c := by
  rw [manhattan_eq, manhattan_eq, manhattan_eq]
  omega

/-- Neighboring cells are one closer or one further from any fixed cell. -/
lemma lev_neighbor {g : Grid} {s u v : Coord}
    (h : v ∈ getNeighbors g u) :
    manhattanDistance s v + 1 = manhattanDistance s u ∨
      manhattanDistance s v = manhattanDistance s u + 1 := by
  have h2 := neighbor_delta h
  rw [manhattan_eq, manhattan_eq]
  rcases h2 with ⟨ha, hb⟩ | ⟨ha, hb⟩ | ⟨ha, hb⟩ | ⟨ha, hb⟩ <;> omega

/-- `x` lies on a monotone (optimal) route from `s` to `e`. -/
def corr (s e x : Coord) : Prop :=
  manhattanDistance s x + manhattanDistance x e = manhattanDistance s e

instance (s e x : Coord) : Decidable (corr s e x) := by
  unfold corr; infer_instance

/-- A corridor node's toward-`e` neighbor is a corridor node one level
further from `s`. -/
lemma corr_toward {g : Grid} {s e c w : Coord} (hc : corr s e c)
    (hw : w ∈ getNeighbors g c)
    (hlev : manhattanDistance w e + 1 = manhattanDistance c e) :
    corr s e w ∧
      manhattanDistance s w = manhattanDistance s c + 1 := by
  have h1 := lev_neighbor (s := s) hw
  have h2 := manhattan_triangle s w e
  unfold corr at hc ⊢
  constructor <;> omega

/-- A corridor node at positive level has a corridor neighbor one level
closer to `s`. -/
lemma corr_backward {g : Grid} {s e x : Coord} (hx : inBounds g x)
    (hs : inBounds g s) (hc : corr s e x)
    (hlev : 1 ≤ manhattanDistance s x) :
    ∃ v ∈ getNeighbors g x, corr s e v ∧
      manhattanDistance s v + 1 = manhattanDistance s x := by
  have hxs : 1 ≤ manhattanDistance x s := by
    rw [manhattan_comm]
    exact hlev
  obtain ⟨v, hvmem, hvlev⟩ := toward_neighbor hx hs hxs
  have hv1 : manhattanDistance s v + 1 = manhattanDistance s x := by
    rw [manhattan_comm s v, manhattan_comm s x]
    exact hvlev
  have h2 := manhattan_triangle s v e
  have h3 := neighbor_manhattan_pm1 (e := e) hvmem
  refine ⟨v, hvmem, ?_, hv1⟩
  unfold corr at hc ⊢
  omega

lemma pqEnqueue_append_ge {hiB : PQueue} {v : Coord} {p : Nat} :
    ∀ (mB : PQueue), (∀ y ∈ mB, y.2 ≤ p) →
      pqEnqueue (mB ++ hiB) v p = mB ++ pqEnqueue hiB v p := by
  intro mB
  induction mB with
  | nil => intro _; rfl
  | cons a t ih =>
    intro h
    have ha : a.2 ≤ p := h a (by simp)
    show pqEnqueue (a :: (t ++ hiB)) v p = a :: (t ++ pqEnqueue hiB v p)
    have hstep : pqEnqueue (a :: (t ++ hiB)) v p =
        if a.2 ≤ p then a :: pqEnqueue (t ++ hiB) v p
        else (v, p) :: a :: (t ++ hiB) := rfl
    rw [hstep, if_pos ha, ih fun y hy => h y (by simp [hy])]

lemma pqEnqueue_split {mB hiB : PQueue} {v : Coord} {p : Nat}
    (h1 : ∀ y ∈ mB, y.2 ≤ p) (h2 : ∀ y ∈ hiB, p < y.2) :
    pqEnqueue (mB ++ hiB) v p = mB ++ (v, p) :: hiB := by
  rw [pqEnqueue_append_ge mB h1]
  congr 1
  cases hiB with
  | nil => rfl
  | cons b t =>
    show pqEnqueue (b :: t) v p = (v, p) :: b :: t
    have hstep : pqEnqueue (b :: t) v p =
        if b.2 ≤ p then b :: pqEnqueue t v p
        else (v, p) :: b :: t := rfl
    rw [hstep, if_neg (by have := h2 b (by simp); omega)]

end PathVis

namespace PathVis

/-- Wall-free A* invariant, mid-iteration: the open queue splits into a
block of Manhattan-priority corridor entries at two adjacent levels
followed by strictly worse non-corridor entries; expanded nodes are
corridor nodes with exact g-scores; predecessors always step the g-score
by one. -/
structure AWmidat (g : Grid) (s e : Coord) (K : Nat) (c : Coord)
    (mA mBk hiB : PQueue) (σ : AstarState) : Prop where
  hsplit : σ.queue = mA ++ mBk ++ hiB
  hmA : ∀ y ∈ mA, y.2 = manhattanDistance s e ∧
    manhattanDistance s y.1 = K
  hmBk : ∀ y ∈ mBk, y.2 = manhattanDistance s e ∧
    manhattanDistance s y.1 = K + 1
  hmB_corr : ∀ y ∈ mA ++ mBk, corr s e y.1 ∧
    σ.gScore y.1 = some (manhattanDistance s y.1)
  hhiB : ∀ y ∈ hiB, manhattanDistance s e + 1 ≤ y.2 ∧ ¬ corr s e y.1
  hord : ∀ x ∈ σ.order, corr s e x ∧
    σ.gScore x = some (manhattanDistance s x) ∧
    manhattanDistance s x ≤ K
  hclosedlt : ∀ x, inBounds g x → corr s e x →
    manhattanDistance s x < K → x ∈ σ.order
  hlevK : ∀ x, inBounds g x → corr s e x → manhattanDistance s x = K →
    x ∈ σ.order ∨ ∃ y ∈ mA ++ mBk, y.1 = x
  hlevK1 : ∀ x, inBounds g x → corr s e x →
    manhattanDistance s x = K + 1 →
    (∃ v ∈ σ.order, v ≠ c ∧ x ∈ getNeighbors g v) →
    x ∈ σ.order ∨ ∃ y ∈ mA ++ mBk, y.1 = x
  hg_mem : ∀ x n, σ.gScore x = some n →
    x ∈ σ.order ∨ x ∈ σ.queue.map Prod.fst
  hg_sound : ∀ x n, σ.gScore x = some n → ReachIn g s n x
  hlink : ∀ x u, σ.prev x = some u → ∃ du, σ.gScore u = some du ∧
    σ.gScore x = some (du + 1)
  hcord : c ∈ σ.order
  hccorr : corr s e c
  hclev : manhattanDistance s c = K

end PathVis

namespace PathVis

lemma aw_relax {g : Grid} {s e c : Coord} {K : Nat}
    {mA mBk hiB : PQueue} {σ : AstarState} {nb : Coord}
    (hwf : ∀ x, inBounds g x → isWallAt g x = false)
    (hbm : AstarMid g s c σ) (hm : AWmidat g s e K c mA mBk hiB σ)
    (hnb : nb ∈ getNeighbors g c) :
    ∃ mBk' hiB',
      AWmidat g s e K c mA mBk' hiB' (astarRelax g e c σ nb) ∧
      (∀ y ∈ mBk, y ∈ mBk') ∧
      (corr s e nb → manhattanDistance s nb = K + 1 →
        nb ∈ σ.order ∨ ∃ y ∈ mA ++ mBk', y.1 = nb) := by
  have hnbB : inBounds g nb := getNeighbors_inBounds hnb
  have hwall : isWallAt g nb = false := hwf nb hnbB
  have hgc : σ.gScore c = some K := by
    have := (hm.hord c hm.hcord).2.1
    rw [hm.hclev] at this
    exact this
  have hlevnb := lev_neighbor (s := s) hnb
  rw [hm.hclev] at hlevnb
  by_cases hcl : σ.closed nb = true
  · have heq : astarRelax g e c σ nb = σ := by
      unfold astarRelax
      simp [hcl]
    rw [heq]
    refine ⟨mBk, hiB, hm, fun y hy => hy, ?_⟩
    intro _ _
    exact Or.inl ((hbm.closed_iff nb).mp hcl)
  · have hfresh : σ.closed nb = false := Bool.eq_false_iff.mpr hcl
    have hnbo : nb ∉ σ.order := fun h => by
      rw [(hbm.closed_iff nb).mpr h] at hfresh; cases hfresh
    have hcnb : c ≠ nb := fun h => hnbo (h ▸ hm.hcord)
    have hlevnb1 : corr s e nb → manhattanDistance s nb = K + 1 := by
      intro hcorr
      rcases hlevnb with h | h
      · exact absurd (hm.hclosedlt nb hnbB hcorr (by omega)) hnbo
      · exact h
    have hstep : stepOK g c nb := ⟨hnb, hwall⟩
    have hreach1 : ReachIn g s (K + 1) nb :=
      ReachIn.succ (hm.hg_sound c K hgc) hstep
    have hordne : ∀ x ∈ σ.order, x ≠ nb := fun x hx h1 =>
      hnbo (h1 ▸ hx)
    cases hgnb : σ.gScore nb with
    | none =>
      have hasnb : pqHasNode σ.queue nb = false := by
        apply Bool.eq_false_iff.mpr
        intro hmem
        rw [pqHasNode_mem, mem_fst_iff] at hmem
        obtain ⟨y0, hy0, hy0e⟩ := hmem
        obtain ⟨n0, hn0⟩ := hbm.queue_g y0 hy0
        rw [hy0e, hgnb] at hn0
        cases hn0
      have himp : ltInf (K + 1) (σ.gScore nb) = true := by
        rw [hgnb]
        rfl
      have heq : astarRelax g e c σ nb =
          { σ with prev := setAt σ.prev nb (some c)
                   gScore := setAt σ.gScore nb (some (K + 1))
                   fScore := setAt σ.fScore nb
                     (some (K + 1 + manhattanDistance nb e))
                   queue := pqEnqueue σ.queue nb
                     (K + 1 + manhattanDistance nb e) } := by
        unfold astarRelax
        rw [hfresh, hwall, hgc]
        simp [himp, hasnb]
      have hnbq : nb ∉ σ.queue.map Prod.fst := by
        intro h
        rw [← pqHasNode_mem] at h
        rw [hasnb] at h
        cases h
      have hgS : ∀ x, x ≠ nb →
          (setAt σ.gScore nb (some (K + 1))) x = σ.gScore x :=
        fun x hx => setAt_ne _ _ _ hx
      have hmBne : ∀ y, y ∈ mA ++ mBk → y.1 ≠ nb := by
        intro y hy h1
        refine hnbq ?_
        rw [mem_fst_iff]
        refine ⟨y, ?_, h1⟩
        rw [hm.hsplit]
        exact List.mem_append.mpr (Or.inl hy)
      have hmq1 : ∀ y ∈ mA ++ mBk, y.2 ≤ manhattanDistance s e := by
        intro y hy
        rcases List.mem_append.mp hy with h | h
        · rw [(hm.hmA y h).1]
        · rw [(hm.hmBk y h).1]
      by_cases hcorr : corr s e nb
      · have hlev1 : manhattanDistance s nb = K + 1 := hlevnb1 hcorr
        have hpr : K + 1 + manhattanDistance nb e =
            manhattanDistance s e := by
          have h2 := hcorr
          unfold corr at h2
          omega
        have hq2 : ∀ y ∈ hiB, manhattanDistance s e < y.2 := by
          intro y hy
          have := (hm.hhiB y hy).1
          omega
        have hqeq : pqEnqueue σ.queue nb
            (K + 1 + manhattanDistance nb e) =
            mA ++ (mBk ++ [(nb, manhattanDistance s e)]) ++ hiB := by
          rw [hm.hsplit, hpr, pqEnqueue_split hmq1 hq2]
          simp [List.append_assoc]
        rw [heq]
        refine ⟨mBk ++ [(nb, manhattanDistance s e)], hiB, ?_,
          fun y hy => List.mem_append.mpr (Or.inl hy), ?_⟩
        · refine ⟨?_, hm.hmA, ?_, ?_, hm.hhiB, ?_, hm.hclosedlt,
            ?_, ?_, ?_, ?_, ?_, hm.hcord, hm.hccorr, hm.hclev⟩
          · show pqEnqueue σ.queue nb _ = _
            exact hqeq
          · intro y hy
            rcases List.mem_append.mp hy with h | h
            · exact hm.hmBk y h
            · simp at h
              subst h
              exact ⟨rfl, hlev1⟩
          · intro y hy
            rw [← List.append_assoc] at hy
            rcases List.mem_append.mp hy with h | h
            · obtain ⟨h1, h2⟩ := hm.hmB_corr y h
              exact ⟨h1, by
                show setAt σ.gScore nb (some (K + 1)) y.1 = _
                rw [hgS _ (hmBne y h)]; exact h2⟩
            · simp at h
              subst h
              refine ⟨hcorr, ?_⟩
              show setAt σ.gScore nb (some (K + 1)) nb = _
              rw [setAt_eq, hlev1]
          · intro x hx
            obtain ⟨h1, h2, h3⟩ := hm.hord x hx
            exact ⟨h1, by
              show setAt σ.gScore nb (some (K + 1)) x = _
              rw [hgS _ (hordne x hx)]; exact h2, h3⟩
          · intro x hxB hxc hxK
            rcases hm.hlevK x hxB hxc hxK with h | ⟨y, hy, hy1⟩
            · exact Or.inl h
            · refine Or.inr ⟨y, ?_, hy1⟩
              rw [← List.append_assoc]
              exact List.mem_append.mpr (Or.inl hy)
          · intro x hxB hxc hxK htr
            rcases hm.hlevK1 x hxB hxc hxK htr with h | ⟨y, hy, hy1⟩
            · exact Or.inl h
            · refine Or.inr ⟨y, ?_, hy1⟩
              rw [← List.append_assoc]
              exact List.mem_append.mpr (Or.inl hy)
          · intro x n hx
            dsimp only at hx ⊢
            by_cases hxn : x = nb
            · subst hxn
              refine Or.inr ?_
              show x ∈ (pqEnqueue σ.queue x
                (K + 1 + manhattanDistance x e)).map Prod.fst
              rw [mem_fst_iff]
              exact ⟨(x, K + 1 + manhattanDistance x e),
                mem_pqEnqueue.mpr (Or.inl rfl), rfl⟩
            · rw [show (setAt σ.gScore nb (some (K + 1))) x = σ.gScore x
                from hgS _ hxn] at hx
              rcases hm.hg_mem x n hx with h | h
              · exact Or.inl h
              · refine Or.inr ?_
                show x ∈ (pqEnqueue σ.queue nb
                  (K + 1 + manhattanDistance nb e)).map Prod.fst
                rw [mem_fst_iff] at h ⊢
                obtain ⟨y0, hy0, hy0e⟩ := h
                exact ⟨y0, mem_pqEnqueue.mpr (Or.inr hy0), hy0e⟩
          · intro x n hx
            dsimp only at hx ⊢
            by_cases hxn : x = nb
            · subst hxn
              rw [show (setAt σ.gScore x (some (K + 1))) x =
                some (K + 1) from setAt_eq _ _ _] at hx
              injection hx with hx
              rw [← hx]
              exact hreach1
            · rw [show (setAt σ.gScore nb (some (K + 1))) x = σ.gScore x
                from hgS _ hxn] at hx
              exact hm.hg_sound x n hx
          · intro x u hx
            dsimp only at hx ⊢
            by_cases hxn : x = nb
            · subst hxn
              rw [show (setAt σ.prev x (some c)) x = some c from
                setAt_eq _ _ _] at hx
              injection hx with hx
              subst hx
              refine ⟨K, ?_, ?_⟩
              · show setAt σ.gScore x (some (K + 1)) c = _
                rw [hgS _ hcnb]
                exact hgc
              · show setAt σ.gScore x (some (K + 1)) x = _
                rw [setAt_eq]
            · rw [show (setAt σ.prev nb (some c)) x = σ.prev x from
                setAt_ne _ _ _ hxn] at hx
              obtain ⟨du, h1, h2⟩ := hm.hlink x u hx
              have hu : u ∈ σ.order := (hbm.prev_some x u hx).1
              refine ⟨du, ?_, ?_⟩
              · show setAt σ.gScore nb (some (K + 1)) u = _
                rw [hgS _ (hordne u hu)]
                exact h1
              · show setAt σ.gScore nb (some (K + 1)) x = _
                rw [hgS _ hxn]
                exact h2
        · intro _ _
          refine Or.inr ⟨(nb, manhattanDistance s e), ?_, rfl⟩
          rw [← List.append_assoc]
          exact List.mem_append.mpr (Or.inr (by simp))
      · have hpr : manhattanDistance s e + 1 ≤
            K + 1 + manhattanDistance nb e := by
          have htri := manhattan_triangle s nb e
          have hnc : ¬ (manhattanDistance s nb +
              manhattanDistance nb e = manhattanDistance s e) := hcorr
          rcases hlevnb with h | h <;> omega
        have hmq1b : ∀ y ∈ mA ++ mBk,
            y.2 ≤ K + 1 + manhattanDistance nb e := by
          intro y hy
          have := hmq1 y hy
          omega
        have hqeq : pqEnqueue σ.queue nb
            (K + 1 + manhattanDistance nb e) =
            mA ++ mBk ++ pqEnqueue hiB nb
              (K + 1 + manhattanDistance nb e) := by
          rw [hm.hsplit, pqEnqueue_append_ge (mA ++ mBk) hmq1b]
        rw [heq]
        refine ⟨mBk, pqEnqueue hiB nb (K + 1 + manhattanDistance nb e),
          ?_, fun y hy => hy, fun h _ => absurd h hcorr⟩
        refine ⟨?_, hm.hmA, hm.hmBk, ?_, ?_, ?_, hm.hclosedlt,
          hm.hlevK, hm.hlevK1, ?_, ?_, ?_, hm.hcord, hm.hccorr,
          hm.hclev⟩
        · show pqEnqueue σ.queue nb _ = _
          exact hqeq
        · intro y hy
          obtain ⟨h1, h2⟩ := hm.hmB_corr y hy
          exact ⟨h1, by
            show setAt σ.gScore nb (some (K + 1)) y.1 = _
            rw [hgS _ (hmBne y hy)]; exact h2⟩
        · intro y hy
          rcases mem_pqEnqueue.mp hy with h | h
          · subst h
            exact ⟨hpr, hcorr⟩
          · exact hm.hhiB y h
        · intro x hx
          obtain ⟨h1, h2, h3⟩ := hm.hord x hx
          exact ⟨h1, by
            show setAt σ.gScore nb (some (K + 1)) x = _
            rw [hgS _ (hordne x hx)]; exact h2, h3⟩
        · intro x n hx
          dsimp only at hx ⊢
          by_cases hxn : x = nb
          · subst hxn
            refine Or.inr ?_
            show x ∈ (pqEnqueue σ.queue x
              (K + 1 + manhattanDistance x e)).map Prod.fst
            rw [mem_fst_iff]
            exact ⟨(x, K + 1 + manhattanDistance x e),
              mem_pqEnqueue.mpr (Or.inl rfl), rfl⟩
          · rw [show (setAt σ.gScore nb (some (K + 1))) x = σ.gScore x
              from hgS _ hxn] at hx
            rcases hm.hg_mem x n hx with h | h
            · exact Or.inl h
            · refine Or.inr ?_
              show x ∈ (pqEnqueue σ.queue nb
                (K + 1 + manhattanDistance nb e)).map Prod.fst
              rw [mem_fst_iff] at h ⊢
              obtain ⟨y0, hy0, hy0e⟩ := h
              exact ⟨y0, mem_pqEnqueue.mpr (Or.inr hy0), hy0e⟩
        · intro x n hx
          dsimp only at hx ⊢
          by_cases hxn : x = nb
          · subst hxn
            rw [show (setAt σ.gScore x (some (K + 1))) x =
              some (K + 1) from setAt_eq _ _ _] at hx
            injection hx with hx
            rw [← hx]
            exact hreach1
          · rw [show (setAt σ.gScore nb (some (K + 1))) x = σ.gScore x
              from hgS _ hxn] at hx
            exact hm.hg_sound x n hx
        · intro x u hx
          dsimp only at hx ⊢
          by_cases hxn : x = nb
          · subst hxn
            rw [show (setAt σ.prev x (some c)) x = some c from
              setAt_eq _ _ _] at hx
            injection hx with hx
            subst hx
            refine ⟨K, ?_, ?_⟩
            · show setAt σ.gScore x (some (K + 1)) c = _
              rw [hgS _ hcnb]
              exact hgc
            · show setAt σ.gScore x (some (K + 1)) x = _
              rw [setAt_eq]
          · rw [show (setAt σ.prev nb (some c)) x = σ.prev x from
              setAt_ne _ _ _ hxn] at hx
            obtain ⟨du, h1, h2⟩ := hm.hlink x u hx
            have hu : u ∈ σ.order := (hbm.prev_some x u hx).1
            refine ⟨du, ?_, ?_⟩
            · show setAt σ.gScore nb (some (K + 1)) u = _
              rw [hgS _ (hordne u hu)]
              exact h1
            · show setAt σ.gScore nb (some (K + 1)) x = _
              rw [hgS _ hxn]
              exact h2
    | some n =>
      have hmemn := hm.hg_mem nb n hgnb
      have hqmem : nb ∈ σ.queue.map Prod.fst := by
        rcases hmemn with h | h
        · exact absurd h hnbo
        · exact h
      obtain ⟨y0, hp0raw, hv0⟩ := mem_fst_iff.mp hqmem
      obtain ⟨v0, p0⟩ := y0
      simp only at hv0
      rw [hv0] at hp0raw
      have hp0 : (nb, p0) ∈ σ.queue := hp0raw
      by_cases hcorr : corr s e nb
      · have hy0 : (nb, p0) ∈ mA ++ mBk := by
          rw [hm.hsplit] at hp0
          rcases List.mem_append.mp hp0 with h | h
          · exact h
          · exact absurd hcorr (hm.hhiB (nb, p0) h).2
        have hgexact : σ.gScore nb =
            some (manhattanDistance s nb) := (hm.hmB_corr _ hy0).2
        have hlev1 : manhattanDistance s nb = K + 1 := hlevnb1 hcorr
        have hnoimp : ltInf (K + 1) (σ.gScore nb) = false := by
          rw [hgexact, hlev1]
          simp [ltInf]
        have heq : astarRelax g e c σ nb = σ := by
          unfold astarRelax
          rw [hfresh, hwall, hgc]
          simp [hnoimp]
        rw [heq]
        exact ⟨mBk, hiB, hm, fun y hy => hy,
          fun _ _ => Or.inr ⟨(nb, p0), hy0, rfl⟩⟩
      · by_cases himp : ltInf (K + 1) (σ.gScore nb) = true
        · have hasnb : pqHasNode σ.queue nb = true :=
            pqHasNode_mem.mpr hqmem
          have heq : astarRelax g e c σ nb =
              { σ with prev := setAt σ.prev nb (some c)
                       gScore := setAt σ.gScore nb (some (K + 1))
                       fScore := setAt σ.fScore nb
                         (some (K + 1 + manhattanDistance nb e)) } := by
            unfold astarRelax
            rw [hfresh, hwall, hgc]
            simp [himp, hasnb]
          have hgS : ∀ x, x ≠ nb →
              (setAt σ.gScore nb (some (K + 1))) x = σ.gScore x :=
            fun x hx => setAt_ne _ _ _ hx
          have hmBne : ∀ y, y ∈ mA ++ mBk → y.1 ≠ nb := by
            intro y hy h1
            exact hcorr (h1 ▸ (hm.hmB_corr y hy).1)
          rw [heq]
          refine ⟨mBk, hiB, ?_, fun y hy => hy, fun h _ =>
            absurd h hcorr⟩
          refine ⟨hm.hsplit, hm.hmA, hm.hmBk, ?_, hm.hhiB, ?_,
            hm.hclosedlt, hm.hlevK, hm.hlevK1, ?_, ?_, ?_, hm.hcord,
            hm.hccorr, hm.hclev⟩
          · intro y hy
            obtain ⟨h1, h2⟩ := hm.hmB_corr y hy
            exact ⟨h1, by
              show setAt σ.gScore nb (some (K + 1)) y.1 = _
              rw [hgS _ (hmBne y hy)]; exact h2⟩
          · intro x hx
            obtain ⟨h1, h2, h3⟩ := hm.hord x hx
            exact ⟨h1, by
              show setAt σ.gScore nb (some (K + 1)) x = _
              rw [hgS _ (hordne x hx)]; exact h2, h3⟩
          · intro x n2 hx
            dsimp only at hx ⊢
            by_cases hxn : x = nb
            · subst hxn
              exact Or.inr hqmem
            · rw [show (setAt σ.gScore nb (some (K + 1))) x = σ.gScore x
                from hgS _ hxn] at hx
              exact hm.hg_mem x n2 hx
          · intro x n2 hx
            dsimp only at hx ⊢
            by_cases hxn : x = nb
            · subst hxn
              rw [show (setAt σ.gScore x (some (K + 1))) x =
                some (K + 1) from setAt_eq _ _ _] at hx
              injection hx with hx
              rw [← hx]
              exact hreach1
            · rw [show (setAt σ.gScore nb (some (K + 1))) x = σ.gScore x
                from hgS _ hxn] at hx
              exact hm.hg_sound x n2 hx
          · intro x u hx
            dsimp only at hx ⊢
            by_cases hxn : x = nb
            · subst hxn
              rw [show (setAt σ.prev x (some c)) x = some c from
                setAt_eq _ _ _] at hx
              injection hx with hx
              subst hx
              refine ⟨K, ?_, ?_⟩
              · show setAt σ.gScore x (some (K + 1)) c = _
                rw [hgS _ hcnb]
                exact hgc
              · show setAt σ.gScore x (some (K + 1)) x = _
                rw [setAt_eq]
            · rw [show (setAt σ.prev nb (some c)) x = σ.prev x from
                setAt_ne _ _ _ hxn] at hx
              obtain ⟨du, h1, h2⟩ := hm.hlink x u hx
              have hu : u ∈ σ.order := (hbm.prev_some x u hx).1
              refine ⟨du, ?_, ?_⟩
              · show setAt σ.gScore nb (some (K + 1)) u = _
                rw [hgS _ (hordne u hu)]
                exact h1
              · show setAt σ.gScore nb (some (K + 1)) x = _
                rw [hgS _ hxn]
                exact h2
        · have hnoimp : ltInf (K + 1) (σ.gScore nb) = false :=
            Bool.eq_false_iff.mpr himp
          have heq : astarRelax g e c σ nb = σ := by
            unfold astarRelax
            rw [hfresh, hwall, hgc]
            simp [hnoimp]
          rw [heq]
          exact ⟨mBk, hiB, hm, fun y hy => hy, fun h _ =>
            absurd h hcorr⟩

end PathVis

namespace PathVis

lemma getNeighbors_symm {g : Grid} {x v : Coord} (hx : inBounds g x)
    (h : v ∈ getNeighbors g x) : x ∈ getNeighbors g v := by
  have hvB : inBounds g v := getNeighbors_inBounds h
  have hd := neighbor_delta h
  unfold getNeighbors
  rcases hd with ⟨ha, hb⟩ | ⟨ha, hb⟩ | ⟨ha, hb⟩ | ⟨ha, hb⟩
  · -- v.row + 1 = x.row
    rw [List.mem_append]
    refine Or.inl ?_
    rw [List.mem_append]
    refine Or.inl ?_
    rw [List.mem_append]
    refine Or.inr ?_
    have hcond : v.row + 1 < rowsOf g ∧ v.col < colsOf g := by
      constructor
      · rw [ha]; exact hx.1
      · exact hvB.2
    rw [if_pos hcond]
    simp
    exact coord_eta x (by omega) (by omega)
  · -- v.row = x.row + 1
    rw [List.mem_append]
    refine Or.inl ?_
    rw [List.mem_append]
    refine Or.inl ?_
    rw [List.mem_append]
    refine Or.inl ?_
    have hcond : v.row ≠ 0 ∧ v.row - 1 < rowsOf g ∧ v.col < colsOf g := by
      refine ⟨by omega, by rw [ha]; simpa using hx.1, hvB.2⟩
    rw [if_pos hcond]
    simp
    exact coord_eta x (by omega) (by omega)
  · -- v.col + 1 = x.col
    rw [List.mem_append]
    refine Or.inr ?_
    have hcond : v.row < rowsOf g ∧ v.col + 1 < colsOf g := by
      constructor
      · exact hvB.1
      · rw [ha]; exact hx.2
    rw [if_pos hcond]
    simp
    exact coord_eta x (by omega) (by omega)
  · -- v.col = x.col + 1
    rw [List.mem_append]
    refine Or.inl ?_
    rw [List.mem_append]
    refine Or.inr ?_
    have hcond : v.row < rowsOf g ∧ v.col ≠ 0 ∧ v.col - 1 < colsOf g := by
      refine ⟨hvB.1, by omega, by rw [ha]; simpa using hx.2⟩
    rw [if_pos hcond]
    simp
    exact coord_eta x (by omega) (by omega)

/-- Wall-free A* invariant at loop entry. -/
structure AWat (g : Grid) (s e : Coord) (K : Nat)
    (mA mBk hiB : PQueue) (σ : AstarState) : Prop where
  hsplit : σ.queue = mA ++ mBk ++ hiB
  hmA : ∀ y ∈ mA, y.2 = manhattanDistance s e ∧
    manhattanDistance s y.1 = K
  hmBk : ∀ y ∈ mBk, y.2 = manhattanDistance s e ∧
    manhattanDistance s y.1 = K + 1
  hmB_corr : ∀ y ∈ mA ++ mBk, corr s e y.1 ∧
    σ.gScore y.1 = some (manhattanDistance s y.1)
  hhiB : ∀ y ∈ hiB, manhattanDistance s e + 1 ≤ y.2 ∧ ¬ corr s e y.1
  hord : ∀ x ∈ σ.order, corr s e x ∧
    σ.gScore x = some (manhattanDistance s x) ∧
    manhattanDistance s x ≤ K
  hclosedlt : ∀ x, inBounds g x → corr s e x →
    manhattanDistance s x < K → x ∈ σ.order
  hlevK : ∀ x, inBounds g x → corr s e x → manhattanDistance s x = K →
    x ∈ σ.order ∨ ∃ y ∈ mA ++ mBk, y.1 = x
  hlevK1 : ∀ x, inBounds g x → corr s e x →
    manhattanDistance s x = K + 1 →
    (∃ v ∈ σ.order, x ∈ getNeighbors g v) →
    x ∈ σ.order ∨ ∃ y ∈ mA ++ mBk, y.1 = x
  hg_mem : ∀ x n, σ.gScore x = some n →
    x ∈ σ.order ∨ x ∈ σ.queue.map Prod.fst
  hg_sound : ∀ x n, σ.gScore x = some n → ReachIn g s n x
  hlink : ∀ x u, σ.prev x = some u → ∃ du, σ.gScore u = some du ∧
    σ.gScore x = some (du + 1)
  hne : mA ++ mBk ≠ []

/-- Wall-free A* invariant, existentially packaged. -/
def AWinv (g : Grid) (s e : Coord) (σ : AstarState) : Prop :=
  ∃ K mA mBk hiB, AWat g s e K mA mBk hiB σ

lemma aw_fold {g : Grid} {s e c : Coord} {K : Nat} {mA : PQueue}
    (hwf : ∀ x, inBounds g x → isWallAt g x = false) :
    ∀ (nbs : List Coord) {σ : AstarState} {mBk hiB : PQueue},
      AstarMid g s c σ → AWmidat g s e K c mA mBk hiB σ →
      (∀ nb ∈ nbs, nb ∈ getNeighbors g c) →
      ∃ mBk' hiB',
        AWmidat g s e K c mA mBk' hiB'
          (nbs.foldl (astarRelax g e c) σ) ∧
        (∀ y ∈ mBk, y ∈ mBk') ∧
        (∀ nb ∈ nbs, corr s e nb → manhattanDistance s nb = K + 1 →
          nb ∈ σ.order ∨ ∃ y ∈ mA ++ mBk', y.1 = nb) := by
  intro nbs
  induction nbs with
  | nil =>
    intro σ mBk hiB _ hm _
    exact ⟨mBk, hiB, hm, fun y hy => hy, by simp⟩
  | cons a t ih =>
    intro σ mBk hiB hbm hm hmem
    have ha : a ∈ getNeighbors g c := hmem a (by simp)
    obtain ⟨hbm1, hord1, _, _⟩ := astarRelax_mid hbm ha
    obtain ⟨mBk1, hiB1, hm1, hpers1, hproc1⟩ := aw_relax hwf hbm hm ha
    obtain ⟨mBk2, hiB2, hm2, hpers2, hproc2⟩ :=
      ih hbm1 hm1 fun nb hnb => hmem nb (by simp [hnb])
    refine ⟨mBk2, hiB2, hm2, ?_, ?_⟩
    · intro y hy
      exact hpers2 y (hpers1 y hy)
    · intro nb hnb hc1 hc2
      rcases List.mem_cons.mp hnb with h | h
      · subst h
        rcases hproc1 hc1 hc2 with h | ⟨y, hy, hy1⟩
        · exact Or.inl h
        · refine Or.inr ⟨y, ?_, hy1⟩
          rcases List.mem_append.mp hy with h2 | h2
          · exact List.mem_append.mpr (Or.inl h2)
          · exact List.mem_append.mpr (Or.inr (hpers2 y h2))
      · have := hproc2 nb h hc1 hc2
        rw [hord1] at this
        exact this

end PathVis

namespace PathVis

lemma aw_pop {g : Grid} {s e : Coord} {K : Nat} {mA mBk hiB : PQueue}
    {σ : AstarState} {c : Coord} {p : Nat} {rest : PQueue}
    (hs : inBounds g s)
    (hI : AstarInv g s σ) (hW : AWat g s e K mA mBk hiB σ)
    (hq : σ.queue = (c, p) :: rest) :
    ∃ K2 mA2 mBk2,
      AWmidat g s e K2 c mA2 mBk2 hiB
        { σ with queue := rest, closed := setAt σ.closed c true,
                 order := σ.order ++ [c] } := by
  have hsplit := hW.hsplit
  rw [hq] at hsplit
  have hgmemT : ∀ x n, σ.gScore x = some n → x ∈ σ.order ++ [c] ∨
      x ∈ rest.map Prod.fst := by
    intro x n hx
    rcases hW.hg_mem x n hx with h | h
    · exact Or.inl (List.mem_append.mpr (Or.inl h))
    · rw [hq, List.map_cons] at h
      rcases List.mem_cons.mp h with h2 | h2
      · subst h2
        exact Or.inl (List.mem_append.mpr (Or.inr (by simp)))
      · exact Or.inr h2
  cases hmA : mA with
  | cons a mA' =>
    rw [hmA] at hsplit
    simp only [List.cons_append] at hsplit
    have hac : a = (c, p) := by
      have := congrArg List.head? hsplit
      simpa using this.symm
    have hrest : rest = mA' ++ mBk ++ hiB := by
      have := congrArg List.tail hsplit
      simpa using this
    have hamem : a ∈ mA ++ mBk := by
      rw [hmA]
      simp
    have hcc : corr s e c ∧ σ.gScore c = some (manhattanDistance s c) := by
      have := hW.hmB_corr a hamem
      rw [hac] at this
      exact this
    have hclev : manhattanDistance s c = K := by
      have := (hW.hmA a (by rw [hmA]; simp)).2
      rw [hac] at this
      exact this
    have hmemT : ∀ y ∈ mA' ++ mBk, y ∈ mA ++ mBk := by
      intro y hy
      rw [hmA]
      rcases List.mem_append.mp hy with h | h
      · exact List.mem_append.mpr (Or.inl (by simp [h]))
      · exact List.mem_append.mpr (Or.inr h)
    refine ⟨K, mA', mBk, ?_, ?_, hW.hmBk, ?_, hW.hhiB, ?_, ?_, ?_, ?_,
      ?_, hW.hg_sound, hW.hlink, by simp, hcc.1, hclev⟩
    · exact hrest
    · intro y hy
      exact hW.hmA y (by rw [hmA]; simp [hy])
    · intro y hy
      exact hW.hmB_corr y (hmemT y hy)
    · intro x hx
      rcases List.mem_append.mp hx with h | h
      · obtain ⟨h1, h2, h3⟩ := hW.hord x h
        exact ⟨h1, h2, h3⟩
      · simp at h
        subst h
        exact ⟨hcc.1, hcc.2, by omega⟩
    · intro x hxB hxc hxlt
      exact List.mem_append.mpr (Or.inl (hW.hclosedlt x hxB hxc hxlt))
    · intro x hxB hxc hxK
      rcases hW.hlevK x hxB hxc hxK with h | ⟨y, hy, hy1⟩
      · exact Or.inl (List.mem_append.mpr (Or.inl h))
      · rw [hmA] at hy
        rcases List.mem_append.mp hy with h2 | h2
        · rcases List.mem_cons.mp h2 with h3 | h3
          · subst h3
            rw [hac] at hy1
            simp at hy1
            subst hy1
            exact Or.inl (List.mem_append.mpr (Or.inr (by simp)))
          · exact Or.inr ⟨y, List.mem_append.mpr (Or.inl h3), hy1⟩
        · exact Or.inr ⟨y, List.mem_append.mpr (Or.inr h2), hy1⟩
    · intro x hxB hxc hxK htr
      obtain ⟨v, hv, hvc, hvnb⟩ := htr
      have hvord : v ∈ σ.order := by
        rcases List.mem_append.mp hv with h | h
        · exact h
        · simp at h
          exact absurd h hvc
      rcases hW.hlevK1 x hxB hxc hxK ⟨v, hvord, hvnb⟩ with h | ⟨y, hy, hy1⟩
      · exact Or.inl (List.mem_append.mpr (Or.inl h))
      · rw [hmA] at hy
        rcases List.mem_append.mp hy with h2 | h2
        · rcases List.mem_cons.mp h2 with h3 | h3
          · subst h3
            rw [hac] at hy1
            simp at hy1
            subst hy1
            exact Or.inl (List.mem_append.mpr (Or.inr (by simp)))
          · exact Or.inr ⟨y, List.mem_append.mpr (Or.inl h3), hy1⟩
        · exact Or.inr ⟨y, List.mem_append.mpr (Or.inr h2), hy1⟩
    · exact hgmemT
  | nil =>
    rw [hmA] at hsplit
    simp only [List.nil_append] at hsplit
    cases hmBk : mBk with
    | nil =>
      exfalso
      apply hW.hne
      rw [hmA, hmBk]
      rfl
    | cons b mBk'' =>
      rw [hmBk] at hsplit
      simp only [List.cons_append] at hsplit
      have hbc : b = (c, p) := by
        have := congrArg List.head? hsplit
        simpa using this.symm
      have hrest : rest = mBk'' ++ hiB := by
        have := congrArg List.tail hsplit
        simpa using this
      have hbmem : b ∈ mA ++ mBk := by
        rw [hmA, hmBk]
        simp
      have hcc : corr s e c ∧
          σ.gScore c = some (manhattanDistance s c) := by
        have := hW.hmB_corr b hbmem
        rw [hbc] at this
        exact this
      have hclev : manhattanDistance s c = K + 1 := by
        have := (hW.hmBk b (by rw [hmBk]; simp)).2
        rw [hbc] at this
        exact this
      have hmemT : ∀ y ∈ mBk'', y ∈ mA ++ mBk := by
        intro y hy
        rw [hmA, hmBk]
        simp [hy]
      have hlevKc : ∀ x, inBounds g x → corr s e x →
          manhattanDistance s x = K → x ∈ σ.order := by
        intro x hxB hxc hxK
        rcases hW.hlevK x hxB hxc hxK with h | ⟨y, hy, hy1⟩
        · exact h
        · exfalso
          rw [hmA, hmBk] at hy
          simp only [List.nil_append] at hy
          rcases List.mem_cons.mp hy with h2 | h2
          · rw [h2, hbc] at hy1
            simp at hy1
            rw [← hy1] at hxK
            omega
          · have := (hW.hmBk y (by rw [hmBk]; simp [h2])).2
            rw [hy1] at this
            omega
      refine ⟨K + 1, mBk'', [], ?_, ?_, by simp, ?_, hW.hhiB, ?_, ?_,
        ?_, ?_, ?_, hW.hg_sound, hW.hlink, by simp, hcc.1, hclev⟩
      · show rest = mBk'' ++ [] ++ hiB
        rw [List.append_nil]
        exact hrest
      · intro y hy
        exact hW.hmBk y (by rw [hmBk]; simp [hy])
      · intro y hy
        rw [List.append_nil] at hy
        exact hW.hmB_corr y (hmemT y hy)
      · intro x hx
        rcases List.mem_append.mp hx with h | h
        · obtain ⟨h1, h2, h3⟩ := hW.hord x h
          exact ⟨h1, h2, by omega⟩
        · simp at h
          subst h
          exact ⟨hcc.1, hcc.2, by omega⟩
      · intro x hxB hxc hxlt
        by_cases hxK : manhattanDistance s x < K
        · exact List.mem_append.mpr
            (Or.inl (hW.hclosedlt x hxB hxc hxK))
        · have : manhattanDistance s x = K := by omega
          exact List.mem_append.mpr (Or.inl (hlevKc x hxB hxc this))
      · intro x hxB hxc hxK
        by_cases hxeqc : x = c
        · subst hxeqc
          exact Or.inl (List.mem_append.mpr (Or.inr (by simp)))
        · obtain ⟨v, hvnbx, hvc, hvlev⟩ :=
            corr_backward hxB hs hxc (by omega)
          have hvK : manhattanDistance s v = K := by omega
          have hvord : v ∈ σ.order := hlevKc v
            (getNeighbors_inBounds hvnbx) hvc hvK
          have hxnbv : x ∈ getNeighbors g v := getNeighbors_symm hxB hvnbx
          rcases hW.hlevK1 x hxB hxc hxK ⟨v, hvord, hxnbv⟩ with
            h | ⟨y, hy, hy1⟩
          · exact Or.inl (List.mem_append.mpr (Or.inl h))
          · rw [hmA, hmBk] at hy
            simp only [List.nil_append] at hy
            rcases List.mem_cons.mp hy with h2 | h2
            · subst h2
              rw [hbc] at hy1
              simp at hy1
              exact absurd hy1.symm hxeqc
            · exact Or.inr ⟨y, by
                rw [List.append_nil]
                exact h2, hy1⟩
      · intro x hxB hxc hxK htr
        exfalso
        obtain ⟨v, hv, hvc, hvnb⟩ := htr
        have hvord : v ∈ σ.order := by
          rcases List.mem_append.mp hv with h | h
          · exact h
          · simp at h
            exact absurd h hvc
        have hvK : manhattanDistance s v ≤ K := (hW.hord v hvord).2.2
        have := lev_neighbor (s := s) hvnb
        omega
      · exact hgmemT

end PathVis

namespace PathVis

lemma aw_close {g : Grid} {s e c : Coord} {K : Nat}
    {mA mBk hiB : PQueue} {σ : AstarState} (hce : c ≠ e)
    (he : inBounds g e)
    (hbm : AstarMid g s c σ) (hm : AWmidat g s e K c mA mBk hiB σ)
    (hproc : ∀ nb ∈ getNeighbors g c, corr s e nb →
      manhattanDistance s nb = K + 1 →
      nb ∈ σ.order ∨ ∃ y ∈ mA ++ mBk, y.1 = nb) :
    AWat g s e K mA mBk hiB σ := by
  have hcB : inBounds g c := (hbm.order_dom c hm.hcord).1
  have hc1 : 1 ≤ manhattanDistance c e := by
    rcases Nat.eq_zero_or_pos (manhattanDistance c e) with h | h
    · exact absurd (manhattan_eq_zero h) hce
    · exact h
  refine ⟨hm.hsplit, hm.hmA, hm.hmBk, hm.hmB_corr, hm.hhiB, hm.hord,
    hm.hclosedlt, hm.hlevK, ?_, hm.hg_mem, hm.hg_sound, hm.hlink, ?_⟩
  · intro x hxB hxc hxK htr
    obtain ⟨v, hv, hvnb⟩ := htr
    by_cases hvc : v = c
    · subst hvc
      exact hproc x hvnb hxc hxK
    · exact hm.hlevK1 x hxB hxc hxK ⟨v, hv, hvc, hvnb⟩
  · obtain ⟨w, hwmem, hwlev⟩ := toward_neighbor hcB he hc1
    obtain ⟨hwc, hwlev2⟩ := corr_toward hm.hccorr hwmem hwlev
    have hwK1 : manhattanDistance s w = K + 1 := by
      rw [hwlev2, hm.hclev]
    rcases hproc w hwmem hwc hwK1 with h | ⟨y, hy, _⟩
    · have := (hm.hord w h).2.2
      omega
    · intro h0
      rw [h0] at hy
      simp at hy

end PathVis

namespace PathVis

/-- With step-by-one predecessor links, an ancestor chain's length is
exactly the g-score of its endpoint. -/
lemma astar_chain_len {s : Coord} {σ : AstarState}
    (hlink : ∀ x u, σ.prev x = some u → ∃ du,
      σ.gScore u = some du ∧ σ.gScore x = some (du + 1))
    (hg_mem : ∀ x n, σ.gScore x = some n →
      x ∈ σ.order ∨ x ∈ σ.queue.map Prod.fst)
    (hprev_ex : ∀ x, (x ∈ σ.order ∨ x ∈ σ.queue.map Prod.fst) → x ≠ s →
      σ.prev x ≠ none)
    (hg_s : σ.gScore s = some 0) :
    ∀ {x : Coord} {l : List Coord}, AncChain σ.prev x l →
      ∀ {n : Nat}, σ.gScore x = some n → l.length = n := by
  intro x l hC
  induction hC with
  | nil h0 =>
    rename_i x1
    intro n hn
    have hxs : x1 = s := by
      by_contra hne
      exact hprev_ex x1 (hg_mem x1 n hn) hne h0
    subst hxs
    rw [hg_s] at hn
    injection hn with hn
  | cons hc hu ih =>
    rename_i x1 u1 l1
    intro n hn
    obtain ⟨du, h1, h2⟩ := hlink x1 u1 hc
    rw [hn] at h2
    injection h2 with h2
    have := ih h1
    simp only [List.length_append, List.length_cons, List.length_nil]
    omega

end PathVis

namespace PathVis

theorem aw_loop (g : Grid) (s e : Coord)
    (hwf : ∀ x, inBounds g x → isWallAt g x = false)
    (hs : inBounds g s) (he : inBounds g e) :
    ∀ (fuel : Nat) (σ : AstarState), AstarInv g s σ → AWinv g s e σ →
      openMeasure g σ.closed σ.queue < fuel →
      ∃ l, getNodesInShortestPathOrder (astarLoop g e fuel σ).prev e
          (walkFuel g) = some l ∧
        l.length = manhattanDistance s e := by
  intro fuel
  induction fuel with
  | zero =>
    intro σ _ _ h
    omega
  | succ f ih =>
    intro σ hI hW hmeas
    obtain ⟨K, mA, mBk, hiB, hWat⟩ := hW
    cases hq : σ.queue with
    | nil =>
      exfalso
      have hsp := hWat.hsplit
      rw [hq] at hsp
      have := hsp.symm
      rw [List.append_eq_nil] at this
      rw [List.append_eq_nil] at this
      exact hWat.hne (by rw [this.1.1, this.1.2]; rfl)
    | cons y rest =>
      obtain ⟨c, p⟩ := y
      have hsp := hWat.hsplit
      rw [hq] at hsp
      have hcmB : (c, p) ∈ mA ++ mBk := by
        cases hmb : mA ++ mBk with
        | nil => exact absurd hmb hWat.hne
        | cons z zt =>
          have hz : (c, p) = z := by
            rw [hmb] at hsp
            have := congrArg List.head? hsp
            simpa using this
          rw [hz]
          simp
      have hgc : σ.gScore c = some (manhattanDistance s c) :=
        (hWat.hmB_corr _ hcmB).2
      have hccorr : corr s e c := (hWat.hmB_corr _ hcmB).1
      by_cases hce : c = e
      · have heval : astarLoop g e (f + 1) σ =
            { σ with queue := rest, order := σ.order ++ [c] } := by
          conv_lhs => rw [astarLoop.eq_def]
          simp [hq]
          intro h
          exact absurd hce h
        have hge : σ.gScore e = some (manhattanDistance s e) := by
          rw [hce] at hgc
          exact hgc
        have hM : ∀ x u, σ.prev x = some u → u ∈ σ.order :=
          fun x u h => (hI.prev_some x u h).1
        obtain ⟨l, hC, hlen, _⟩ := ancChain_total hI.prevOrder hM e
        have hnodup : σ.order.Nodup := (List.nodup_append.mp hI.nodupAll).1
        have hbound : σ.order.length ≤ rowsOf g * colsOf g :=
          nodup_inBounds_length_le hnodup
            fun x hx => (hI.order_dom x hx).1
        have hflt : l.length < walkFuel g := by
          unfold walkFuel
          omega
        have hwalk := getNodes_of_ancChain hC hflt
        have hlenl : l.length = manhattanDistance s e :=
          astar_chain_len hWat.hlink hWat.hg_mem hI.prev_exists hI.g_s
            hC hge
        rw [heval]
        exact ⟨l, hwalk, hlenl⟩
      · have heval : astarLoop g e (f + 1) σ =
            astarLoop g e f ((getNeighbors g c).foldl (astarRelax g e c)
              { σ with queue := rest, closed := setAt σ.closed c true,
                       order := σ.order ++ [c] }) := by
          conv_lhs => rw [astarLoop.eq_def]
          simp [hq]
          intro h
          exact absurd h hce
        rw [heval]
        have hbm := astarInv_pop hI hq
        obtain ⟨K2, mA2, mBk2, hWm⟩ := aw_pop hs hI hWat hq
        obtain ⟨hbm2, hord2, hcl2, hms2⟩ :=
          astarRelax_fold (getNeighbors g c) hbm fun nb h => h
        obtain ⟨mBk3, hiB3, hWm3, _, hproc3⟩ :=
          aw_fold hwf (getNeighbors g c) hbm hWm fun nb h => h
        have hproc4 : ∀ nb ∈ getNeighbors g c, corr s e nb →
            manhattanDistance s nb = K2 + 1 →
            nb ∈ ((getNeighbors g c).foldl (astarRelax g e c)
              { σ with queue := rest, closed := setAt σ.closed c true,
                       order := σ.order ++ [c] }).order ∨
            ∃ y ∈ mA2 ++ mBk3, y.1 = nb := by
          intro nb hnb h1 h2
          rw [hord2]
          exact hproc3 nb hnb h1 h2
        have hWat2 := aw_close hce he hbm2 hWm3 hproc4
        have hI2 := astarMid_inv hbm2
        apply ih _ hI2 ⟨K2, mA2, mBk3, hiB3, hWat2⟩
        rw [hms2]
        have hdec := open_pop_measure (g := g) (d := σ.closed)
          (c := c) (p := p) (r := rest)
        rw [← hq] at hdec
        dsimp only
        omega

lemma awInit {g : Grid} {s e : Coord} (hs : inBounds g s) :
    AWat g s e 0 [(s, manhattanDistance s e)] [] []
      (astarInit s e) := by
  have hqinit : (astarInit s e).queue =
      [(s, manhattanDistance s e)] := rfl
  refine ⟨?_, ?_, by simp, ?_, by simp, ?_, ?_, ?_, ?_, ?_, ?_, ?_,
    by simp⟩
  · rw [hqinit]
    simp
  · intro y hy
    simp at hy
    subst hy
    exact ⟨rfl, manhattan_self s⟩
  · intro y hy
    simp at hy
    subst hy
    refine ⟨?_, ?_⟩
    · show corr s e s
      unfold corr
      rw [manhattan_self]
      omega
    · show (astarInit s e).gScore s = _
      rw [manhattan_self]
      show setAt (fun _ => none) s (some 0) s = some 0
      rw [setAt_eq]
  · intro x hx
    simp [astarInit] at hx
  · intro x _ _ hxlt
    omega
  · intro x hxB hxc hx0
    refine Or.inr ⟨(s, manhattanDistance s e), by simp, ?_⟩
    have := manhattan_eq_zero hx0
    rw [← this]
  · intro x hxB hxc hx1 htr
    obtain ⟨v, hv, _⟩ := htr
    simp [astarInit] at hv
  · intro x n hx
    show x ∈ (astarInit s e).order ∨ _
    by_cases hxs : x = s
    · subst hxs
      refine Or.inr ?_
      rw [hqinit]
      simp
    · exfalso
      have : (astarInit s e).gScore x = none := by
        show setAt (fun _ => none) s (some 0) x = none
        rw [setAt_ne _ _ _ hxs]
      rw [this] at hx
      cases hx
  · intro x n hx
    by_cases hxs : x = s
    · subst hxs
      have : (astarInit x e).gScore x = some 0 := by
        show setAt (fun _ => none) x (some 0) x = some 0
        rw [setAt_eq]
      rw [this] at hx
      injection hx with hx
      rw [← hx]
      exact ReachIn.zero
    · exfalso
      have : (astarInit s e).gScore x = none := by
        show setAt (fun _ => none) s (some 0) x = none
        rw [setAt_ne _ _ _ hxs]
      rw [this] at hx
      cases hx
  · intro x u hx
    cases hx

lemma astarInit_measure {g : Grid} {s e : Coord} (hs : inBounds g s) :
    openMeasure g (astarInit s e).closed (astarInit s e).queue =
      rowsOf g * colsOf g := by
  unfold openMeasure
  have hcnt : ((allCoords g).filter fun x =>
      !(astarInit s e).closed x &&
        !pqHasNode (astarInit s e).queue x).length + 1 =
      rowsOf g * colsOf g := by
    rw [← List.countP_eq_length_filter]
    have := countP_flip_at (L := allCoords g)
      (p := fun _ => true)
      (q := fun x => !(astarInit s e).closed x &&
        !pqHasNode (astarInit s e).queue x) (b := s)
      rfl
      (by
        have h1 : (astarInit s e).closed s = false := rfl
        have h2 : pqHasNode (astarInit s e).queue s = true := by
          rw [pqHasNode_mem]
          show s ∈ [(s, manhattanDistance s e)].map Prod.fst
          simp
        simp [h1, h2])
      (nodup_allCoords g) (mem_allCoords.mpr hs)
      (by
        intro x _ hxs
        have h1 : (astarInit s e).closed x = false := rfl
        have h2 : pqHasNode (astarInit s e).queue x = false := by
          apply Bool.eq_false_iff.mpr
          intro hmem
          rw [pqHasNode_mem] at hmem
          rw [show (astarInit s e).queue =
            [(s, manhattanDistance s e)] from rfl] at hmem
          simp at hmem
          exact hxs hmem
        simp [h1, h2])
    rw [this]
    rw [List.countP_true, length_allCoords]
  have hlen : (astarInit s e).queue.length = 1 := rfl
  rw [hlen]
  omega

/-- On a wall-free grid, the backward walk over `astar`'s final
predecessor map returns a path of exactly the Manhattan distance. -/
theorem astar_wallfree_path (g : Grid) (s e : Coord) (hs : inBounds g s)
    (he : inBounds g e)
    (hwf : ∀ x, inBounds g x → isWallAt g x = false) :
    ∃ l, getNodesInShortestPathOrder (astarFinal g s e).prev e
        (walkFuel g) = some l ∧
      l.length = manhattanDistance s e := by
  unfold astarFinal
  apply aw_loop g s e hwf hs he _ _ (astarInv_init hs)
    ⟨0, [(s, manhattanDistance s e)], [], [], awInit hs⟩
  rw [astarInit_measure hs]
  omega

end PathVis

namespace PathVis

lemma wallfree_isWallAt {g : Grid}
    (h : ∀ row ∈ g, ∀ b ∈ row, b = false) :
    ∀ c, isWallAt g c = false := by
  intro c
  unfold isWallAt
  by_cases hr : c.row < g.length
  · rw [List.getD_eq_getElem g [] hr]
    by_cases hc2 : c.col < g[c.row].length
    · rw [List.getD_eq_getElem _ false hc2]
      exact h g[c.row] (g.getElem_mem hr) _ (List.getElem_mem hc2)
    · rw [List.getD_eq_default]
      omega
  · rw [List.getD_eq_default g [] (by omega)]
    rw [List.getD_eq_default]
    simp

/-- C2 (amended): on a rectangular wall-free grid with distinct in-bounds
endpoints, `bfs`, `dijkstra`, `astar` and `greedy` each return a non-empty
`shortestPath` whose length is exactly the Manhattan distance between
start and end, while `dfs` returns a non-empty path that is only bounded
below by the Manhattan distance — the concrete counterexample shows it can
be strictly longer. -/
theorem wallfree_manhattan_paths (g : Grid) (s e : Coord) (hR : Rect g)
    (hs : inBounds g s) (he : inBounds g e) (hse : s ≠ e)
    (hwf0 : ∀ row ∈ g, ∀ b ∈ row, b = false) :
    ((bfs g (some s) (some e)).shortestPath ≠ [] ∧
      (bfs g (some s) (some e)).shortestPath.length =
        manhattanDistance s e) ∧
    ((dijkstra g (some s) (some e)).shortestPath ≠ [] ∧
      (dijkstra g (some s) (some e)).shortestPath.length =
        manhattanDistance s e) ∧
    ((astar g (some s) (some e)).shortestPath ≠ [] ∧
      (astar g (some s) (some e)).shortestPath.length =
        manhattanDistance s e) ∧
    ((greedy g (some s) (some e)).shortestPath ≠ [] ∧
      (greedy g (some s) (some e)).shortestPath.length =
        manhattanDistance s e) ∧
    ((dfs g (some s) (some e)).shortestPath ≠ [] ∧
      manhattanDistance s e ≤
        (dfs g (some s) (some e)).shortestPath.length) := by
  obtain ⟨hr, hc⟩ := inBounds_pos hs
  have hwfA : ∀ c, isWallAt g c = false := wallfree_isWallAt hwf0
  have hwf : ∀ c, inBounds g c → isWallAt g c = false :=
    fun c _ => hwfA c
  have hm1 : 1 ≤ manhattanDistance s e := by
    rcases Nat.eq_zero_or_pos (manhattanDistance s e) with h | h
    · exact absurd (manhattan_eq_zero h) hse
    · exact h
  have hdm : distIs g s e (manhattanDistance s e) :=
    distIs_manhattan hs he hwf
  have hre : Reach g s e := ⟨manhattanDistance s e, hdm.1⟩
  have hes : e ≠ s := fun h => hse h.symm
  rw [bfs_some hr hc, dijkstra_some hr hc, astar_some hr hc,
    greedy_some hr hc, dfs_some hr hc]
  refine ⟨?_, ?_, ?_, ?_, ?_⟩
  · obtain ⟨_, ⟨lb, hwb, hcb⟩, ⟨_, hbatt, _⟩⟩ := bfs_run_spec g s e hs
    have hpe := hbatt hre hes
    rcases hcb with ⟨h0, _⟩ | ⟨h1, h2, _⟩
    · exact absurd h0 hpe
    · rw [show (getNodesInShortestPathOrder (bfsFinal g s e).prev e
        (walkFuel g)).getD [] = lb by rw [hwb]; rfl]
      exact ⟨h1, distIs_unique h2 hdm⟩
  · obtain ⟨_, _, ⟨ld, hwd, hcd⟩, ⟨_, hdatt, _⟩⟩ := dij_run_spec g s e hs
    have hpe := hdatt hre hes
    rcases hcd with ⟨h0, _⟩ | ⟨h1, h2, _⟩
    · exact absurd h0 hpe
    · rw [show (getNodesInShortestPathOrder (dijkstraFinal g s e).prev e
        (walkFuel g)).getD [] = ld by rw [hwd]; rfl]
      exact ⟨h1, distIs_unique h2 hdm⟩
  · obtain ⟨la, hwa, hla⟩ := astar_wallfree_path g s e hs he hwf
    rw [show (getNodesInShortestPathOrder (astarFinal g s e).prev e
      (walkFuel g)).getD [] = la by rw [hwa]; rfl]
    refine ⟨?_, hla⟩
    intro h0
    dsimp only at h0
    rw [h0] at hla
    simp at hla
    omega
  · obtain ⟨lg, hwg, hlg⟩ := greedy_wallfree_path g s e hs he hwf hse
    rw [show (getNodesInShortestPathOrder (greedyFinal g s e).prev e
      (walkFuel g)).getD [] = lg by rw [hwg]; rfl]
    refine ⟨?_, hlg⟩
    intro h0
    dsimp only at h0
    rw [h0] at hlg
    simp at hlg
    omega
  · obtain ⟨_, ⟨lf, hwf2, hcf⟩, ⟨_, hfatt, _⟩⟩ := dfs_run_spec g s e hs
    have hpe := hfatt hre hes
    rcases hcf with ⟨h0, _⟩ | ⟨h1, h2, _⟩
    · exact absurd h0 hpe
    · rw [show (getNodesInShortestPathOrder (dfsFinal g s e).prev e
        (walkFuel g)).getD [] = lf by rw [hwf2]; rfl]
      exact ⟨h1, manhattan_le_reachIn h2⟩

theorem wallfree_manhattan_paths_witness :
    Rect gridNW33 ∧ inBounds gridNW33 ⟨0, 1⟩ ∧ inBounds gridNW33 ⟨2, 1⟩ ∧
    (⟨0, 1⟩ : Coord) ≠ ⟨2, 1⟩ ∧
    (∀ row ∈ gridNW33, ∀ b ∈ row, b = false) ∧
    ((bfs gridNW33 (some ⟨0, 1⟩) (some ⟨2, 1⟩)).shortestPath ≠ [] ∧
      (bfs gridNW33 (some ⟨0, 1⟩) (some ⟨2, 1⟩)).shortestPath.length =
        manhattanDistance ⟨0, 1⟩ ⟨2, 1⟩) ∧
    ((dijkstra gridNW33 (some ⟨0, 1⟩) (some ⟨2, 1⟩)).shortestPath ≠ [] ∧
      (dijkstra gridNW33 (some ⟨0, 1⟩)
        (some ⟨2, 1⟩)).shortestPath.length =
        manhattanDistance ⟨0, 1⟩ ⟨2, 1⟩) ∧
    ((astar gridNW33 (some ⟨0, 1⟩) (some ⟨2, 1⟩)).shortestPath ≠ [] ∧
      (astar gridNW33 (some ⟨0, 1⟩) (some ⟨2, 1⟩)).shortestPath.length =
        manhattanDistance ⟨0, 1⟩ ⟨2, 1⟩) ∧
    ((greedy gridNW33 (some ⟨0, 1⟩) (some ⟨2, 1⟩)).shortestPath ≠ [] ∧
      (greedy gridNW33 (some ⟨0, 1⟩)
        (some ⟨2, 1⟩)).shortestPath.length =
        manhattanDistance ⟨0, 1⟩ ⟨2, 1⟩) ∧
    ((dfs gridNW33 (some ⟨0, 1⟩) (some ⟨2, 1⟩)).shortestPath ≠ [] ∧
      manhattanDistance ⟨0, 1⟩ ⟨2, 1⟩ ≤
        (dfs gridNW33 (some ⟨0, 1⟩) (some ⟨2, 1⟩)).shortestPath.length) := by
  have hT := wallfree_manhattan_paths gridNW33 ⟨0, 1⟩ ⟨2, 1⟩ (by decide)
    (by decide) (by decide) (by decide) (by decide)
  exact ⟨by decide, by decide, by decide, by decide, by decide,
    hT.1, hT.2.1, hT.2.2.1, hT.2.2.2.1, hT.2.2.2.2⟩

end PathVis
